import Mathlib

/-!
Verification of the serde_luaq Lua-subset parser, value model, formatter and
JSON bridge against its natural-language specification.

The embedding models bytes as `Nat` (each < 256 in practice), Rust machine
integers as `Int`/`Nat` with explicit `% 2^w` wrapping, `f64` as an explicit
sign/mantissa/exponent datatype with executable round-to-nearest-even, and the
rust-peg parser as a deterministic recursive-descent function threading a
write-only "farthest failure" record (position plus whether the
"too deeply nested" message was raised at that position), mirroring rust-peg's
`ErrorState` farthest-failure reporting.
-/

set_option maxHeartbeats 1000000
set_option maxRecDepth 100000

namespace SerdeLuaq

/-! ## Farthest-failure error state (models rust-peg's `ErrorState`) -/

/-- Farthest failure position, and whether the set of expected tokens at that
position contains the "too deeply nested" message (the spec's DepthExceeded). -/
structure ErrSt where
  pos : Nat
  depth : Bool
  deriving Repr, DecidableEq

/-- The empty record: nothing has failed yet (rust-peg starts at position 0
with an empty expected set). -/
def noErr : ErrSt := ⟨0, false⟩

/-- Merge two failure records, keeping the farthest position; at equal
positions the expected sets are unioned, so the depth flags are or-ed. -/
def ErrSt.merge (a b : ErrSt) : ErrSt :=
  if a.pos < b.pos then b
  else if b.pos < a.pos then a
  else ⟨a.pos, a.depth || b.depth⟩

/-- A parse result: `none` on failure, or the value with the next input
position; paired with the accumulated farthest-failure record. -/
def M (α : Type) : Type := Option (α × Nat) × ErrSt

/-- A parser over a fixed input, from a starting position. -/
def P (α : Type) : Type := Nat → M α

/-- Sequencing: run `p`, then `f` from where `p` stopped, merging failure
records (rust-peg threads one mutable `ErrorState` through the whole parse). -/
def pbind {α β : Type} (p : P α) (f : α → P β) : P β := fun pos =>
  match p pos with
  | (none, e) => (none, e)
  | (some (a, pos'), e) =>
    match f a pos' with
    | (r, e') => (r, e.merge e')

/-- PEG ordered choice: `q` runs from the original position only if `p`
fails; failure records from both branches are merged. -/
def porelse {α : Type} (p q : P α) : P α := fun pos =>
  match p pos with
  | (some r, e) => (some r, e)
  | (none, e) =>
    match q pos with
    | (r, e') => (r, e.merge e')

/-- Succeed without consuming anything and without recording a failure. -/
def ppure {α : Type} (a : α) : P α := fun pos => (some (a, pos), noErr)

/-- Fail, recording an expected item at the current position; `flag` is true
only for the "too deeply nested" message. -/
def pfail {α : Type} (flag : Bool) : P α := fun pos => (none, ⟨pos, flag⟩)

/-- Transform the parsed value. -/
def pmap {α β : Type} (f : α → β) (p : P α) : P β := fun pos =>
  match p pos with
  | (none, e) => (none, e)
  | (some (a, pos'), e) => (some (f a, pos'), e)

/-- PEG option `e?`: if `e` fails, succeed with `none` consuming nothing
(committed; the continuation never re-runs the option). -/
def popt {α : Type} (p : P α) : P (Option α) := fun pos =>
  match p pos with
  | (some (a, pos'), e) => (some (some a, pos'), e)
  | (none, e) => (some (none, pos), e)

/-- Negative lookahead `!e`: consumes nothing; rust-peg suppresses failure
recording inside lookaheads, so no position is recorded either way. -/
def pnot {α : Type} (p : P α) : P Unit := fun pos =>
  match (p pos).1 with
  | some _ => (none, noErr)
  | none => (some ((), pos), noErr)

/-! ## Input primitives -/

/-- Does the literal `lit` occur in `inp` at position `pos`? -/
def matchAt (inp : List Nat) (pos : Nat) (lit : List Nat) : Bool :=
  decide ((inp.drop pos).take lit.length = lit)

/-- Literal match (rust-peg `"lit"`): on failure the expected literal is
recorded at the starting position. -/
def plit (inp : List Nat) (lit : List Nat) : P Unit := fun pos =>
  if matchAt inp pos lit then (some ((), pos + lit.length), noErr)
  else (none, ⟨pos, false⟩)

/-- Single byte matching a class (rust-peg `[ ... ]`): failure is recorded at
the current position. -/
def pclass (inp : List Nat) (f : Nat → Bool) : P Nat := fun pos =>
  match inp.get? pos with
  | some b => if f b then (some (b, pos + 1), noErr) else (none, ⟨pos, false⟩)
  | none => (none, ⟨pos, false⟩)

/-- Any byte (rust-peg `[_]`). -/
def pany (inp : List Nat) : P Nat := fun pos =>
  match inp.get? pos with
  | some b => (some (b, pos + 1), noErr)
  | none => (none, ⟨pos, false⟩)

/-- Length of the maximal run of bytes satisfying `f` starting at `pos`. -/
def runLen (inp : List Nat) (f : Nat → Bool) (pos : Nat) : Nat :=
  ((inp.drop pos).takeWhile f).length

/-- Greedy class repetition `[...]*`: always succeeds, recording the failed
extra attempt at the stop position unless the class is inside `quiet!`. -/
def pclassMany (inp : List Nat) (f : Nat → Bool) (quietRun : Bool) :
    P (Nat × Nat) := fun pos =>
  let n := runLen inp f pos
  (some ((pos, n), pos + n), if quietRun then noErr else ⟨pos + n, false⟩)

/-- Greedy class repetition `[...]+` (at least one byte). -/
def pclassMany1 (inp : List Nat) (f : Nat → Bool) (quietRun : Bool) :
    P (Nat × Nat) := fun pos =>
  let n := runLen inp f pos
  if n = 0 then (none, ⟨pos, false⟩)
  else (some ((pos, n), pos + n), if quietRun then noErr else ⟨pos + n, false⟩)

/-- Extract the input slice at `start` of length `len`. -/
def slice (inp : List Nat) (start len : Nat) : List Nat :=
  (inp.drop start).take len

/-! ## Byte classes (from the grammar) -/

def isWs (b : Nat) : Bool :=
  b = 32 || b = 10 || b = 9 || b = 13 || b = 11 || b = 12

def isDigit (b : Nat) : Bool := 48 ≤ b && b ≤ 57

def isHexDigit (b : Nat) : Bool :=
  (48 ≤ b && b ≤ 57) || (97 ≤ b && b ≤ 102) || (65 ≤ b && b ≤ 70)

def isAlpha (b : Nat) : Bool :=
  (97 ≤ b && b ≤ 122) || (65 ≤ b && b ≤ 90)

def isIdentStart (b : Nat) : Bool := isAlpha b || b = 95

def isIdentCont (b : Nat) : Bool := isIdentStart b || isDigit b

/-! ## IEEE binary64 model

`f64` is modelled explicitly: NaN, signed infinities, and finite values
`(-1)^neg * m * 2^e`.  Conversions from literals round to nearest, ties to
even, with overflow to infinity and gradual underflow, matching the IEEE
semantics the Rust standard library and C `strtod` implement. -/

inductive F64 where
  | nan : F64
  | inf (neg : Bool) : F64
  | finite (neg : Bool) (m : Nat) (e : Int) : F64
  deriving Repr, DecidableEq

/-- Number of bits in the binary representation of `n` (0 for 0); the fuel
argument of the helper only bounds the recursion and never runs out. -/
def bitlenAux : Nat → Nat → Nat
  | 0, _ => 0
  | fuel + 1, n => if n = 0 then 0 else bitlenAux fuel (n / 2) + 1

def bitlen (n : Nat) : Nat := bitlenAux n n

/-- Round the positive rational `num / den` to the nearest `f64` magnitude
(ties to even), attaching sign `neg`; overflow gives an infinity, values
below the subnormal range round to (signed) zero. -/
def roundRatF64 (neg : Bool) (num den : Nat) : F64 :=
  if num = 0 then .finite neg 0 0
  else
    -- scale so that the integer quotient has 55 or 56 bits
    let s : Int := 55 + (bitlen den : Int) - (bitlen num : Int)
    let num' := num <<< s.toNat
    let den' := den <<< (-s).toNat
    let q := num' / den'
    let r := num' % den'
    let k := bitlen q - 53
    let e0 : Int := (k : Int) - s
    if e0 < -1074 then
      -- subnormal range: round at the fixed granularity 2^(-1074)
      let k' := k + (-1074 - e0).toNat
      let m0 := q >>> k'
      let guard := q.testBit (k' - 1)
      let sticky := decide (q % 2 ^ (k' - 1) ≠ 0) || decide (r ≠ 0)
      let m1 := if guard && (sticky || decide (m0 % 2 = 1)) then m0 + 1 else m0
      .finite neg m1 (-1074)
    else
      let m0 := q >>> k
      let guard := q.testBit (k - 1)
      let sticky := decide (q % 2 ^ (k - 1) ≠ 0) || decide (r ≠ 0)
      let m1 := if guard && (sticky || decide (m0 % 2 = 1)) then m0 + 1 else m0
      if m1 = 2 ^ 53 then
        if e0 + 1 > 971 then .inf neg else .finite neg (2 ^ 52) (e0 + 1)
      else if e0 > 971 then .inf neg
      else .finite neg m1 e0

def F64.is_nan : F64 → Bool
  | .nan => true
  | _ => false

def F64.is_infinite : F64 → Bool
  | .inf _ => true
  | _ => false

def F64.is_finite : F64 → Bool
  | .finite .. => true
  | _ => false

/-- Rust `f64` equality (`==`): NaN is unequal to everything, `-0.0 == 0.0`,
and finite values compare by real value. -/
def F64.beq : F64 → F64 → Bool
  | .nan, _ => false
  | _, .nan => false
  | .inf a, .inf b => a = b
  | .inf _, .finite .. => false
  | .finite .., .inf _ => false
  | .finite n1 m1 e1, .finite n2 m2 e2 =>
    if m1 = 0 && m2 = 0 then true
    else if n1 ≠ n2 then false
    else if e1 ≤ e2 then decide (m1 = m2 <<< (e2 - e1).toNat)
    else decide (m1 <<< (e1 - e2).toNat = m2)

/-! ## Value model (value.rs, table_entry.rs, number/mod.rs) -/

/-- Rust `Cow<'a, [u8]>`: either a borrowed slice (of the input buffer or of
static data) or an owned buffer; `cap` records the owned vector's capacity. -/
inductive CowBytes where
  | borrowed (bs : List Nat) : CowBytes
  | owned (bs : List Nat) (cap : Nat) : CowBytes
  deriving Repr, DecidableEq

def CowBytes.bytes : CowBytes → List Nat
  | .borrowed bs => bs
  | .owned bs _ => bs

/-- `LuaNumber`: 64-bit signed integer or binary64 float. -/
inductive LuaNumber where
  | Integer (i : Int) : LuaNumber
  | Float (f : F64) : LuaNumber
  deriving Repr, DecidableEq

/-- Rust derived `PartialEq` for `LuaNumber` (same variant, `f64 ==` for
floats). -/
def LuaNumber.beq : LuaNumber → LuaNumber → Bool
  | .Integer a, .Integer b => a = b
  | .Float a, .Float b => a.beq b
  | _, _ => false

mutual

/-- `LuaValue`: nil, boolean, number, byte string, table (ordered entry
list). -/
inductive LuaValue where
  | Nil : LuaValue
  | Boolean (b : Bool) : LuaValue
  | String (s : CowBytes) : LuaValue
  | Number (n : LuaNumber) : LuaValue
  | Table (entries : List LuaTableEntry) : LuaValue
  deriving Repr

/-- `LuaTableEntry`: how a table field was spelled, with the space-optimized
specializations of `Positional`. -/
inductive LuaTableEntry where
  | KeyValue (k v : LuaValue) : LuaTableEntry
  | NameValue (name : List Nat) (v : LuaValue) : LuaTableEntry
  | Value (v : LuaValue) : LuaTableEntry
  | NumberValue (n : LuaNumber) : LuaTableEntry
  | BooleanValue (b : Bool) : LuaTableEntry
  | NilValue : LuaTableEntry
  deriving Repr

end

mutual

/-- Table-nesting depth of a value (0 for non-tables; an empty table has
depth 1). -/
def depthV : LuaValue → Nat
  | .Nil => 0
  | .Boolean _ => 0
  | .String _ => 0
  | .Number _ => 0
  | .Table es => 1 + depthEntries es

def depthEntries : List LuaTableEntry → Nat
  | [] => 0
  | e :: rest => max (depthE e) (depthEntries rest)

def depthE : LuaTableEntry → Nat
  | .KeyValue k v => max (depthV k) (depthV v)
  | .NameValue _ v => depthV v
  | .Value v => depthV v
  | .NumberValue _ => 0
  | .BooleanValue _ => 0
  | .NilValue => 0

end

mutual

/-- Rust derived `PartialEq` for `LuaValue`: same variant and equal payloads
(`Cow` compares contents, tables compare entrywise with the custom
`LuaTableEntry` equality). -/
def LuaValue.beq : LuaValue → LuaValue → Bool
  | .Nil, .Nil => true
  | .Boolean a, .Boolean b => a = b
  | .String a, .String b => a.bytes = b.bytes
  | .Number a, .Number b => a.beq b
  | .Table a, .Table b => beqEntryList a b
  | _, _ => false
termination_by a b => sizeOf a + sizeOf b
decreasing_by all_goals (simp_wf <;> omega)

def beqEntryList : List LuaTableEntry → List LuaTableEntry → Bool
  | [], [] => true
  | a :: as', b :: bs' => LuaTableEntry.beq a b && beqEntryList as' bs'
  | _, _ => false
termination_by a b => sizeOf a + sizeOf b
decreasing_by all_goals (simp_wf <;> omega)

/-- The hand-written `PartialEq for LuaTableEntry` (table_entry.rs): structural
within a variant, `Named`/`Keyed(String)` cross equality, and `Value`
cross-equality with the nil/boolean/number specializations. -/
def LuaTableEntry.beq : LuaTableEntry → LuaTableEntry → Bool
  | .KeyValue ak av, .KeyValue bk bv => ak.beq bk && av.beq bv
  | .NameValue an av, .NameValue bn bv => an = bn && av.beq bv
  | .Value a, .Value b => a.beq b
  | .NumberValue a, .NumberValue b => a.beq b
  | .BooleanValue a, .BooleanValue b => a = b
  | .NilValue, .NilValue => true
  | .KeyValue kk kv, .NameValue nn nv =>
    (match kk with
     | .String s => decide (s.bytes = nn)
     | _ => false) && kv.beq nv
  | .NameValue nn nv, .KeyValue kk kv =>
    (match kk with
     | .String s => decide (s.bytes = nn)
     | _ => false) && kv.beq nv
  | .Value a, .NumberValue b =>
    (match a with
     | .Number n => n.beq b
     | _ => false)
  | .NumberValue b, .Value a =>
    (match a with
     | .Number n => n.beq b
     | _ => false)
  | .Value a, .BooleanValue b =>
    (match a with
     | .Boolean x => x = b
     | _ => false)
  | .BooleanValue b, .Value a =>
    (match a with
     | .Boolean x => x = b
     | _ => false)
  | .Value a, .NilValue =>
    (match a with
     | .Nil => true
     | _ => false)
  | .NilValue, .Value a =>
    (match a with
     | .Nil => true
     | _ => false)
  | _, _ => false
termination_by a b => sizeOf a + sizeOf b
decreasing_by all_goals (simp_wf <;> omega)

end

/-- `implicit_key` (table_entry.rs): true for the positional spellings. -/
def LuaTableEntry.implicit_key : LuaTableEntry → Bool
  | .BooleanValue _ => true
  | .NilValue => true
  | .NumberValue _ => true
  | .Value _ => true
  | _ => false

/-! ## Identifier validation (lib.rs) -/

/-- The 22 reserved words, as byte lists, in sorted order (lib.rs
`LUA_KEYWORDS`). -/
def LUA_KEYWORDS : List (List Nat) :=
  [[97, 110, 100], [98, 114, 101, 97, 107], [100, 111],
   [101, 108, 115, 101], [101, 108, 115, 101, 105, 102], [101, 110, 100],
   [102, 97, 108, 115, 101], [102, 111, 114],
   [102, 117, 110, 99, 116, 105, 111, 110], [103, 111, 116, 111],
   [105, 102], [105, 110], [108, 111, 99, 97, 108], [110, 105, 108],
   [110, 111, 116], [111, 114], [114, 101, 112, 101, 97, 116],
   [114, 101, 116, 117, 114, 110], [116, 104, 101, 110],
   [116, 114, 117, 101], [117, 110, 116, 105, 108],
   [119, 104, 105, 108, 101]]

/-- Lexicographic comparison of byte slices (Rust `Ord for &[u8]`). -/
def bytesCmp : List Nat → List Nat → Ordering
  | [], [] => .eq
  | [], _ :: _ => .lt
  | _ :: _, [] => .gt
  | a :: as', b :: bs' =>
    if a < b then .lt else if b < a then .gt else bytesCmp as' bs'

/-- Rust `slice::binary_search` on a sorted list, returning `is_ok()`.  The
fuel argument only bounds the halving recursion and never runs out, since
the caller passes `arr.length + 1 > log2 (hi - lo)`. -/
def binarySearchAux (arr : List (List Nat)) (target : List Nat) :
    Nat → Nat → Nat → Bool
  | 0, _, _ => false
  | fuel + 1, lo, hi =>
    if lo < hi then
      let mid := (lo + hi) / 2
      match bytesCmp (arr.getD mid []) target with
      | .lt => binarySearchAux arr target fuel (mid + 1) hi
      | .gt => binarySearchAux arr target fuel lo mid
      | .eq => true
    else false

def binary_search (arr : List (List Nat)) (target : List Nat) : Bool :=
  binarySearchAux arr target (arr.length + 1) 0 arr.length

/-- `valid_lua_identifier` (lib.rs): non-empty, not a reserved word, first
byte `[A-Za-z_]`, remaining bytes `[A-Za-z0-9_]`. -/
def valid_lua_identifier (i : List Nat) : Bool :=
  if i.isEmpty || binary_search LUA_KEYWORDS i then false
  else
    match i with
    | [] => false
    | first :: rest =>
      if !(isAlpha first || first = 95) then false
      else rest.all fun c => isAlpha c || isDigit c || c = 95

/-! ## Integer and float literal conversion (lib.rs, peg_parser.rs) -/

/-- Rust `char::to_digit`. -/
def charToDigit (c radix : Nat) : Option Nat :=
  let d :=
    if 48 ≤ c && c ≤ 57 then some (c - 48)
    else if 97 ≤ c && c ≤ 122 then some (c - 97 + 10)
    else if 65 ≤ c && c ≤ 90 then some (c - 65 + 10)
    else none
  match d with
  | some v => if v < radix then some v else none
  | none => none

/-- Two's-complement wrap of an integer into the `i64` range. -/
def wrapI64 (x : Int) : Int := (x + 2 ^ 63) % 2 ^ 64 - 2 ^ 63

/-- `wrapping_parse_int` (lib.rs): accumulate digits into an `i64` with
wrapping multiply and wrapping add/sub; `none` on an invalid digit.  (The
source panics on a radix outside 2..=36; it is only called with 16.) -/
def wrapping_parse_int (digits : List Nat) (radix : Nat)
    (is_positive : Bool) : Option Int :=
  digits.foldlM
    (fun result c => do
      let x ← charToDigit c radix
      let result := wrapI64 (result * radix)
      if is_positive then pure (wrapI64 (result + x))
      else pure (wrapI64 (result - x)))
    0

/-- Value of a decimal digit string. -/
def natFromDigits (ds : List Nat) : Nat :=
  ds.foldl (fun acc c => acc * 10 + (c - 48)) 0

/-- Value of a hex digit string. -/
def natFromHexDigits (ds : List Nat) : Nat :=
  ds.foldl (fun acc c => acc * 16 + ((charToDigit c 16).getD 0)) 0

/-- Rust `str::parse::<i64>` on an optional sign followed by digits: the
value if it fits in `i64`, otherwise `none`. -/
def rustParseI64 (bs : List Nat) : Option Int :=
  let (neg, ds) :=
    match bs with
    | 45 :: rest => (true, rest)
    | 43 :: rest => (false, rest)
    | _ => (false, bs)
  if ds.isEmpty || !(ds.all isDigit) then none
  else
    let v : Int := if neg then -(natFromDigits ds : Int) else natFromDigits ds
    if -(2 ^ 63) ≤ v ∧ v < 2 ^ 63 then some v else none

/-- Rust `str::parse::<f64>` on the decimal-float / decimal-integer shapes the
grammar matches: sign, integer digits, optional fraction, optional decimal
exponent; correctly rounded to binary64. -/
def rustParseF64 (bs : List Nat) : F64 :=
  let (neg, r1) :=
    match bs with
    | 45 :: rest => (true, rest)
    | 43 :: rest => (false, rest)
    | _ => (false, bs)
  let ipart := r1.takeWhile isDigit
  let r2 := r1.drop ipart.length
  let (fpart, r3) :=
    match r2 with
    | 46 :: rest => (rest.takeWhile isDigit, rest.drop (rest.takeWhile isDigit).length)
    | _ => ([], r2)
  let e10 : Int :=
    match r3 with
    | 101 :: rest | 69 :: rest =>
      (match rest with
       | 45 :: ds => -(natFromDigits (ds.takeWhile isDigit) : Int)
       | 43 :: ds => (natFromDigits (ds.takeWhile isDigit) : Int)
       | ds => (natFromDigits (ds.takeWhile isDigit) : Int))
    | _ => 0
  let mant := natFromDigits (ipart ++ fpart)
  let e : Int := e10 - fpart.length
  if 0 ≤ e then roundRatF64 neg (mant * 10 ^ e.toNat) 1
  else roundRatF64 neg mant (10 ^ (-e).toNat)

/-- Modelled from the spec: the C `strtod` hexadecimal-float conversion the
parser shells out to (the `strtod` shim module is not under src/).  §4.3.3:
"read as real number, then round to nearest representable f64"; the mantissa
is hex digits around an optional radix point, the exponent is a power of
two. -/
def strtodHex (bs : List Nat) : Option F64 :=
  let (neg, r1) :=
    match bs with
    | 45 :: rest => (true, rest)
    | 43 :: rest => (false, rest)
    | _ => (false, bs)
  let r1' := r1.drop 2  -- "0x" / "0X"
  let ipart := r1'.takeWhile isHexDigit
  let r2 := r1'.drop ipart.length
  let (fpart, r3) :=
    match r2 with
    | 46 :: rest =>
      (rest.takeWhile isHexDigit, rest.drop (rest.takeWhile isHexDigit).length)
    | _ => ([], r2)
  let e2 : Int :=
    match r3 with
    | 112 :: rest | 80 :: rest =>
      (match rest with
       | 45 :: ds => -(natFromDigits (ds.takeWhile isDigit) : Int)
       | 43 :: ds => (natFromDigits (ds.takeWhile isDigit) : Int)
       | ds => (natFromDigits (ds.takeWhile isDigit) : Int))
    | _ => 0
  let mant := natFromHexDigits (ipart ++ fpart)
  let e : Int := e2 - 4 * fpart.length
  some (if 0 ≤ e then roundRatF64 neg (mant <<< e.toNat) 1
        else roundRatF64 neg mant (2 ^ (-e).toNat))

/-! ## RFC 2279 escape encoding (peg_parser.rs `escaped_char`, `\u` case) -/

/-- The `while (codepoint > mfb)` encoding loop of the `\u{...}` escape,
transcribed from the source (u32 arithmetic; each pushed value is truncated
`as u8`).  The final byte is `((!mfb << 1) | codepoint) as u8`.  The fuel
argument only bounds the recursion (`codepoint` shrinks by a factor of 64
each round) and never runs out. -/
def luaUtf8EscLoop : Nat → Nat → Nat → List Nat → List Nat
  | 0, cp, mfb, buff =>
    buff ++ [((((2 ^ 32 - 1 - mfb) <<< 1) % 2 ^ 32) ||| cp) % 256]
  | fuel + 1, cp, mfb, buff =>
    if cp > mfb then
      luaUtf8EscLoop fuel (cp >>> 6) (mfb >>> 1)
        (buff ++ [(0x80 ||| (cp &&& 0x3f)) % 256])
    else
      buff ++ [((((2 ^ 32 - 1 - mfb) <<< 1) % 2 ^ 32) ||| cp) % 256]

/-- The bytes produced for a `\u{...}` escape with value `cp ≥ 0x80`
(`buff.reverse()` at the end of the source). -/
def luaUtf8Esc (cp : Nat) : List Nat :=
  (luaUtf8EscLoop (cp + 1) cp 0x3f []).reverse

/-! ## Depth-free grammar rules (peg_parser.rs) -/

/-- `_` (zero or more whitespace): always succeeds; the failed extra
`whitespace()` attempt records its `expected!` at the stop position. -/
def p_ws (inp : List Nat) : P Unit := fun pos =>
  let n := runLen inp isWs pos
  (some ((), pos + n), ⟨pos + n, false⟩)

/-- `__` (one or more whitespace). -/
def p_ws1 (inp : List Nat) : P Unit := fun pos =>
  let n := runLen inp isWs pos
  if n = 0 then (none, ⟨pos, false⟩)
  else (some ((), pos + n), ⟨pos + n, false⟩)

/-- `linebreak()`: `"\r\n" / "\n\r" / "\r" / "\n"`. -/
def linebreakP (inp : List Nat) : P Unit :=
  porelse (plit inp [13, 10])
    (porelse (plit inp [10, 13])
      (porelse (plit inp [13]) (plit inp [10])))

/-- `identifier()`: `[A-Za-z_][A-Za-z0-9_]*`, failing on reserved words
(`{? binary_search }`, recorded after the match), with a final
`expected!("identifier")`. -/
def identifierP (inp : List Nat) : P (List Nat) := fun pos =>
  match inp.get? pos with
  | some b =>
    if isIdentStart b then
      let n := runLen inp isIdentCont (pos + 1)
      let bs := slice inp pos (n + 1)
      let stop : ErrSt := ⟨pos + 1 + n, false⟩
      if binary_search LUA_KEYWORDS bs then
        (none, (stop.merge ⟨pos + 1 + n, false⟩).merge ⟨pos, false⟩)
      else (some (bs, pos + 1 + n), stop)
    else (none, ⟨pos, false⟩)
  | none => (none, ⟨pos, false⟩)

/-- `digit()+` (each failed `digit()` records its `expected!`). -/
def digits1 (inp : List Nat) : P Unit := fun pos =>
  match pclassMany1 inp isDigit false pos with
  | (none, e) => (none, e)
  | (some (_, p'), e) => (some ((), p'), e)

/-- `digit()*`. -/
def digits0 (inp : List Nat) : P Unit := fun pos =>
  match pclassMany inp isDigit false pos with
  | (none, e) => (none, e)
  | (some (_, p'), e) => (some ((), p'), e)

/-- `hex_digits()`: `$(quiet!{hex_digit()+}) / expected!("hex digits")` —
on success nothing is recorded (quiet), on zero digits the `expected!`
records at the start. -/
def hexDigits1 (inp : List Nat) : P Unit := fun pos =>
  let n := runLen inp isHexDigit pos
  if n = 0 then (none, ⟨pos, false⟩) else (some ((), pos + n), noErr)

/-- Capture the slice consumed by `p` (rust-peg `$( ... )`). -/
def pslice {α : Type} (inp : List Nat) (p : P α) : P (List Nat) := fun pos =>
  match p pos with
  | (none, e) => (none, e)
  | (some (_, p'), e) => (some (slice inp pos (p' - pos), p'), e)

/-- `[+-]?`. -/
def psign (inp : List Nat) : P (Option Nat) :=
  popt (pclass inp fun b => b = 43 || b = 45)

/-- A decimal exponent: `[eE] [+-]? digit()+`. -/
def decExpP (inp : List Nat) : P Unit :=
  pbind (pclass inp fun b => b = 101 || b = 69) fun _ =>
  pbind (psign inp) fun _ => digits1 inp

/-- A binary exponent: `[pP] [+-]? digit()+`. -/
def binExpP (inp : List Nat) : P Unit :=
  pbind (pclass inp fun b => b = 112 || b = 80) fun _ =>
  pbind (psign inp) fun _ => digits1 inp

/-- Body of the decimal-float alternative (after the optional sign):
`((digit+ "." digit*) / ("." digit+)) dec-exp? / (digit+ dec-exp)`. -/
def decFloatBodyP (inp : List Nat) : P Unit :=
  porelse
    (pbind
      (porelse
        (pbind (digits1 inp) fun _ =>
          pbind (pclass inp fun b => b = 46) fun _ => digits0 inp)
        (pbind (pclass inp fun b => b = 46) fun _ => digits1 inp))
      fun _ => pbind (popt (decExpP inp)) fun _ => ppure ())
    (pbind (digits1 inp) fun _ => decExpP inp)

/-- Body of the hex-float alternative (after the sign and `0x`/`0X`):
`(hex+ "." hex*? bin-exp?) / ("." hex+ bin-exp?) / (hex+ bin-exp)`. -/
def hexFloatBodyP (inp : List Nat) : P Unit :=
  porelse
    (pbind (hexDigits1 inp) fun _ =>
      pbind (plit inp [46]) fun _ =>
      pbind (popt (hexDigits1 inp)) fun _ =>
      pbind (popt (binExpP inp)) fun _ => ppure ())
    (porelse
      (pbind (plit inp [46]) fun _ =>
        pbind (hexDigits1 inp) fun _ =>
        pbind (popt (binExpP inp)) fun _ => ppure ())
      (pbind (hexDigits1 inp) fun _ => binExpP inp))

/-- `numbers()`: the six ordered alternatives of the numeral grammar. -/
def numbersP (inp : List Nat) : P LuaNumber :=
  porelse (pmap (fun _ => LuaNumber.Float (.inf true)) (plit inp [45, 49, 101, 57, 57, 57, 57]))
  (porelse (pmap (fun _ => LuaNumber.Float (.inf false)) (plit inp [49, 101, 57, 57, 57, 57]))
  (porelse (pmap (fun _ => LuaNumber.Float .nan) (plit inp [40, 48, 47, 48, 41]))
  (porelse
    -- decimal float: capture, then `str::parse::<f64>` (always succeeds on
    -- these shapes)
    (pmap (fun bs => LuaNumber.Float (rustParseF64 bs))
      (pslice inp (pbind (psign inp) fun _ => decFloatBodyP inp)))
  (porelse
    -- hex float: capture, then C `strtod`
    (pbind
      (pslice inp
        (pbind (psign inp) fun _ =>
          pbind (porelse (plit inp [48, 120]) (plit inp [48, 88])) fun _ =>
          hexFloatBodyP inp))
      fun bs =>
        match strtodHex bs with
        | some f => ppure (LuaNumber.Float f)
        | none => pfail false)
  (porelse
    -- hex integer: `sign:$([+-]?) "0" [Xx] n:$(hex_digits())`, wrapping parse
    (pbind (psign inp) fun sb =>
      pbind (plit inp [48]) fun _ =>
      pbind (pclass inp fun b => b = 88 || b = 120) fun _ =>
      pbind (pslice inp (hexDigits1 inp)) fun n =>
        match wrapping_parse_int n 16 (sb ≠ some 45) with
        | some i => ppure (LuaNumber.Integer i)
        | none => pfail false)
    -- decimal integer: `i64` parse, falling back to `f64` on overflow
    (pmap
      (fun bs =>
        match rustParseI64 bs with
        | some n => LuaNumber.Integer n
        | none => LuaNumber.Float (rustParseF64 bs))
      (pslice inp (pbind (psign inp) fun _ => digits1 inp))))))))

/-- `escaped_char()`: the escape alternatives in source order; produces the
bytes of one escape as a `Cow`. -/
def escapedCharP (inp : List Nat) : P CowBytes :=
  porelse (pmap (fun _ => CowBytes.borrowed [7]) (plit inp [92, 97]))
  (porelse (pmap (fun _ => CowBytes.borrowed [8]) (plit inp [92, 98]))
  (porelse (pmap (fun _ => CowBytes.borrowed [12]) (plit inp [92, 102]))
  (porelse (pmap (fun _ => CowBytes.borrowed [10]) (plit inp [92, 110]))
  (porelse (pmap (fun _ => CowBytes.borrowed [13]) (plit inp [92, 114]))
  (porelse (pmap (fun _ => CowBytes.borrowed [9]) (plit inp [92, 116]))
  (porelse (pmap (fun _ => CowBytes.borrowed [11]) (plit inp [92, 118]))
  (porelse (pmap (fun _ => CowBytes.borrowed [92]) (plit inp [92, 92]))
  (porelse (pmap (fun _ => CowBytes.borrowed [34]) (plit inp [92, 34]))
  (porelse (pmap (fun _ => CowBytes.borrowed [39]) (plit inp [92, 39]))
  (porelse (pmap (fun _ => CowBytes.borrowed [13, 10]) (plit inp [92, 13, 10]))
  (porelse (pmap (fun _ => CowBytes.borrowed [10, 13]) (plit inp [92, 10, 13]))
  (porelse (pmap (fun _ => CowBytes.borrowed [10]) (plit inp [92, 10]))
  (porelse (pmap (fun _ => CowBytes.borrowed [13]) (plit inp [92, 13]))
  (porelse
    -- `\z` skips following whitespace
    (pbind (plit inp [92, 122]) fun _ =>
      pbind (p_ws inp) fun _ => ppure (CowBytes.borrowed []))
  (porelse
    -- `\xHH`
    (pbind (plit inp [92, 120]) fun _ =>
      pbind (pclass inp isHexDigit) fun h1 =>
      pbind (pclass inp isHexDigit) fun h2 =>
        ppure (CowBytes.borrowed
          [((charToDigit h1 16).getD 0) * 16 + (charToDigit h2 16).getD 0]))
  (porelse
    -- `\DDD` (1–3 decimal digits, `u8` parse, error above 255)
    (pbind (plit inp [92]) fun _ => fun pos =>
      let n := min (runLen inp isDigit pos) 3
      if n = 0 then (none, ⟨pos, false⟩)
      else
        let v := natFromDigits (slice inp pos n)
        if v ≤ 255 then (some (CowBytes.borrowed [v], pos + n), noErr)
        else (none, ⟨pos + n, false⟩))
  (porelse
    -- `\u{H...}` (RFC 2279, value ≤ 0x7FFFFFFF; `u32::from_str_radix`
    -- overflows above 2^32)
    (pbind (plit inp [92, 117, 123]) fun _ =>
      pbind (pslice inp (hexDigits1 inp)) fun x =>
      pbind (plit inp [125]) fun _ =>
        let v := natFromHexDigits x
        if v < 2 ^ 32 then
          if v < 0x80 then ppure (CowBytes.borrowed [v])
          else if v ≤ 0x7FFFFFFF then ppure (CowBytes.owned (luaUtf8Esc v) 8)
          else pfail false
        else pfail false)
    (pfail false))))))))))))))))))

/-- `merge_spans` (peg_parser.rs): empty list → the static empty borrow; a
single span is returned as-is; otherwise one owned buffer allocated with
capacity exactly the total length. -/
def merge_spans : List CowBytes → CowBytes
  | [] => .borrowed []
  | [x] => x
  | s => .owned (s.flatMap CowBytes.bytes) ((s.map (·.bytes.length)).sum)

/-- One span of a double-quoted string: a literal run of bytes other than
`"`, `\`, CR, LF (borrowed from the input), or an escape. -/
def dqCharsP (inp : List Nat) : P CowBytes :=
  porelse
    (pmap (fun r => CowBytes.borrowed (slice inp r.1 r.2))
      (pclassMany1 inp (fun b => !(b = 34 || b = 92 || b = 13 || b = 10)) false))
    (escapedCharP inp)

/-- One span of a single-quoted string. -/
def sqCharsP (inp : List Nat) : P CowBytes :=
  porelse
    (pmap (fun r => CowBytes.borrowed (slice inp r.1 r.2))
      (pclassMany1 inp (fun b => !(b = 39 || b = 92 || b = 13 || b = 10)) false))
    (escapedCharP inp)

/-- Zero-or-more repetition of a span parser (each span consumes at least one
byte, so fuel `|input| + 1` is never exhausted). -/
def spanLoopP (item : P CowBytes) : Nat → P (List CowBytes)
  | 0 => ppure []
  | fuel + 1 => fun pos =>
    match item pos with
    | (none, e) => (some ([], pos), e)
    | (some (c, p'), e) =>
      match spanLoopP item fuel p' with
      | (some (l, p''), e') => (some (c :: l, p''), e.merge e')
      | (none, e') => (none, e.merge e')

/-- `double_quoted_string()`. -/
def dqStringP (inp : List Nat) : P CowBytes :=
  pbind (plit inp [34]) fun _ =>
  pbind (spanLoopP (dqCharsP inp) (inp.length + 1)) fun s =>
  pbind (plit inp [34]) fun _ => ppure (merge_spans s)

/-- `single_quoted_string()`. -/
def sqStringP (inp : List Nat) : P CowBytes :=
  pbind (plit inp [39]) fun _ =>
  pbind (spanLoopP (sqCharsP inp) (inp.length + 1)) fun s =>
  pbind (plit inp [39]) fun _ => ppure (merge_spans s)

/-- Length of the `((!close) [_])+` scan from `pos`, with the failure record
of the stopping attempt (`!close` failures are suppressed inside the
lookahead; at end of input the `[_]` records).  The fuel only bounds the
recursion and never runs out: each step consumes one input byte, and the
callers pass `inp.length + 1 - pos`. -/
def scanTo (inp : List Nat) (close : List Nat) : Nat → Nat → Nat × ErrSt
  | 0, pos => (0, ⟨pos, false⟩)
  | fuel + 1, pos =>
    if matchAt inp pos close then (0, noErr)
    else
      match inp.get? pos with
      | none => (0, ⟨pos, false⟩)
      | some _ =>
        match scanTo inp close fuel (pos + 1) with
        | (n, e) => (n + 1, e)

/-- `long_string()`: `"[[" linebreak()? $((!"]]" [_])+)? "]]"`, the body
borrowed verbatim (or the static empty slice). -/
def longStringP (inp : List Nat) : P CowBytes :=
  pbind (plit inp [91, 91]) fun _ =>
  pbind (popt (linebreakP inp)) fun _ => fun pos =>
    match scanTo inp [93, 93] (inp.length + 1 - pos) pos with
    | (n, e) =>
      let body := if n = 0 then CowBytes.borrowed []
                  else CowBytes.borrowed (slice inp pos n)
      match plit inp [93, 93] (pos + n) with
      | (some (_, p'), e') => (some (body, p'), e.merge e')
      | (none, e') => (none, e.merge e')

/-- `longer_string(level)`: `"[" "="*<level> "[" linebreak()? body close`,
where the close is `"]" "="*<level> "]"`. -/
def longerStringP (inp : List Nat) (level : Nat) : P CowBytes :=
  pbind (plit inp [91]) fun _ =>
  pbind (plit inp (List.replicate level 61)) fun _ =>
  pbind (plit inp [91]) fun _ =>
  pbind (popt (linebreakP inp)) fun _ => fun pos =>
    let close := [93] ++ List.replicate level 61 ++ [93]
    match scanTo inp close (inp.length + 1 - pos) pos with
    | (n, e) =>
      let body := if n = 0 then CowBytes.borrowed []
                  else CowBytes.borrowed (slice inp pos n)
      match plit inp close (pos + n) with
      | (some (_, p'), e') => (some (body, p'), e.merge e')
      | (none, e') => (none, e.merge e')

/-- `string()`: single / double / long / long levels 1–5. -/
def stringP (inp : List Nat) : P CowBytes :=
  porelse (sqStringP inp)
  (porelse (dqStringP inp)
  (porelse (longStringP inp)
  (porelse (longerStringP inp 1)
  (porelse (longerStringP inp 2)
  (porelse (longerStringP inp 3)
  (porelse (longerStringP inp 4) (longerStringP inp 5)))))))

/-! ## The budgeted value/table rules (peg_parser.rs)

The mutual recursion is bounded by a fuel parameter: every chain of nested
calls from `luaValueP` back to `luaValueP` consumes at least one input byte,
so fuel `|input| + 1` (used by the entry points) is never exhausted. -/

/-- The two rules that case on the fuel, bundled so that the mutual
recursion is structural on it. -/
structure GrammarAt where
  val : Nat → P LuaValue
  loop : Nat → P (List LuaTableEntry)

/-- One fuel level of the mutual grammar.  Level `fuel + 1` refers to level
`fuel` exactly as the rust-peg recursion does; `val` is
`lua_value(max_depth)` (`_ v:(nil / true / false / numbers / string /
table / expected!) _`), `loop` is the separator-then-entry repetition of
`table_entry() ** [,;]` (stopping, with the separator backtracked, when no
further entry parses), and the intermediate lets spell out `table_entry`,
`table_entries` and `table(max_depth)` (`"{"` with the depth check
`{? budget }`, which records the "too deeply nested" message, then the
entry list at `max_depth - 1` saturating, an optional trailing separator,
and `"}"`). -/
def luaG (inp : List Nat) : Nat → GrammarAt
  | 0 =>
    { val := fun _ => fun pos => (none, ⟨pos, false⟩)
      loop := fun _ => ppure [] }
  | fuel + 1 =>
    let prev := luaG inp fuel
    let entry : Nat → P LuaTableEntry := fun d =>
      pbind (p_ws inp) fun _ =>
      pbind
        (porelse (pmap LuaTableEntry.Value (prev.val d))
        (porelse
          (pbind (plit inp [91]) fun _ =>
            pbind (prev.val d) fun key =>
            pbind (p_ws inp) fun _ =>
            pbind (plit inp [93]) fun _ =>
            pbind (p_ws inp) fun _ =>
            pbind (plit inp [61]) fun _ =>
            pbind (p_ws inp) fun _ =>
            pbind (prev.val d) fun val =>
              ppure (LuaTableEntry.KeyValue key val))
        (porelse
          (pbind (identifierP inp) fun name =>
            pbind (p_ws inp) fun _ =>
            pbind (plit inp [61]) fun _ =>
            pbind (p_ws inp) fun _ =>
            pbind (prev.val d) fun val =>
              ppure (LuaTableEntry.NameValue name val))
          (pfail false))))
        fun v => pbind (p_ws inp) fun _ => ppure v
    let ents : Nat → P (List LuaTableEntry) := fun d => fun pos =>
      match entry d pos with
      | (none, e) => (some ([], pos), e)
      | (some (en, p1), e) =>
        match prev.loop d p1 with
        | (some (l, p2), e2) => (some (en :: l, p2), e.merge e2)
        | (none, e2) => (none, e.merge e2)
    let tab : Nat → P (List LuaTableEntry) := fun d =>
      pbind (plit inp [123]) fun _ =>
      pbind (if d = 0 then pfail true else ppure ()) fun _ =>
      pbind (p_ws inp) fun _ =>
      pbind (ents (d - 1)) fun es =>
      pbind (p_ws inp) fun _ =>
      pbind (popt (pclass inp fun b => b = 44 || b = 59)) fun _ =>
      pbind (p_ws inp) fun _ =>
      pbind (plit inp [125]) fun _ => ppure es
    let alt : Nat → P LuaValue := fun d =>
      porelse (pmap (fun _ => LuaValue.Nil) (plit inp [110, 105, 108]))
      (porelse (pmap (fun _ => LuaValue.Boolean true) (plit inp [116, 114, 117, 101]))
      (porelse (pmap (fun _ => LuaValue.Boolean false) (plit inp [102, 97, 108, 115, 101]))
      (porelse (pmap LuaValue.Number (numbersP inp))
      (porelse (pmap LuaValue.String (stringP inp))
      (porelse (pmap LuaValue.Table (tab d))
        (pfail false))))))
    { val := fun d =>
        pbind (p_ws inp) fun _ =>
        pbind (alt d) fun v =>
        pbind (p_ws inp) fun _ => ppure v
      loop := fun d => fun pos =>
        match pclass inp (fun b => b = 44 || b = 59) pos with
        | (none, e) => (some ([], pos), e)
        | (some (_, p1), e) =>
          match entry d p1 with
          | (none, e2) => (some ([], pos), e.merge e2)
          | (some (en, p2), e2) =>
            match prev.loop d p2 with
            | (some (l, p3), e3) => (some (en :: l, p3), (e.merge e2).merge e3)
            | (none, e3) => (none, (e.merge e2).merge e3) }

/-- `lua_value(max_depth)` at the given fuel: see `luaG`.  The named rules
below restate the level-`fuel` lets of `luaG` as top-level definitions;
each equals its `luaG` counterpart definitionally. -/
def luaValueP (inp : List Nat) (fuel d : Nat) : P LuaValue :=
  (luaG inp fuel).val d

/-- The separator-then-entry repetition of `**`: see `luaG`. -/
def entriesLoopP (inp : List Nat) (fuel d : Nat) : P (List LuaTableEntry) :=
  (luaG inp fuel).loop d

/-- `table_entry(max_depth)`: `_ (value / "[" key "]" "=" value /
identifier "=" value / expected!) _`. -/
def tableEntryP (inp : List Nat) (fuel d : Nat) : P LuaTableEntry :=
  pbind (p_ws inp) fun _ =>
  pbind
    (porelse (pmap LuaTableEntry.Value (luaValueP inp fuel d))
    (porelse
      (pbind (plit inp [91]) fun _ =>
        pbind (luaValueP inp fuel d) fun key =>
        pbind (p_ws inp) fun _ =>
        pbind (plit inp [93]) fun _ =>
        pbind (p_ws inp) fun _ =>
        pbind (plit inp [61]) fun _ =>
        pbind (p_ws inp) fun _ =>
        pbind (luaValueP inp fuel d) fun val =>
          ppure (LuaTableEntry.KeyValue key val))
    (porelse
      (pbind (identifierP inp) fun name =>
        pbind (p_ws inp) fun _ =>
        pbind (plit inp [61]) fun _ =>
        pbind (p_ws inp) fun _ =>
        pbind (luaValueP inp fuel d) fun val =>
          ppure (LuaTableEntry.NameValue name val))
      (pfail false))))
    fun v => pbind (p_ws inp) fun _ => ppure v

/-- `table_entries(max_depth)`: `table_entry() ** [,;]` (possibly empty;
a separator not followed by an entry is backtracked over). -/
def tableEntriesP (inp : List Nat) (fuel d : Nat) : P (List LuaTableEntry) :=
  fun pos =>
    match tableEntryP inp fuel d pos with
    | (none, e) => (some ([], pos), e)
    | (some (en, p'), e) =>
      match entriesLoopP inp fuel d p' with
      | (some (l, p''), e') => (some (en :: l, p''), e.merge e')
      | (none, e') => (none, e.merge e')

/-- `table(max_depth)`: `"{"` with the depth check (`{? budget }`, which
records the "too deeply nested" message), then the entry list at
`max_depth - 1` (saturating), an optional trailing separator, and `"}"`. -/
def tableP (inp : List Nat) (fuel d : Nat) : P (List LuaTableEntry) :=
  pbind (plit inp [123]) fun _ =>
  pbind (if d = 0 then pfail true else ppure ()) fun _ =>
  pbind (p_ws inp) fun _ =>
  pbind (tableEntriesP inp fuel (d - 1)) fun es =>
  pbind (p_ws inp) fun _ =>
  pbind (popt (pclass inp fun b => b = 44 || b = 59)) fun _ =>
  pbind (p_ws inp) fun _ =>
  pbind (plit inp [125]) fun _ => ppure es

/-- The inner ordered choice of `lua_value`:
`nil / true / false / numbers / string / table / expected!("Lua value")`. -/
def valueAltP (inp : List Nat) (fuel d : Nat) : P LuaValue :=
  porelse (pmap (fun _ => LuaValue.Nil) (plit inp [110, 105, 108]))
  (porelse (pmap (fun _ => LuaValue.Boolean true) (plit inp [116, 114, 117, 101]))
  (porelse (pmap (fun _ => LuaValue.Boolean false) (plit inp [102, 97, 108, 115, 101]))
  (porelse (pmap LuaValue.Number (numbersP inp))
  (porelse (pmap LuaValue.String (stringP inp))
  (porelse (pmap LuaValue.Table (tableP inp fuel d))
    (pfail false))))))

/-- `assignment(max_depth)`: `identifier _ "=" _ lua_value`. -/
def assignmentP (inp : List Nat) (fuel d : Nat) : P (List Nat × LuaValue) :=
  pbind (identifierP inp) fun i =>
  pbind (p_ws inp) fun _ =>
  pbind (plit inp [61]) fun _ =>
  pbind (p_ws inp) fun _ =>
  pbind (luaValueP inp fuel d) fun v => ppure (i, v)

/-- `(";" _)*`. -/
def semiLoopP (inp : List Nat) : Nat → P Unit
  | 0 => ppure ()
  | fuel + 1 => fun pos =>
    match plit inp [59] pos with
    | (none, e) => (some ((), pos), e)
    | (some (_, p1), e) =>
      match p_ws inp p1 with
      | (some (_, p2), e2) =>
        (match semiLoopP inp fuel p2 with
         | (r, e3) => (r, (e.merge e2).merge e3))
      | (none, e2) => (none, e.merge e2)

/-- The `script` repetition: `(_ a:assignment _ (";" _)* { a })*`; a failed
iteration is backtracked over entirely. -/
def scriptLoopP (inp : List Nat) (d : Nat) : Nat → P (List (List Nat × LuaValue))
  | 0 => ppure []
  | fuel + 1 => fun pos =>
    let iter : P (List Nat × LuaValue) :=
      pbind (p_ws inp) fun _ =>
      pbind (assignmentP inp (fuel + 1) d) fun a =>
      pbind (p_ws inp) fun _ =>
      pbind (semiLoopP inp (fuel + 1)) fun _ => ppure a
    match iter pos with
    | (none, e) => (some ([], pos), e)
    | (some (a, p'), e) =>
      match scriptLoopP inp d fuel p' with
      | (some (l, p''), e') => (some (a :: l, p''), e.merge e')
      | (none, e') => (none, e.merge e')

/-! ## Entry points (the generated `parse` functions require end of input,
recording an expected end-of-file otherwise) -/

/-- `lua_value(input, max_depth)`: parse a bare value, requiring the whole
input to be consumed.  Returns the parse result together with the
farthest-failure record. -/
def lua_value (inp : List Nat) (max_depth : Nat) : Option LuaValue × ErrSt :=
  match luaValueP inp (inp.length + 1) max_depth 0 with
  | (some (v, p), e) =>
    if p = inp.length then (some v, e) else (none, e.merge ⟨p, false⟩)
  | (none, e) => (none, e)

/-- `script(input, max_depth)`: parse zero or more assignments, requiring the
whole input to be consumed. -/
def script (inp : List Nat) (max_depth : Nat) :
    Option (List (List Nat × LuaValue)) × ErrSt :=
  match scriptLoopP inp max_depth (inp.length + 1) 0 with
  | (some (l, p), e) =>
    if p = inp.length then (some l, e) else (none, e.merge ⟨p, false⟩)
  | (none, e) => (none, e)

/-! ## Decimal rendering of integers (Rust `i64` `Display`) -/

/-- Decimal digits of `n`, most significant first (fuel bounds the
recursion and never runs out). -/
def natDecAux : Nat → Nat → List Nat
  | 0, _ => []
  | fuel + 1, n => if n = 0 then [] else natDecAux fuel (n / 10) ++ [48 + n % 10]

def natDec (n : Nat) : List Nat := if n = 0 then [48] else natDecAux n n

/-- Rust `i64` `Display`: optional `-`, then decimal digits. -/
def intDec (i : Int) : List Nat :=
  if i < 0 then 45 :: natDec (-i).toNat else natDec i.toNat

def hexDigitChar (n : Nat) : Nat := if n < 10 then 48 + n else 87 + n

/-! ## Shortest round-trip float rendering

Modelled from the spec: the serde_json conversion stringifies numeric table
keys "with Rust formatting conventions" (`ToString`), i.e. the shortest
decimal string that parses back to the same binary64 value, written without
an exponent (the std implementation is not part of this repository). -/

/-- Number of decimal digits of `n` (1 for 0). -/
def decLen (n : Nat) : Nat := (natDec n).length

/-- Round the rational `num / den` to the nearest integer, ties to even. -/
def ratRoundNearest (num den : Nat) : Nat :=
  let q := num / den
  let r := num % den
  if 2 * r > den then q + 1
  else if 2 * r < den then q
  else if q % 2 = 0 then q else q + 1

/-- The exact value of a finite float as `num / den`. -/
def f64Rat (m : Nat) (e : Int) : Nat × Nat :=
  if 0 ≤ e then (m <<< e.toNat, 1) else (m, 2 ^ (-e).toNat)

/-- `⌊log10 (num / den)⌋` for positive `num / den`. -/
def ratLog10 (num den : Nat) : Int :=
  let g : Int := (decLen num : Int) - (decLen den : Int)
  if 10 ^ (g + 1).toNat * den ≤ num * 10 ^ (-(g + 1)).toNat then g + 1
  else if 10 ^ g.toNat * den ≤ num * 10 ^ (-g).toNat then g
  else g - 1

/-- Round `num / den` to `p` significant decimal digits: the digit value and
the power of ten it scales by. -/
def ratSigDigits (num den : Nat) (p : Nat) : Nat × Int :=
  let k : Int := ratLog10 num den - (p : Int) + 1
  let n :=
    if 0 ≤ k then ratRoundNearest num (den * 10 ^ k.toNat)
    else ratRoundNearest (num * 10 ^ (-k).toNat) den
  (n, k)

/-- Strip trailing zeros of the digit value, moving them into the
exponent. -/
def stripTrailing10 : Nat → Nat × Int → Nat × Int
  | 0, nk => nk
  | fuel + 1, (n, k) =>
    if n ≠ 0 && n % 10 = 0 then stripTrailing10 fuel (n / 10, k + 1) else (n, k)

/-- Render `n * 10^k` (with `n`'s digits `ds`) without an exponent. -/
def renderDec (n : Nat) (k : Int) : List Nat :=
  let ds := natDec n
  if 0 ≤ k then ds ++ List.replicate k.toNat 48
  else
    let f := (-k).toNat
    if f < ds.length then
      ds.take (ds.length - f) ++ [46] ++ ds.drop (ds.length - f)
    else [48, 46] ++ List.replicate (f - ds.length) 48 ++ ds

/-- Shortest decimal that round-trips through binary64 rounding, Rust
`Display` style: no exponent, no trailing `.0`, `-` sign; `NaN`, `inf` and
`-inf` for the non-finite values. -/
def f64DisplaySpec (f : F64) : List Nat :=
  match f with
  | .nan => [78, 97, 78]
  | .inf false => [105, 110, 102]
  | .inf true => [45, 105, 110, 102]
  | .finite neg m e =>
    if m = 0 then (if neg then [45, 48] else [48])
    else
      let (num, den) := f64Rat m e
      let search := (List.range 17).findSome? fun i =>
        let (n, k) := ratSigDigits num den (i + 1)
        let rat2 := if 0 ≤ k then roundRatF64 neg (n * 10 ^ k.toNat) 1
                    else roundRatF64 neg n (10 ^ (-k).toNat)
        if rat2 = .finite neg m e then some (stripTrailing10 n (n, k))
        else none
      match search with
      | some (n, k) => (if neg then [45] else []) ++ renderDec n k
      | none => (if neg then [45] else []) ++ renderDec (ratSigDigits num den 17).1 (ratSigDigits num den 17).2

/-! ## Hexadecimal float rendering (formatter.rs `write_f64`)

The zero / infinity / NaN special cases are from the source; the finite
nonzero case shells out to the external `hexfloat2` crate, modelled from
the spec: "a `Float` renders as a hexadecimal float literal using the
shortest-roundtrip form" — hexadecimal floats are exact, so this is the
normalized mantissa with trailing zero digits stripped. -/

def hexFracNibbles : Nat → Nat → List Nat
  | 0, _ => []
  | k + 1, frac => ((frac >>> (4 * k)) &&& 15) :: hexFracNibbles k frac

def dropTrailingZeros (l : List Nat) : List Nat :=
  (l.reverse.dropWhile (· = 0)).reverse

def f64HexDisplay (f : F64) : List Nat :=
  match f with
  | .nan => [40, 48, 47, 48, 41]
  | .inf false => [49, 101, 57, 57, 57, 57]
  | .inf true => [45, 49, 101, 57, 57, 57, 57]
  | .finite neg m e =>
    if m = 0 then [48, 120, 48, 112, 48]
    else
      let k := bitlen m - 1
      let frac := (m - 2 ^ k) <<< (52 - k)
      let ds := dropTrailingZeros (hexFracNibbles 13 frac)
      (if neg then [45] else []) ++ [48, 120, 49] ++
        (if ds.isEmpty then [] else 46 :: ds.map hexDigitChar) ++
        [112] ++ intDec (e + k)

/-! ## UTF-8 validation and lossy decoding (value/mod.rs `from_utf8_cow`,
`from_utf8_cow_lossy`; the std validator they call) -/

def isUtf8Cont (b : Nat) : Bool := 128 ≤ b && b ≤ 191

/-- Rust `str::from_utf8` validity. -/
def isValidUtf8 : List Nat → Bool
  | [] => true
  | b :: rest =>
    if b ≤ 0x7F then isValidUtf8 rest
    else if 0xC2 ≤ b && b ≤ 0xDF then
      match rest with
      | c1 :: r => isUtf8Cont c1 && isValidUtf8 r
      | [] => false
    else if b = 0xE0 then
      match rest with
      | c1 :: c2 :: r =>
        (0xA0 ≤ c1 && c1 ≤ 0xBF) && isUtf8Cont c2 && isValidUtf8 r
      | _ => false
    else if (0xE1 ≤ b && b ≤ 0xEC) || b = 0xEE || b = 0xEF then
      match rest with
      | c1 :: c2 :: r => isUtf8Cont c1 && isUtf8Cont c2 && isValidUtf8 r
      | _ => false
    else if b = 0xED then
      match rest with
      | c1 :: c2 :: r =>
        (0x80 ≤ c1 && c1 ≤ 0x9F) && isUtf8Cont c2 && isValidUtf8 r
      | _ => false
    else if b = 0xF0 then
      match rest with
      | c1 :: c2 :: c3 :: r =>
        (0x90 ≤ c1 && c1 ≤ 0xBF) && isUtf8Cont c2 && isUtf8Cont c3 &&
          isValidUtf8 r
      | _ => false
    else if 0xF1 ≤ b && b ≤ 0xF3 then
      match rest with
      | c1 :: c2 :: c3 :: r =>
        isUtf8Cont c1 && isUtf8Cont c2 && isUtf8Cont c3 && isValidUtf8 r
      | _ => false
    else if b = 0xF4 then
      match rest with
      | c1 :: c2 :: c3 :: r =>
        (0x80 ≤ c1 && c1 ≤ 0x8F) && isUtf8Cont c2 && isUtf8Cont c3 &&
          isValidUtf8 r
      | _ => false
    else false

/-- The replacement character U+FFFD as UTF-8. -/
def utf8Rep : List Nat := [0xEF, 0xBF, 0xBD]

/-- Rust `String::from_utf8_lossy`: invalid maximal subparts are replaced by
U+FFFD. -/
def utf8Lossy : List Nat → List Nat
  | [] => []
  | b :: rest =>
    if b ≤ 0x7F then b :: utf8Lossy rest
    else if 0xC2 ≤ b && b ≤ 0xDF then
      match rest with
      | c1 :: r =>
        if isUtf8Cont c1 then b :: c1 :: utf8Lossy r
        else utf8Rep ++ utf8Lossy (c1 :: r)
      | [] => utf8Rep
    else if b = 0xE0 then
      match rest with
      | c1 :: r =>
        if 0xA0 ≤ c1 && c1 ≤ 0xBF then
          match r with
          | c2 :: r2 =>
            if isUtf8Cont c2 then b :: c1 :: c2 :: utf8Lossy r2
            else utf8Rep ++ utf8Lossy (c2 :: r2)
          | [] => utf8Rep
        else utf8Rep ++ utf8Lossy (c1 :: r)
      | [] => utf8Rep
    else if (0xE1 ≤ b && b ≤ 0xEC) || b = 0xEE || b = 0xEF then
      match rest with
      | c1 :: r =>
        if isUtf8Cont c1 then
          match r with
          | c2 :: r2 =>
            if isUtf8Cont c2 then b :: c1 :: c2 :: utf8Lossy r2
            else utf8Rep ++ utf8Lossy (c2 :: r2)
          | [] => utf8Rep
        else utf8Rep ++ utf8Lossy (c1 :: r)
      | [] => utf8Rep
    else if b = 0xED then
      match rest with
      | c1 :: r =>
        if 0x80 ≤ c1 && c1 ≤ 0x9F then
          match r with
          | c2 :: r2 =>
            if isUtf8Cont c2 then b :: c1 :: c2 :: utf8Lossy r2
            else utf8Rep ++ utf8Lossy (c2 :: r2)
          | [] => utf8Rep
        else utf8Rep ++ utf8Lossy (c1 :: r)
      | [] => utf8Rep
    else if b = 0xF0 then
      match rest with
      | c1 :: r =>
        if 0x90 ≤ c1 && c1 ≤ 0xBF then
          match r with
          | c2 :: r2 =>
            if isUtf8Cont c2 then
              match r2 with
              | c3 :: r3 =>
                if isUtf8Cont c3 then b :: c1 :: c2 :: c3 :: utf8Lossy r3
                else utf8Rep ++ utf8Lossy (c3 :: r3)
              | [] => utf8Rep
            else utf8Rep ++ utf8Lossy (c2 :: r2)
          | [] => utf8Rep
        else utf8Rep ++ utf8Lossy (c1 :: r)
      | [] => utf8Rep
    else if 0xF1 ≤ b && b ≤ 0xF3 then
      match rest with
      | c1 :: r =>
        if isUtf8Cont c1 then
          match r with
          | c2 :: r2 =>
            if isUtf8Cont c2 then
              match r2 with
              | c3 :: r3 =>
                if isUtf8Cont c3 then b :: c1 :: c2 :: c3 :: utf8Lossy r3
                else utf8Rep ++ utf8Lossy (c3 :: r3)
              | [] => utf8Rep
            else utf8Rep ++ utf8Lossy (c2 :: r2)
          | [] => utf8Rep
        else utf8Rep ++ utf8Lossy (c1 :: r)
      | [] => utf8Rep
    else if b = 0xF4 then
      match rest with
      | c1 :: r =>
        if 0x80 ≤ c1 && c1 ≤ 0x8F then
          match r with
          | c2 :: r2 =>
            if isUtf8Cont c2 then
              match r2 with
              | c3 :: r3 =>
                if isUtf8Cont c3 then b :: c1 :: c2 :: c3 :: utf8Lossy r3
                else utf8Rep ++ utf8Lossy (c3 :: r3)
              | [] => utf8Rep
            else utf8Rep ++ utf8Lossy (c2 :: r2)
          | [] => utf8Rep
        else utf8Rep ++ utf8Lossy (c1 :: r)
      | [] => utf8Rep
    else utf8Rep ++ utf8Lossy rest

/-! ## Lua-to-JSON conversion (serde_json.rs `to_json_value`) -/

/-- `JsonConversionError`, restricted to the variants `to_json_value` can
produce; `unreachablePanic` stands for the two `unreachable!()` arms. -/
inductive JsonErr where
  | Utf8Error : JsonErr
  | PositiveInfinity : JsonErr
  | NegativeInfinity : JsonErr
  | NaNError : JsonErr
  | TableKeyedWithTable : JsonErr
  | unreachablePanic : JsonErr
  deriving Repr, DecidableEq

/-- `serde_json::Number`: an `i64`, or a finite non-NaN `f64`.  (The `u64`
arm is never produced by this conversion.) -/
inductive JNum where
  | int (i : Int) : JNum
  | float (f : F64) : JNum
  deriving Repr, DecidableEq

/-- `serde_json::Value`; objects are the sorted key-value list of the
default `BTreeMap`-backed `serde_json::Map`. -/
inductive JsonValue where
  | null : JsonValue
  | bool (b : Bool) : JsonValue
  | num (n : JNum) : JsonValue
  | str (s : List Nat) : JsonValue
  | arr (l : List JsonValue) : JsonValue
  | obj (m : List (List Nat × JsonValue)) : JsonValue
  deriving Repr

structure JsonConversionOptions where
  lossy_string : Bool
  deriving Repr, DecidableEq

/-- `JsonMap::insert` on the sorted key-value list: overwrite on an equal
key. -/
def objInsert (k : List Nat) (v : JsonValue) :
    List (List Nat × JsonValue) → List (List Nat × JsonValue)
  | [] => [(k, v)]
  | (k2, v2) :: rest =>
    match bytesCmp k k2 with
    | .lt => (k, v) :: (k2, v2) :: rest
    | .eq => (k, v) :: rest
    | .gt => (k2, v2) :: objInsert k v rest

/-- `move_array_to_object`: drain the array into the object under the keys
`array_next_idx.to_string()`, incrementing. -/
def move_array_to_object (array : List JsonValue) (idx : Int)
    (object : List (List Nat × JsonValue)) :
    List (List Nat × JsonValue) × Int :=
  match array with
  | [] => (object, idx)
  | v :: rest => move_array_to_object rest (idx + 1) (objInsert (intDec idx) v object)

/-- `JsonNumber::try_from(LuaNumber)`: integers embed; floats only when
finite (`from_f64` is `None` on NaN and the infinities, which map to their
errors). -/
def jsonNumberOfLua : LuaNumber → Except JsonErr JNum
  | .Integer i => .ok (.int i)
  | .Float f =>
    match f with
    | .finite neg m e => .ok (.float (.finite neg m e))
    | .inf false => .error .PositiveInfinity
    | .inf true => .error .NegativeInfinity
    | .nan => .error .NaNError

/-- The string form of a `LuaNumber` (`ToString`). -/
def LuaNumber.display : LuaNumber → List Nat
  | .Integer i => intDec i
  | .Float f => f64DisplaySpec f

/-- The key-stringification `match` of the `KeyValue` arm. -/
def luaKeyString (opts : JsonConversionOptions) :
    LuaValue → Except JsonErr (List Nat)
  | .String k =>
    if opts.lossy_string then .ok (utf8Lossy k.bytes)
    else if isValidUtf8 k.bytes then .ok k.bytes
    else .error .Utf8Error
  | .Nil => .ok [110, 105, 108]
  | .Boolean b =>
    .ok (if b then [116, 114, 117, 101] else [102, 97, 108, 115, 101])
  | .Number n => .ok (LuaNumber.display n)
  | .Table _ => .error .TableKeyedWithTable

mutual

/-- `to_json_value` (serde_json.rs): see the source's table heuristic; the
entry loop is `jsonTableFold`. -/
def to_json_value (v : LuaValue) (opts : JsonConversionOptions) :
    Except JsonErr JsonValue :=
  match v with
  | .Nil => .ok .null
  | .String s =>
    if opts.lossy_string then .ok (.str (utf8Lossy s.bytes))
    else if isValidUtf8 s.bytes then .ok (.str s.bytes)
    else .error .Utf8Error
  | .Boolean b => .ok (.bool b)
  | .Number n => (jsonNumberOfLua n).map .num
  | .Table items =>
    if items.isEmpty then .ok (.obj [])
    else
      match jsonTableFold items opts [] [] 1 with
      | .error e => .error e
      | .ok (object, array, _) =>
        match object.isEmpty, array.isEmpty with
        | true, true => .error .unreachablePanic
        | false, false => .error .unreachablePanic
        | false, true => .ok (.obj object)
        | true, false => .ok (.arr array)
termination_by sizeOf v
decreasing_by all_goals (simp_wf <;> omega)

/-- The `for entry in items` loop of `to_json_value`, carrying the object,
the array, and `array_next_idx`. -/
def jsonTableFold (items : List LuaTableEntry) (opts : JsonConversionOptions)
    (object : List (List Nat × JsonValue)) (array : List JsonValue)
    (idx : Int) :
    Except JsonErr (List (List Nat × JsonValue) × List JsonValue × Int) :=
  match items with
  | [] => .ok (object, array, idx)
  | entry :: rest =>
    match entry with
    | .KeyValue k v =>
      let (object2, idx2) := move_array_to_object array idx object
      match luaKeyString opts k with
      | .error e => .error e
      | .ok ks =>
        match to_json_value v opts with
        | .error e => .error e
        | .ok jv => jsonTableFold rest opts (objInsert ks jv object2) [] idx2
    | .NameValue n v =>
      let (object2, idx2) := move_array_to_object array idx object
      match to_json_value v opts with
      | .error e => .error e
      | .ok jv => jsonTableFold rest opts (objInsert n jv object2) [] idx2
    | .Value v =>
      match to_json_value v opts with
      | .error e => .error e
      | .ok jv =>
        if object.isEmpty then jsonTableFold rest opts object (array ++ [jv]) idx
        else jsonTableFold rest opts (objInsert (intDec idx) jv object) array (idx + 1)
    | .NumberValue n =>
      match (jsonNumberOfLua n).map JsonValue.num with
      | .error e => .error e
      | .ok jv =>
        if object.isEmpty then jsonTableFold rest opts object (array ++ [jv]) idx
        else jsonTableFold rest opts (objInsert (intDec idx) jv object) array (idx + 1)
    | .BooleanValue b =>
      let jv := JsonValue.bool b
      if object.isEmpty then jsonTableFold rest opts object (array ++ [jv]) idx
      else jsonTableFold rest opts (objInsert (intDec idx) jv object) array (idx + 1)
    | .NilValue =>
      let jv := JsonValue.null
      if object.isEmpty then jsonTableFold rest opts object (array ++ [jv]) idx
      else jsonTableFold rest opts (objInsert (intDec idx) jv object) array (idx + 1)
termination_by sizeOf items
decreasing_by all_goals (simp_wf <;> omega)

end

/-- The element conversion a positional-equivalent entry contributes. -/
def positionalJson (opts : JsonConversionOptions) :
    LuaTableEntry → Except JsonErr JsonValue
  | .Value v => to_json_value v opts
  | .NumberValue n => (jsonNumberOfLua n).map .num
  | .BooleanValue b => .ok (.bool b)
  | .NilValue => .ok .null
  | .KeyValue _ _ => .error .unreachablePanic
  | .NameValue _ _ => .error .unreachablePanic

/-! ## The output formatter (formatter.rs, `CompactFormatter` defaults) -/

/-- The `ESCAPE` table: `0` = verbatim, `b'x'` = `\xHH`, otherwise the named
escape letter. -/
def ESCAPE (b : Nat) : Nat :=
  if b = 7 then 97
  else if b = 8 then 98
  else if b = 9 then 116
  else if b = 10 then 110
  else if b = 11 then 118
  else if b = 12 then 102
  else if b = 13 then 114
  else if b < 32 then 120
  else if b = 34 then 34
  else if b = 92 then 92
  else 0

/-- `format_escaped_bytes_contents`: emit each byte verbatim or as its
escape (the source's run-splitting writes the same byte sequence). -/
def format_escaped_bytes_contents (bs : List Nat) : List Nat :=
  bs.flatMap fun b =>
    let e := ESCAPE b
    if e = 0 then [b]
    else if e = 120 then [92, 120, hexDigitChar (b / 16), hexDigitChar (b % 16)]
    else [92, e]

/-- `Error::InvalidLuaIdentifier` is the only error the writers produce on
the in-memory writer. -/
inductive FmtErr where
  | InvalidLuaIdentifier (name : List Nat) : FmtErr
  deriving Repr, DecidableEq

/-- `write_luanumber`: `i64` `Display` for integers, `write_f64` (hex float
with special cases) for floats. -/
def writeLuaNumber : LuaNumber → List Nat
  | .Integer i => intDec i
  | .Float f => f64HexDisplay f

mutual

/-- `LuaValue::to_writer` with the `CompactFormatter`.  (The `String` arm
writes only the escaped contents — no surrounding quotes.) -/
def LuaValue.to_writer : LuaValue → Except FmtErr (List Nat)
  | .Nil => .ok [110, 105, 108]
  | .Boolean b => .ok (if b then [116, 114, 117, 101] else [102, 97, 108, 115, 101])
  | .Number n => .ok (writeLuaNumber n)
  | .String s => .ok (format_escaped_bytes_contents s.bytes)
  | .Table table =>
    match writeEntryList table true with
    | .error e => .error e
    | .ok bs => .ok ([123] ++ bs ++ [125])
termination_by v => sizeOf v
decreasing_by all_goals (simp_wf <;> omega)

/-- The `for entry in table` loop with its `first` flag. -/
def writeEntryList : List LuaTableEntry → Bool → Except FmtErr (List Nat)
  | [], _ => .ok []
  | en :: rest, first =>
    match LuaTableEntry.to_writer en first with
    | .error e => .error e
    | .ok bs =>
      match writeEntryList rest false with
      | .error e => .error e
      | .ok bs2 => .ok (bs ++ bs2)
termination_by l _ => sizeOf l
decreasing_by all_goals (simp_wf <;> omega)

/-- `LuaTableEntry::to_writer` with the `CompactFormatter`: a `,` separator
unless first; `Named` entries are guarded by `valid_lua_identifier` and
written bare. -/
def LuaTableEntry.to_writer : LuaTableEntry → Bool → Except FmtErr (List Nat)
  | en, first =>
    let sep : List Nat := if first then [] else [44]
    match en with
    | .NilValue => .ok (sep ++ [110, 105, 108])
    | .BooleanValue b =>
      .ok (sep ++ (if b then [116, 114, 117, 101] else [102, 97, 108, 115, 101]))
    | .NumberValue n => .ok (sep ++ writeLuaNumber n)
    | .Value v =>
      match LuaValue.to_writer v with
      | .error e => .error e
      | .ok bs => .ok (sep ++ bs)
    | .NameValue name v =>
      if valid_lua_identifier name then
        match LuaValue.to_writer v with
        | .error e => .error e
        | .ok bs => .ok (sep ++ name ++ [61] ++ bs)
      else .error (.InvalidLuaIdentifier name)
    | .KeyValue k v =>
      match LuaValue.to_writer k with
      | .error e => .error e
      | .ok kbs =>
        match LuaValue.to_writer v with
        | .error e => .error e
        | .ok vbs => .ok (sep ++ [91] ++ kbs ++ [93] ++ [61] ++ vbs)
termination_by en _ => sizeOf en
decreasing_by all_goals (simp_wf <;> omega)

end

/-! ## The RFC 2279 encoding, from the spec

Modelled from the spec: "the RFC 2279 UTF-8 encoding of the code point (up
to 6 bytes)" / "encoded with the obvious RFC 2279 algorithm" — the leading
byte carries the length marker, each continuation byte is `0x80` plus six
value bits.  This is the comparison target for the `\u{...}` escape. -/
def rfc2279utf8 (v : Nat) : List Nat :=
  if v < 0x80 then [v]
  else if v < 0x800 then
    [0xC0 ||| (v >>> 6), 0x80 ||| (v &&& 0x3F)]
  else if v < 0x10000 then
    [0xE0 ||| (v >>> 12), 0x80 ||| ((v >>> 6) &&& 0x3F), 0x80 ||| (v &&& 0x3F)]
  else if v < 0x200000 then
    [0xF0 ||| (v >>> 18), 0x80 ||| ((v >>> 12) &&& 0x3F),
     0x80 ||| ((v >>> 6) &&& 0x3F), 0x80 ||| (v &&& 0x3F)]
  else if v < 0x4000000 then
    [0xF8 ||| (v >>> 24), 0x80 ||| ((v >>> 18) &&& 0x3F),
     0x80 ||| ((v >>> 12) &&& 0x3F), 0x80 ||| ((v >>> 6) &&& 0x3F),
     0x80 ||| (v &&& 0x3F)]
  else
    [0xFC ||| (v >>> 30), 0x80 ||| ((v >>> 24) &&& 0x3F),
     0x80 ||| ((v >>> 18) &&& 0x3F), 0x80 ||| ((v >>> 12) &&& 0x3F),
     0x80 ||| ((v >>> 6) &&& 0x3F), 0x80 ||| (v &&& 0x3F)]

/-! ## Basic lemmas about the parsing primitives -/

/-! ### Unfolding equations for the two fuel-matching grammar rules -/

theorem luaValueP_zero {inp : List Nat} {d : Nat} :
    luaValueP inp 0 d = fun pos => (none, ⟨pos, false⟩) := rfl

theorem luaValueP_succ {inp : List Nat} {fuel d : Nat} :
    luaValueP inp (fuel + 1) d =
      (pbind (p_ws inp) fun _ =>
       pbind (valueAltP inp fuel d) fun v =>
       pbind (p_ws inp) fun _ => ppure v) := rfl

theorem entriesLoopP_zero {inp : List Nat} {d : Nat} :
    entriesLoopP inp 0 d = ppure [] := rfl

theorem entriesLoopP_succ {inp : List Nat} {fuel d : Nat} :
    entriesLoopP inp (fuel + 1) d = fun pos =>
      match pclass inp (fun b => b = 44 || b = 59) pos with
      | (none, e) => (some ([], pos), e)
      | (some (_, p1), e) =>
        match tableEntryP inp fuel d p1 with
        | (none, e2) => (some ([], pos), e.merge e2)
        | (some (en, p2), e2) =>
          match entriesLoopP inp fuel d p2 with
          | (some (l, p3), e3) => (some (en :: l, p3), (e.merge e2).merge e3)
          | (none, e3) => (none, (e.merge e2).merge e3) := rfl


theorem get?_drop_nil {inp : List Nat} {pos : Nat} (h : inp.drop pos = []) :
    inp.get? pos = none := by
  have h0 := List.get?_drop inp pos 0
  rw [h] at h0
  simpa using h0.symm

theorem get?_drop_cons {inp : List Nat} {pos x : Nat} {xs : List Nat}
    (h : inp.drop pos = x :: xs) : inp.get? pos = some x := by
  have h0 := List.get?_drop inp pos 0
  rw [h] at h0
  simpa using h0.symm

theorem drop_succ_of_cons {inp : List Nat} {pos x : Nat} {xs : List Nat}
    (h : inp.drop pos = x :: xs) : inp.drop (pos + 1) = xs := by
  have h0 := List.drop_drop 1 pos inp
  rw [h] at h0
  simpa using h0.symm

theorem matchAt_cons {inp : List Nat} {pos b : Nat} {l : List Nat} :
    matchAt inp pos (b :: l) = true ↔
      inp.get? pos = some b ∧ matchAt inp (pos + 1) l = true := by
  unfold matchAt
  cases h : inp.drop pos with
  | nil =>
    have h1 : inp.get? pos = none := get?_drop_nil h
    have h2 : inp.drop (pos + 1) = [] := by
      have h0 := List.drop_drop 1 pos inp
      rw [h] at h0
      simpa using h0.symm
    rw [h2]
    constructor
    · intro hm; simp at hm
    · rintro ⟨hb, _⟩; rw [h1] at hb; exact Option.noConfusion hb
  | cons x xs =>
    have h1 : inp.get? pos = some x := get?_drop_cons h
    have h2 : inp.drop (pos + 1) = xs := drop_succ_of_cons h
    simp only [h1, h2, List.length_cons, List.take_succ_cons, decide_eq_true_eq,
      List.cons.injEq, Option.some.injEq]

theorem matchAt_head {inp : List Nat} {pos b : Nat} {l : List Nat}
    (h : matchAt inp pos (b :: l) = true) : inp.get? pos = some b :=
  (matchAt_cons.1 h).1

theorem plit_fail {inp : List Nat} {pos b : Nat} {l : List Nat}
    (h : inp.get? pos ≠ some b) :
    plit inp (b :: l) pos = (none, ⟨pos, false⟩) := by
  unfold plit
  have : matchAt inp pos (b :: l) = false := by
    cases hm : matchAt inp pos (b :: l) with
    | false => rfl
    | true => exact absurd (matchAt_head hm) h
  simp [this]

theorem runLen_zero {inp : List Nat} {f : Nat → Bool} {pos : Nat}
    (h : ∀ c, inp.get? pos = some c → f c = false) :
    runLen inp f pos = 0 := by
  unfold runLen
  cases hd : inp.drop pos with
  | nil => simp
  | cons x xs =>
    have h1 : inp.get? pos = some x := get?_drop_cons hd
    simp [List.takeWhile, h x h1]

theorem runLen_le {inp : List Nat} {f : Nat → Bool} {pos : Nat} :
    runLen inp f pos ≤ inp.length - pos := by
  unfold runLen
  calc ((inp.drop pos).takeWhile f).length ≤ (inp.drop pos).length :=
        (List.takeWhile_sublist f).length_le
    _ = inp.length - pos := List.length_drop _ _

theorem takeWhile_stop {α : Type} {f : α → Bool} {a : α} :
    ∀ (l : List α), l.get? (l.takeWhile f).length = some a → f a = false := by
  intro l
  induction l with
  | nil => simp
  | cons x xs ih =>
    by_cases hx : f x
    · simp only [List.takeWhile, hx, List.length_cons, List.get?_cons_succ]
      exact ih
    · simp only [List.takeWhile, hx]
      simp only [List.length_nil, List.get?_cons_zero, Option.some.injEq]
      intro h
      rw [← h]
      simpa using hx

theorem runLen_stop {inp : List Nat} {f : Nat → Bool} {pos : Nat} {c : Nat}
    (h : inp.get? (pos + runLen inp f pos) = some c) : f c = false := by
  apply takeWhile_stop (inp.drop pos)
  rw [List.get?_drop]
  exact h

theorem runLen_idem {inp : List Nat} {f : Nat → Bool} {pos : Nat} :
    runLen inp f (pos + runLen inp f pos) = 0 := by
  apply runLen_zero
  intro c hc
  exact runLen_stop hc

/-! ### Monotone consumption -/

/-- A parser only moves the position forward. -/
def PMono {α : Type} (p : P α) : Prop :=
  ∀ pos a p', (p pos).1 = some (a, p') → pos ≤ p'

theorem mono_pbind {α β : Type} {p : P α} {f : α → P β} (hp : PMono p)
    (hf : ∀ a, PMono (f a)) : PMono (pbind p f) := by
  intro pos a p' h
  unfold pbind at h
  cases hpp : p pos with
  | mk r e =>
    rw [hpp] at h
    cases r with
    | none => simp at h
    | some v =>
      obtain ⟨b, pm⟩ := v
      simp only at h
      cases hff : f b pm with
      | mk r2 e2 =>
        rw [hff] at h
        cases r2 with
        | none => simp at h
        | some w =>
          simp only [Option.some.injEq] at h
          have h1 : pos ≤ pm := hp pos b pm (by rw [hpp])
          have h2 : pm ≤ p' := by
            apply hf b pm a p'
            rw [hff, ← h]
          omega

theorem mono_porelse {α : Type} {p q : P α} (hp : PMono p) (hq : PMono q) :
    PMono (porelse p q) := by
  intro pos a p' h
  unfold porelse at h
  cases hpp : p pos with
  | mk r e =>
    rw [hpp] at h
    cases r with
    | some v =>
      simp only [Option.some.injEq] at h
      exact hp pos a p' (by rw [hpp, h])
    | none =>
      cases hqq : q pos with
      | mk r2 e2 =>
        rw [hqq] at h
        exact hq pos a p' (by rw [hqq]; exact h)

theorem mono_pmap {α β : Type} {f : α → β} {p : P α} (hp : PMono p) :
    PMono (pmap f p) := by
  intro pos a p' h
  unfold pmap at h
  cases hpp : p pos with
  | mk r e =>
    rw [hpp] at h
    cases r with
    | none => simp at h
    | some v =>
      obtain ⟨b, pm⟩ := v
      simp only [Option.some.injEq, Prod.mk.injEq] at h
      exact le_of_le_of_eq (hp pos b pm (by rw [hpp])) h.2

theorem mono_ppure {α : Type} (a : α) : PMono (ppure a) := by
  intro pos b p' h
  unfold ppure at h
  simp only [Option.some.injEq, Prod.mk.injEq] at h
  exact h.2.le

theorem mono_pfail {α : Type} (flag : Bool) : PMono (pfail (α := α) flag) := by
  intro pos b p' h
  unfold pfail at h
  simp at h

theorem mono_popt {α : Type} {p : P α} (hp : PMono p) : PMono (popt p) := by
  intro pos a p' h
  unfold popt at h
  cases hpp : p pos with
  | mk r e =>
    rw [hpp] at h
    cases r with
    | none =>
      simp only [Option.some.injEq, Prod.mk.injEq] at h
      obtain ⟨-, h2⟩ := h
      omega
    | some v =>
      obtain ⟨b, pm⟩ := v
      simp only [Option.some.injEq, Prod.mk.injEq] at h
      exact le_of_le_of_eq (hp pos b pm (by rw [hpp])) h.2

theorem mono_plit {inp l : List Nat} : PMono (plit inp l) := by
  intro pos a p' h
  unfold plit at h
  by_cases hm : matchAt inp pos l
  · simp only [hm, if_true, Option.some.injEq, Prod.mk.injEq] at h
    obtain ⟨-, h2⟩ := h
    omega
  · simp [hm] at h

theorem mono_pclass {inp : List Nat} {f : Nat → Bool} : PMono (pclass inp f) := by
  intro pos a p' h
  unfold pclass at h
  cases hg : inp.get? pos with
  | none => rw [hg] at h; simp at h
  | some b =>
    rw [hg] at h
    by_cases hf : f b
    · simp only [hf, if_true, Option.some.injEq, Prod.mk.injEq] at h
      obtain ⟨-, h2⟩ := h
      omega
    · simp [hf] at h

theorem mono_pclassMany {inp : List Nat} {f : Nat → Bool} {q : Bool} :
    PMono (pclassMany inp f q) := by
  intro pos a p' h
  unfold pclassMany at h
  simp only [Option.some.injEq, Prod.mk.injEq] at h
  obtain ⟨-, h2⟩ := h
  omega

theorem mono_pclassMany1 {inp : List Nat} {f : Nat → Bool} {q : Bool} :
    PMono (pclassMany1 inp f q) := by
  intro pos a p' h
  unfold pclassMany1 at h
  by_cases hn : runLen inp f pos = 0
  · simp [hn] at h
  · simp only [hn, if_false, Option.some.injEq, Prod.mk.injEq] at h
    obtain ⟨-, h2⟩ := h
    omega

theorem mono_pslice {α : Type} {inp : List Nat} {p : P α} (hp : PMono p) :
    PMono (pslice inp p) := by
  intro pos a p' h
  unfold pslice at h
  cases hpp : p pos with
  | mk r e =>
    rw [hpp] at h
    cases r with
    | none => simp at h
    | some v =>
      obtain ⟨b, pm⟩ := v
      simp only [Option.some.injEq, Prod.mk.injEq] at h
      exact le_of_le_of_eq (hp pos b pm (by rw [hpp])) h.2

theorem mono_p_ws {inp : List Nat} : PMono (p_ws inp) := by
  intro pos a p' h
  unfold p_ws at h
  simp only [Option.some.injEq, Prod.mk.injEq] at h
  obtain ⟨-, h2⟩ := h
  omega

theorem mono_p_ws1 {inp : List Nat} : PMono (p_ws1 inp) := by
  intro pos a p' h
  unfold p_ws1 at h
  by_cases hn : runLen inp isWs pos = 0
  · simp [hn] at h
  · simp only [hn, if_false, Option.some.injEq, Prod.mk.injEq] at h
    obtain ⟨-, h2⟩ := h
    omega

theorem mono_digits1 {inp : List Nat} : PMono (digits1 inp) := by
  intro pos a p' h
  unfold digits1 at h
  cases hpp : pclassMany1 inp isDigit false pos with
  | mk r e =>
    rw [hpp] at h
    cases r with
    | none => simp at h
    | some v =>
      obtain ⟨b, pm⟩ := v
      simp only [Option.some.injEq, Prod.mk.injEq] at h
      exact le_of_le_of_eq (mono_pclassMany1 pos b pm (by rw [hpp])) h.2

theorem mono_digits0 {inp : List Nat} : PMono (digits0 inp) := by
  intro pos a p' h
  unfold digits0 at h
  cases hpp : pclassMany inp isDigit false pos with
  | mk r e =>
    rw [hpp] at h
    cases r with
    | none => simp at h
    | some v =>
      obtain ⟨b, pm⟩ := v
      simp only [Option.some.injEq, Prod.mk.injEq] at h
      exact le_of_le_of_eq (mono_pclassMany pos b pm (by rw [hpp])) h.2

theorem mono_hexDigits1 {inp : List Nat} : PMono (hexDigits1 inp) := by
  intro pos a p' h
  unfold hexDigits1 at h
  by_cases hn : runLen inp isHexDigit pos = 0
  · simp [hn] at h
  · simp only [hn, if_false, Option.some.injEq, Prod.mk.injEq] at h
    obtain ⟨-, h2⟩ := h
    omega

theorem mono_identifierP {inp : List Nat} : PMono (identifierP inp) := by
  intro pos a p' h
  unfold identifierP at h
  cases hg : inp.get? pos with
  | none => rw [hg] at h; simp at h
  | some b =>
    rw [hg] at h
    by_cases hs : isIdentStart b
    · simp only [hs, if_true] at h
      by_cases hk : binary_search LUA_KEYWORDS (slice inp pos (runLen inp isIdentCont (pos + 1) + 1))
      · simp [hk] at h
      · simp only [hk, if_false, Option.some.injEq, Prod.mk.injEq] at h
        obtain ⟨-, h2⟩ := h
        omega
    · simp [hs] at h

/-! ### Result projections

The failure record is write-only: the `Option` component of every parser is
independent of it.  These projection lemmas let all semantic proofs work on
the `Option` component alone, via the shared combinators `oBind`, `oOr`,
`oOpt`. -/

/-- Sequencing on the `Option` component. -/
def oBind {α β : Type} (x : Option (α × Nat)) (g : α → Nat → Option (β × Nat)) :
    Option (β × Nat) :=
  match x with
  | none => none
  | some (a, q) => g a q

/-- Ordered choice on the `Option` component. -/
def oOr {α : Type} (x y : Option α) : Option α :=
  match x with
  | some v => some v
  | none => y

/-- The `?` operator on the `Option` component. -/
def oOpt {α : Type} (x : Option (α × Nat)) (pos : Nat) :
    Option (Option α × Nat) :=
  match x with
  | none => some (none, pos)
  | some (a, q) => some (some a, q)

@[simp] theorem oBind_none {α β : Type} (g : α → Nat → Option (β × Nat)) :
    oBind none g = none := rfl

@[simp] theorem oBind_some {α β : Type} (a : α) (q : Nat)
    (g : α → Nat → Option (β × Nat)) : oBind (some (a, q)) g = g a q := rfl

@[simp] theorem oOr_some {α : Type} (v : α) (y : Option α) :
    oOr (some v) y = some v := rfl

@[simp] theorem oOr_none {α : Type} (y : Option α) : oOr none y = y := rfl

@[simp] theorem oOpt_none {α : Type} (pos : Nat) :
    oOpt (none : Option (α × Nat)) pos = some (none, pos) := rfl

@[simp] theorem oOpt_some {α : Type} (a : α) (q pos : Nat) :
    oOpt (some (a, q)) pos = some (some a, q) := rfl

theorem pbind_fst {α β : Type} (p : P α) (f : α → P β) (pos : Nat) :
    (pbind p f pos).1 = oBind (p pos).1 (fun a q => (f a q).1) := by
  unfold pbind oBind
  cases hp : p pos with
  | mk r e =>
    cases r with
    | none => rfl
    | some v =>
      obtain ⟨a, q⟩ := v
      simp only
      cases f a q with
      | mk r2 e2 => rfl

theorem porelse_fst {α : Type} (p q : P α) (pos : Nat) :
    (porelse p q pos).1 = oOr (p pos).1 (q pos).1 := by
  unfold porelse oOr
  cases hp : p pos with
  | mk r e =>
    cases r with
    | some v => rfl
    | none =>
      simp only
      cases q pos with
      | mk r2 e2 => rfl

theorem pmap_fst {α β : Type} (f : α → β) (p : P α) (pos : Nat) :
    (pmap f p pos).1 = oBind (p pos).1 (fun a q => some (f a, q)) := by
  unfold pmap oBind
  cases hp : p pos with
  | mk r e =>
    cases r with
    | none => rfl
    | some v => obtain ⟨a, q⟩ := v; rfl

theorem popt_fst {α : Type} (p : P α) (pos : Nat) :
    (popt p pos).1 = oOpt (p pos).1 pos := by
  unfold popt oOpt
  cases hp : p pos with
  | mk r e =>
    cases r with
    | none => rfl
    | some v => obtain ⟨a, q⟩ := v; rfl

theorem pslice_fst {α : Type} (inp : List Nat) (p : P α) (pos : Nat) :
    (pslice inp p pos).1 =
      oBind (p pos).1 (fun _ q => some (slice inp pos (q - pos), q)) := by
  unfold pslice oBind
  cases hp : p pos with
  | mk r e =>
    cases r with
    | none => rfl
    | some v => obtain ⟨a, q⟩ := v; rfl

theorem ppure_fst {α : Type} (a : α) (pos : Nat) :
    (ppure a pos).1 = some (a, pos) := rfl

theorem pfail_fst {α : Type} (flag : Bool) (pos : Nat) :
    (pfail (α := α) flag pos).1 = none := rfl

theorem plit_fst (inp l : List Nat) (pos : Nat) :
    (plit inp l pos).1 =
      (if matchAt inp pos l then some ((), pos + l.length) else none) := by
  unfold plit
  by_cases h : matchAt inp pos l <;> simp [h]

theorem pclass_fst (inp : List Nat) (f : Nat → Bool) (pos : Nat) :
    (pclass inp f pos).1 =
      (match inp.get? pos with
       | some b => if f b then some (b, pos + 1) else none
       | none => none) := by
  unfold pclass
  cases h : inp.get? pos with
  | none => rfl
  | some b => by_cases hf : f b <;> simp [hf]

theorem p_ws_fst (inp : List Nat) (pos : Nat) :
    (p_ws inp pos).1 = some ((), pos + runLen inp isWs pos) := rfl

theorem p_ws1_fst (inp : List Nat) (pos : Nat) :
    (p_ws1 inp pos).1 =
      (if runLen inp isWs pos = 0 then none
       else some ((), pos + runLen inp isWs pos)) := by
  unfold p_ws1
  by_cases h : runLen inp isWs pos = 0 <;> simp [h]

theorem digits1_fst (inp : List Nat) (pos : Nat) :
    (digits1 inp pos).1 =
      (if runLen inp isDigit pos = 0 then none
       else some ((), pos + runLen inp isDigit pos)) := by
  unfold digits1 pclassMany1
  by_cases h : runLen inp isDigit pos = 0 <;> simp [h]

theorem digits0_fst (inp : List Nat) (pos : Nat) :
    (digits0 inp pos).1 = some ((), pos + runLen inp isDigit pos) := rfl

theorem hexDigits1_fst (inp : List Nat) (pos : Nat) :
    (hexDigits1 inp pos).1 =
      (if runLen inp isHexDigit pos = 0 then none
       else some ((), pos + runLen inp isHexDigit pos)) := by
  unfold hexDigits1
  by_cases h : runLen inp isHexDigit pos = 0 <;> simp [h]

/-! ### First-byte failure lemmas

Used to show that at a separator, closing brace, or other unsuitable byte,
the value alternatives fail regardless of the depth budget. -/

theorem runLen_zero_head {inp : List Nat} {f : Nat → Bool} {pos c : Nat}
    (hg : inp.get? pos = some c) (hf : f c = false) : runLen inp f pos = 0 :=
  runLen_zero (fun b hb => by rw [hg] at hb; cases hb; exact hf)

theorem psign_skip {inp : List Nat} {pos c : Nat} (hg : inp.get? pos = some c)
    (h43 : c ≠ 43) (h45 : c ≠ 45) :
    (psign inp pos).1 = some (none, pos) := by
  unfold psign
  rw [popt_fst, pclass_fst, hg]
  simp [h43, h45]

/-- `numbers()` fails when the first byte is not a sign, digit, radix point,
or `(`. -/
theorem numbersP_fail {inp : List Nat} {pos c : Nat}
    (hg : inp.get? pos = some c) (h43 : c ≠ 43) (h45 : c ≠ 45) (h40 : c ≠ 40)
    (h46 : c ≠ 46) (hd : isDigit c = false) : (numbersP inp pos).1 = none := by
  have hne45 : inp.get? pos ≠ some 45 := by rw [hg]; simp [h45]
  have hne49 : inp.get? pos ≠ some 49 := by
    rw [hg]
    intro h
    cases h
    simp [isDigit] at hd
  have hne40 : inp.get? pos ≠ some 40 := by rw [hg]; simp [h40]
  have hne48 : inp.get? pos ≠ some 48 := by
    rw [hg]
    intro h
    cases h
    simp [isDigit] at hd
  have hdig0 : runLen inp isDigit pos = 0 := runLen_zero_head hg hd
  have hbody : (decFloatBodyP inp pos).1 = none := by
    unfold decFloatBodyP
    rw [porelse_fst, pbind_fst, porelse_fst, pbind_fst, digits1_fst]
    simp only [hdig0, if_true, oBind_none, oOr_none]
    rw [pbind_fst, pclass_fst, hg]
    have : (c = 46 : Bool) = false := by simp [h46]
    simp only [this, Bool.false_eq_true, if_false]
    rw [pbind_fst, digits1_fst]
    simp [hdig0]

  have hm1 : matchAt inp pos [45, 49, 101, 57, 57, 57, 57] = false := by
    cases h : matchAt inp pos [45, 49, 101, 57, 57, 57, 57] with
    | false => rfl
    | true => exact absurd (matchAt_head h) hne45
  have hm2 : matchAt inp pos [49, 101, 57, 57, 57, 57] = false := by
    cases h : matchAt inp pos [49, 101, 57, 57, 57, 57] with
    | false => rfl
    | true => exact absurd (matchAt_head h) hne49
  have hm3 : matchAt inp pos [40, 48, 47, 48, 41] = false := by
    cases h : matchAt inp pos [40, 48, 47, 48, 41] with
    | false => rfl
    | true => exact absurd (matchAt_head h) hne40
  have hm4 : matchAt inp pos [48, 120] = false := by
    cases h : matchAt inp pos [48, 120] with
    | false => rfl
    | true => exact absurd (matchAt_head h) hne48
  have hm5 : matchAt inp pos [48, 88] = false := by
    cases h : matchAt inp pos [48, 88] with
    | false => rfl
    | true => exact absurd (matchAt_head h) hne48
  have hm6 : matchAt inp pos [48] = false := by
    cases h : matchAt inp pos [48] with
    | false => rfl
    | true => exact absurd (matchAt_head h) hne48
  unfold numbersP
  simp only [porelse_fst, pmap_fst, pslice_fst, pbind_fst, plit_fst,
    psign_skip hg h43 h45, hbody, digits1_fst, hdig0, hm1, hm2, hm3, hm4,
    hm5, hm6, Bool.false_eq_true, if_false, if_true, oBind_some, oBind_none,
    oOr_none, oOr_some]

/-- `string()` fails when the first byte is not a quote or `[`. -/
theorem stringP_fail {inp : List Nat} {pos c : Nat}
    (hg : inp.get? pos = some c) (h39 : c ≠ 39) (h34 : c ≠ 34)
    (h91 : c ≠ 91) : (stringP inp pos).1 = none := by
  have hne39 : inp.get? pos ≠ some 39 := by rw [hg]; simp [h39]
  have hne34 : inp.get? pos ≠ some 34 := by rw [hg]; simp [h34]
  have hne91 : inp.get? pos ≠ some 91 := by rw [hg]; simp [h91]
  have hm39 : matchAt inp pos [39] = false := by
    cases h : matchAt inp pos [39] with
    | false => rfl
    | true => exact absurd (matchAt_head h) hne39
  have hm34 : matchAt inp pos [34] = false := by
    cases h : matchAt inp pos [34] with
    | false => rfl
    | true => exact absurd (matchAt_head h) hne34
  have hm9191 : matchAt inp pos [91, 91] = false := by
    cases h : matchAt inp pos [91, 91] with
    | false => rfl
    | true => exact absurd (matchAt_head h) hne91
  have hm91 : matchAt inp pos [91] = false := by
    cases h : matchAt inp pos [91] with
    | false => rfl
    | true => exact absurd (matchAt_head h) hne91
  unfold stringP sqStringP dqStringP longStringP longerStringP
  simp only [porelse_fst, pbind_fst, plit_fst, hm39, hm34, hm9191, hm91,
    Bool.false_eq_true, if_false, oBind_none, oOr_none]

/-- `identifier()` fails when the first byte is not a letter or underscore. -/
theorem identifierP_fail {inp : List Nat} {pos c : Nat}
    (hg : inp.get? pos = some c) (hs : isIdentStart c = false) :
    (identifierP inp pos).1 = none := by
  unfold identifierP
  rw [hg]
  simp [hs]

/-! ### Inversion helpers for `.1`-normalized computations -/

theorem bindO {α β : Type} {X : Option (α × Nat)}
    {G : α → Nat → Option (β × Nat)} {r : β × Nat}
    (h : oBind X G = some r) :
    ∃ a q, X = some (a, q) ∧ G a q = some r := by
  cases X with
  | none => simp at h
  | some v =>
    obtain ⟨a, q⟩ := v
    exact ⟨a, q, rfl, h⟩

theorem orO {α : Type} {X Y : Option α} {r : α}
    (h : oOr X Y = some r) :
    X = some r ∨ (X = none ∧ Y = some r) := by
  cases X with
  | none => exact Or.inr ⟨rfl, h⟩
  | some v => exact Or.inl h

theorem optO {α : Type} {X : Option (α × Nat)} {pos : Nat} {a : Option α}
    {q : Nat} (h : oOpt X pos = some (a, q)) :
    (X = none ∧ a = none ∧ q = pos) ∨ ∃ b, X = some (b, q) ∧ a = some b := by
  cases X with
  | none =>
    simp only [oOpt_none, Option.some.injEq, Prod.mk.injEq] at h
    exact Or.inl ⟨rfl, h.1.symm, h.2.symm⟩
  | some v =>
    obtain ⟨b, q2⟩ := v
    simp only [oOpt_some, Option.some.injEq, Prod.mk.injEq] at h
    exact Or.inr ⟨b, by rw [h.2], h.1.symm⟩

/-! ### Monotone consumption for the compound depth-free rules -/

theorem mono_psign {inp : List Nat} : PMono (psign inp) :=
  mono_popt mono_pclass

theorem mono_decExpP {inp : List Nat} : PMono (decExpP inp) :=
  mono_pbind mono_pclass fun _ => mono_pbind mono_psign fun _ => mono_digits1

theorem mono_binExpP {inp : List Nat} : PMono (binExpP inp) :=
  mono_pbind mono_pclass fun _ => mono_pbind mono_psign fun _ => mono_digits1

theorem mono_decFloatBodyP {inp : List Nat} : PMono (decFloatBodyP inp) :=
  mono_porelse
    (mono_pbind
      (mono_porelse
        (mono_pbind mono_digits1 fun _ =>
          mono_pbind mono_pclass fun _ => mono_digits0)
        (mono_pbind mono_pclass fun _ => mono_digits1))
      fun _ => mono_pbind (mono_popt mono_decExpP) fun _ => mono_ppure _)
    (mono_pbind mono_digits1 fun _ => mono_decExpP)

theorem mono_hexFloatBodyP {inp : List Nat} : PMono (hexFloatBodyP inp) :=
  mono_porelse
    (mono_pbind mono_hexDigits1 fun _ =>
      mono_pbind mono_plit fun _ =>
      mono_pbind (mono_popt mono_hexDigits1) fun _ =>
      mono_pbind (mono_popt mono_binExpP) fun _ => mono_ppure _)
    (mono_porelse
      (mono_pbind mono_plit fun _ =>
        mono_pbind mono_hexDigits1 fun _ =>
        mono_pbind (mono_popt mono_binExpP) fun _ => mono_ppure _)
      (mono_pbind mono_hexDigits1 fun _ => mono_binExpP))

theorem mono_numbersP {inp : List Nat} : PMono (numbersP inp) := by
  unfold numbersP
  apply mono_porelse (mono_pmap mono_plit)
  apply mono_porelse (mono_pmap mono_plit)
  apply mono_porelse (mono_pmap mono_plit)
  apply mono_porelse
    (mono_pmap (mono_pslice (mono_pbind mono_psign fun _ => mono_decFloatBodyP)))
  apply mono_porelse
  · apply mono_pbind
      (mono_pslice (mono_pbind mono_psign fun _ =>
        mono_pbind (mono_porelse mono_plit mono_plit) fun _ =>
          mono_hexFloatBodyP))
    intro bs
    cases strtodHex bs with
    | none => exact mono_pfail _
    | some f => exact mono_ppure _
  apply mono_porelse
  · apply mono_pbind mono_psign
    intro sb
    apply mono_pbind mono_plit
    intro _
    apply mono_pbind mono_pclass
    intro _
    apply mono_pbind (mono_pslice mono_hexDigits1)
    intro nb
    cases wrapping_parse_int nb 16 (sb ≠ some 45) with
    | none => exact mono_pfail _
    | some i => exact mono_ppure _
  exact mono_pmap (mono_pslice (mono_pbind mono_psign fun _ => mono_digits1))

theorem mono_linebreakP {inp : List Nat} : PMono (linebreakP inp) :=
  mono_porelse mono_plit
    (mono_porelse mono_plit (mono_porelse mono_plit mono_plit))

theorem mono_escapedCharP {inp : List Nat} : PMono (escapedCharP inp) := by
  unfold escapedCharP
  repeat apply mono_porelse (mono_pmap mono_plit)
  apply mono_porelse
    (mono_pbind mono_plit fun _ => mono_pbind mono_p_ws fun _ => mono_ppure _)
  apply mono_porelse
    (mono_pbind mono_plit fun _ =>
      mono_pbind mono_pclass fun _ =>
      mono_pbind mono_pclass fun _ => mono_ppure _)
  apply mono_porelse
  · apply mono_pbind mono_plit
    intro _
    intro pos a p' h
    simp only at h
    by_cases hn : min (runLen inp isDigit pos) 3 = 0
    · simp [hn] at h
    · simp only [hn, if_false] at h
      by_cases hv : natFromDigits (slice inp pos (min (runLen inp isDigit pos) 3)) ≤ 255
      · simp only [hv, if_true, Option.some.injEq, Prod.mk.injEq] at h
        obtain ⟨-, h2⟩ := h
        omega
      · simp [hv] at h
  apply mono_porelse
  · apply mono_pbind mono_plit
    intro _
    apply mono_pbind (mono_pslice mono_hexDigits1)
    intro x
    apply mono_pbind mono_plit
    intro _
    by_cases h32 : natFromHexDigits x < 2 ^ 32
    · simp only [h32, if_true]
      by_cases h80 : natFromHexDigits x < 0x80
      · simp only [h80, if_true]
        exact mono_ppure _
      · simp only [h80, if_false]
        by_cases h7f : natFromHexDigits x ≤ 0x7FFFFFFF
        · simp only [h7f, if_true]
          exact mono_ppure _
        · simp only [h7f, if_false]
          exact mono_pfail _
    · simp only [h32, if_false]
      exact mono_pfail _
  exact mono_pfail _

theorem mono_dqCharsP {inp : List Nat} : PMono (dqCharsP inp) :=
  mono_porelse (mono_pmap mono_pclassMany1) mono_escapedCharP

theorem mono_sqCharsP {inp : List Nat} : PMono (sqCharsP inp) :=
  mono_porelse (mono_pmap mono_pclassMany1) mono_escapedCharP

theorem mono_spanLoopP {item : P CowBytes} (hitem : PMono item) :
    ∀ fuel, PMono (spanLoopP item fuel) := by
  intro fuel
  induction fuel with
  | zero => exact mono_ppure _
  | succ n ih =>
    intro pos a p' h
    unfold spanLoopP at h
    cases hi : item pos with
    | mk r e =>
      rw [hi] at h
      cases r with
      | none =>
        simp only [Option.some.injEq, Prod.mk.injEq] at h
        obtain ⟨-, h2⟩ := h
        omega
      | some v =>
        obtain ⟨c, q⟩ := v
        simp only at h
        cases hl : spanLoopP item n q with
        | mk r2 e2 =>
          rw [hl] at h
          cases r2 with
          | none => simp at h
          | some w =>
            obtain ⟨l, q2⟩ := w
            simp only [Option.some.injEq, Prod.mk.injEq] at h
            obtain ⟨-, h2⟩ := h
            have i1 : pos ≤ q := hitem pos c q (by rw [hi])
            have i2 : q ≤ q2 := ih q l q2 (by rw [hl])
            omega

theorem mono_dqStringP {inp : List Nat} : PMono (dqStringP inp) :=
  mono_pbind mono_plit fun _ =>
    mono_pbind (mono_spanLoopP mono_dqCharsP _) fun _ =>
      mono_pbind mono_plit fun _ => mono_ppure _

theorem mono_sqStringP {inp : List Nat} : PMono (sqStringP inp) :=
  mono_pbind mono_plit fun _ =>
    mono_pbind (mono_spanLoopP mono_sqCharsP _) fun _ =>
      mono_pbind mono_plit fun _ => mono_ppure _

theorem mono_scanTail {inp close : List Nat} {fuel pos : Nat} :
    ∀ a p', ((match scanTo inp close fuel pos with
      | (n, e) =>
        let body := if n = 0 then CowBytes.borrowed []
                    else CowBytes.borrowed (slice inp pos n)
        match plit inp close (pos + n) with
        | (some (_, p'), e') => (some (body, p'), e.merge e')
        | (none, e') => (none, e.merge e')) : M CowBytes).1 = some (a, p') →
      pos ≤ p' := by
  intro a p' h
  cases hs : scanTo inp close fuel pos with
  | mk n e =>
    rw [hs] at h
    simp only at h
    cases hp : plit inp close (pos + n) with
    | mk r2 e2 =>
      rw [hp] at h
      cases r2 with
      | none => simp at h
      | some v =>
        obtain ⟨u, q⟩ := v
        simp only [Option.some.injEq, Prod.mk.injEq] at h
        obtain ⟨-, h2⟩ := h
        have : pos + n ≤ q := mono_plit (pos + n) u q (by rw [hp])
        omega

theorem mono_longStringP {inp : List Nat} : PMono (longStringP inp) := by
  unfold longStringP
  apply mono_pbind mono_plit
  intro _
  apply mono_pbind (mono_popt mono_linebreakP)
  intro _
  intro pos a p' h
  exact mono_scanTail a p' h

theorem mono_longerStringP {inp : List Nat} {level : Nat} :
    PMono (longerStringP inp level) := by
  unfold longerStringP
  apply mono_pbind mono_plit
  intro _
  apply mono_pbind mono_plit
  intro _
  apply mono_pbind mono_plit
  intro _
  apply mono_pbind (mono_popt mono_linebreakP)
  intro _
  intro pos a p' h
  exact mono_scanTail a p' h

theorem mono_stringP {inp : List Nat} : PMono (stringP inp) :=
  mono_porelse mono_sqStringP
    (mono_porelse mono_dqStringP
      (mono_porelse mono_longStringP
        (mono_porelse mono_longerStringP
          (mono_porelse mono_longerStringP
            (mono_porelse mono_longerStringP
              (mono_porelse mono_longerStringP mono_longerStringP))))))

theorem plit_succ {inp l : List Nat} {pos q : Nat} {a : Unit}
    (h : (plit inp l pos).1 = some (a, q)) : q = pos + l.length := by
  rw [plit_fst] at h
  split at h
  · simp only [Option.some.injEq, Prod.mk.injEq] at h
    exact h.2.symm
  · simp at h

theorem pclass_succ {inp : List Nat} {f : Nat → Bool} {pos q c : Nat}
    (h : (pclass inp f pos).1 = some (c, q)) :
    q = pos + 1 ∧ inp.get? pos = some c ∧ f c = true := by
  rw [pclass_fst] at h
  cases hg : inp.get? pos with
  | none => rw [hg] at h; simp at h
  | some b =>
    rw [hg] at h
    by_cases hf : f b
    · simp only [hf, if_true, Option.some.injEq, Prod.mk.injEq] at h
      obtain ⟨h1, h2⟩ := h
      subst h1
      exact ⟨h2.symm, rfl, hf⟩
    · simp [hf] at h

/-! ### Depth bound

A successful parse at budget `d` yields a tree whose table nesting is at
most `d`, and also at most the number of input bytes consumed. -/

/-- Depth-bound statement for `lua_value` at fuel `n`. -/
def DVal (inp : List Nat) (n : Nat) : Prop :=
  ∀ d pos t p, (luaValueP inp n d pos).1 = some (t, p) →
    depthV t ≤ d ∧ pos + depthV t ≤ p

/-- Depth-bound statement for `table_entry` at fuel `n`. -/
def DEntry (inp : List Nat) (n : Nat) : Prop :=
  ∀ d pos en p, (tableEntryP inp n d pos).1 = some (en, p) →
    depthE en ≤ d ∧ pos + depthE en ≤ p

/-- Depth-bound statement for the entry-separator loop at fuel `n`. -/
def DLoop (inp : List Nat) (n : Nat) : Prop :=
  ∀ d pos es p, (entriesLoopP inp n d pos).1 = some (es, p) →
    depthEntries es ≤ d ∧ pos + depthEntries es ≤ p

/-- Depth-bound statement for `table_entries` at fuel `n`. -/
def DEnts (inp : List Nat) (n : Nat) : Prop :=
  ∀ d pos es p, (tableEntriesP inp n d pos).1 = some (es, p) →
    depthEntries es ≤ d ∧ pos + depthEntries es ≤ p

/-- Depth-bound statement for `table` at fuel `n`. -/
def DTab (inp : List Nat) (n : Nat) : Prop :=
  ∀ d pos es p, (tableP inp n d pos).1 = some (es, p) →
    1 + depthEntries es ≤ d ∧ pos + 1 + depthEntries es ≤ p

theorem valueAltP_depth {inp : List Nat} {n : Nat} (htab : DTab inp n) :
    ∀ d pos t p, (valueAltP inp n d pos).1 = some (t, p) →
      depthV t ≤ d ∧ pos + depthV t ≤ p := by
  intro d pos t p h
  unfold valueAltP at h
  simp only [porelse_fst, pmap_fst, pfail_fst] at h
  rcases orO h with h1 | ⟨-, h⟩
  · obtain ⟨a, q, hX, hs⟩ := bindO h1
    simp only [Option.some.injEq, Prod.mk.injEq] at hs
    obtain ⟨ht, hp⟩ := hs
    subst ht hp
    exact ⟨by simp [depthV], by
      have := mono_plit pos a q hX
      simp only [depthV]
      omega⟩
  rcases orO h with h1 | ⟨-, h⟩
  · obtain ⟨a, q, hX, hs⟩ := bindO h1
    simp only [Option.some.injEq, Prod.mk.injEq] at hs
    obtain ⟨ht, hp⟩ := hs
    subst ht hp
    exact ⟨by simp [depthV], by
      have := mono_plit pos a q hX
      simp only [depthV]
      omega⟩
  rcases orO h with h1 | ⟨-, h⟩
  · obtain ⟨a, q, hX, hs⟩ := bindO h1
    simp only [Option.some.injEq, Prod.mk.injEq] at hs
    obtain ⟨ht, hp⟩ := hs
    subst ht hp
    exact ⟨by simp [depthV], by
      have := mono_plit pos a q hX
      simp only [depthV]
      omega⟩
  rcases orO h with h1 | ⟨-, h⟩
  · obtain ⟨a, q, hX, hs⟩ := bindO h1
    simp only [Option.some.injEq, Prod.mk.injEq] at hs
    obtain ⟨ht, hp⟩ := hs
    subst ht hp
    exact ⟨by simp [depthV], by
      have := mono_numbersP pos a q hX
      simp only [depthV]
      omega⟩
  rcases orO h with h1 | ⟨-, h⟩
  · obtain ⟨a, q, hX, hs⟩ := bindO h1
    simp only [Option.some.injEq, Prod.mk.injEq] at hs
    obtain ⟨ht, hp⟩ := hs
    subst ht hp
    exact ⟨by simp [depthV], by
      have := mono_stringP pos a q hX
      simp only [depthV]
      omega⟩
  rcases orO h with h1 | ⟨-, h⟩
  · obtain ⟨es, q, hX, hs⟩ := bindO h1
    simp only [Option.some.injEq, Prod.mk.injEq] at hs
    obtain ⟨ht, hp⟩ := hs
    subst ht hp
    obtain ⟨hd, hc⟩ := htab d pos es q hX
    exact ⟨by simpa [depthV] using hd, by simp only [depthV]; omega⟩
  · simp at h

theorem luaValueP_depth_zero {inp : List Nat} : DVal inp 0 := by
  intro d pos t p h
  simp [luaValueP_zero] at h

theorem luaValueP_depth_succ {inp : List Nat} {n : Nat} (htab : DTab inp n) :
    DVal inp (n + 1) := by
  intro d pos t p h
  simp only [luaValueP_succ, pbind_fst, p_ws_fst, ppure_fst, oBind_some] at h
  obtain ⟨v, q, hX, hs⟩ := bindO h
  simp only [Option.some.injEq, Prod.mk.injEq] at hs
  obtain ⟨ht, hp⟩ := hs
  obtain ⟨hd, hc⟩ := valueAltP_depth htab d _ v q hX
  rw [← ht, ← hp]
  exact ⟨hd, by omega⟩

theorem tableEntryP_depth_of {inp : List Nat} {n : Nat} (hval : DVal inp n) :
    DEntry inp n := by
  intro d pos en p h
  unfold tableEntryP at h
  simp only [pbind_fst, p_ws_fst, ppure_fst, porelse_fst, pmap_fst,
    pfail_fst, oBind_some] at h
  obtain ⟨en0, q0, hX, hs⟩ := bindO h
  simp only [Option.some.injEq, Prod.mk.injEq] at hs
  obtain ⟨he, hp⟩ := hs
  suffices hs2 : depthE en0 ≤ d ∧
      pos + runLen inp isWs pos + depthE en0 ≤ q0 by
    rw [← he, ← hp]
    exact ⟨hs2.1, by obtain ⟨-, h2⟩ := hs2; omega⟩
  rcases orO hX with h1 | ⟨-, hX⟩
  · -- positional entry
    obtain ⟨v, q, hv, hs⟩ := bindO h1
    simp only [Option.some.injEq, Prod.mk.injEq] at hs
    obtain ⟨he2, hq⟩ := hs
    obtain ⟨hdv, hcv⟩ := hval d _ v q hv
    rw [← he2, ← hq]
    exact ⟨by simpa [depthE] using hdv, by simp only [depthE]; omega⟩
  rcases orO hX with h1 | ⟨-, hX⟩
  · -- bracket-keyed entry
    obtain ⟨u1, q1, hb1, h1⟩ := bindO h1
    obtain ⟨k, q2, hk, h1⟩ := bindO h1
    obtain ⟨u3, q4, hb3, h1⟩ := bindO h1
    obtain ⟨u5, q6, hb5, h1⟩ := bindO h1
    obtain ⟨v, q8, hv, h1⟩ := bindO h1
    simp only [Option.some.injEq, Prod.mk.injEq] at h1
    obtain ⟨he2, hq⟩ := h1
    obtain ⟨hdk, hck⟩ := hval d q1 k q2 hk
    obtain ⟨hdv, hcv⟩ := hval d _ v q8 hv
    have m1 := mono_plit _ u1 q1 hb1
    have m4 := mono_plit _ u3 q4 hb3
    have m6 := mono_plit _ u5 q6 hb5
    rw [← he2, ← hq]
    exact ⟨by simp only [depthE]; omega, by simp only [depthE]; omega⟩
  rcases orO hX with h1 | ⟨-, hX⟩
  · -- name-keyed entry
    obtain ⟨name, q1, hid, h1⟩ := bindO h1
    obtain ⟨u3, q3, hb3, h1⟩ := bindO h1
    obtain ⟨v, q5, hv, h1⟩ := bindO h1
    simp only [Option.some.injEq, Prod.mk.injEq] at h1
    obtain ⟨he2, hq⟩ := h1
    obtain ⟨hdv, hcv⟩ := hval d _ v q5 hv
    have m1 := mono_identifierP _ name q1 hid
    have m3 := mono_plit _ u3 q3 hb3
    rw [← he2, ← hq]
    exact ⟨by simpa [depthE] using hdv, by simp only [depthE]; omega⟩
  · simp at hX

theorem entriesLoopP_depth_zero {inp : List Nat} : DLoop inp 0 := by
  intro d pos es p h
  rw [entriesLoopP_zero] at h
  simp only [ppure_fst, Option.some.injEq, Prod.mk.injEq] at h
  obtain ⟨he, hp⟩ := h
  subst he
  simp only [depthEntries]
  omega

theorem entriesLoopP_depth_succ {inp : List Nat} {n : Nat}
    (hent : DEntry inp n) (hloop : DLoop inp n) : DLoop inp (n + 1) := by
  intro d pos es p h
  simp only [entriesLoopP_succ] at h
  cases hsep : pclass inp (fun b => b = 44 || b = 59) pos with
  | mk r e =>
    rw [hsep] at h
    cases r with
    | none =>
      simp only [Option.some.injEq, Prod.mk.injEq] at h
      obtain ⟨he, hp⟩ := h
      subst he
      simp only [depthEntries]
      omega
    | some v =>
      obtain ⟨b, p1⟩ := v
      simp only at h
      cases hen : tableEntryP inp n d p1 with
      | mk r2 e2 =>
        rw [hen] at h
        cases r2 with
        | none =>
          simp only [Option.some.injEq, Prod.mk.injEq] at h
          obtain ⟨he, hp⟩ := h
          subst he
          simp only [depthEntries]
          omega
        | some w =>
          obtain ⟨en, p2⟩ := w
          simp only at h
          cases hl : entriesLoopP inp n d p2 with
          | mk r3 e3 =>
            rw [hl] at h
            cases r3 with
            | none => simp at h
            | some z =>
              obtain ⟨l, p3⟩ := z
              simp only [Option.some.injEq, Prod.mk.injEq] at h
              obtain ⟨he, hp⟩ := h
              subst he
              have hm0 : pos ≤ p1 := mono_pclass pos b p1 (by rw [hsep])
              obtain ⟨hd1, hc1⟩ := hent d p1 en p2 (by rw [hen])
              obtain ⟨hd2, hc2⟩ := hloop d p2 l p3 (by rw [hl])
              constructor
              · simp only [depthEntries]
                omega
              · simp only [depthEntries]
                omega

theorem tableEntriesP_depth_of {inp : List Nat} {n : Nat}
    (hent : DEntry inp n) (hloop : DLoop inp n) : DEnts inp n := by
  intro d pos es p h
  unfold tableEntriesP at h
  cases hen : tableEntryP inp n d pos with
  | mk r e =>
    rw [hen] at h
    cases r with
    | none =>
      simp only [Option.some.injEq, Prod.mk.injEq] at h
      obtain ⟨he, hp⟩ := h
      subst he
      simp only [depthEntries]
      omega
    | some v =>
      obtain ⟨en, p1⟩ := v
      simp only at h
      cases hl : entriesLoopP inp n d p1 with
      | mk r2 e2 =>
        rw [hl] at h
        cases r2 with
        | none => simp at h
        | some w =>
          obtain ⟨l, p2⟩ := w
          simp only [Option.some.injEq, Prod.mk.injEq] at h
          obtain ⟨he, hp⟩ := h
          subst he
          obtain ⟨hd1, hc1⟩ := hent d pos en p1 (by rw [hen])
          obtain ⟨hd2, hc2⟩ := hloop d p1 l p2 (by rw [hl])
          constructor
          · simp only [depthEntries]
            omega
          · simp only [depthEntries]
            omega

theorem tableP_depth_of {inp : List Nat} {n : Nat} (hents : DEnts inp n) :
    DTab inp n := by
  intro d pos es p h
  unfold tableP at h
  simp only [pbind_fst, ppure_fst] at h
  obtain ⟨u1, q1, hb1, h⟩ := bindO h
  obtain ⟨u2, q2, hchk, h⟩ := bindO h
  obtain ⟨u3, q3, hb3, h⟩ := bindO h
  obtain ⟨esv, q4, hes, h⟩ := bindO h
  obtain ⟨u5, q5, hb5, h⟩ := bindO h
  obtain ⟨u6, q6, hb6, h⟩ := bindO h
  obtain ⟨u7, q7, hb7, h⟩ := bindO h
  obtain ⟨u8, q8, hb8, h⟩ := bindO h
  simp only [Option.some.injEq, Prod.mk.injEq] at h
  obtain ⟨he, hp⟩ := h
  subst he
  have hq1 : q1 = pos + 1 := plit_succ hb1
  have hd0 : d ≠ 0 ∧ q2 = q1 := by
    by_cases hdz : d = 0
    · rw [hdz] at hchk
      simp [pfail] at hchk
    · rw [if_neg hdz] at hchk
      unfold ppure at hchk
      simp only [Option.some.injEq, Prod.mk.injEq] at hchk
      exact ⟨hdz, hchk.2.symm⟩
  obtain ⟨hdz, hq2⟩ := hd0
  have m3 : q2 ≤ q3 := mono_p_ws q2 u3 q3 hb3
  obtain ⟨hde, hce⟩ := hents (d - 1) q3 esv q4 hes
  have m5 : q4 ≤ q5 := mono_p_ws q4 u5 q5 hb5
  have m6 : q5 ≤ q6 := mono_popt mono_pclass q5 u6 q6 hb6
  have m7 : q6 ≤ q7 := mono_p_ws q6 u7 q7 hb7
  have hq8 : q8 = q7 + 1 := plit_succ hb8
  constructor
  · omega
  · omega

/-- The bundled depth statement. -/
def DepthAll (inp : List Nat) (n : Nat) : Prop :=
  DVal inp n ∧ DEntry inp n ∧ DLoop inp n ∧ DEnts inp n ∧ DTab inp n

theorem depthAll (inp : List Nat) : ∀ n, DepthAll inp n := by
  intro n
  induction n with
  | zero =>
    have hval : DVal inp 0 := luaValueP_depth_zero
    have hent : DEntry inp 0 := tableEntryP_depth_of hval
    have hloop : DLoop inp 0 := entriesLoopP_depth_zero
    have hents : DEnts inp 0 := tableEntriesP_depth_of hent hloop
    exact ⟨hval, hent, hloop, hents, tableP_depth_of hents⟩
  | succ n ih =>
    obtain ⟨ihval, ihent, ihloop, ihents, ihtab⟩ := ih
    have hval : DVal inp (n + 1) := luaValueP_depth_succ ihtab
    have hent : DEntry inp (n + 1) := tableEntryP_depth_of hval
    have hloop : DLoop inp (n + 1) := entriesLoopP_depth_succ ihent ihloop
    have hents : DEnts inp (n + 1) := tableEntriesP_depth_of hent hloop
    exact ⟨hval, hent, hloop, hents, tableP_depth_of hents⟩


/-! ### Budget monotonicity

A successful parse at depth budget `d` also succeeds, with the same result,
at every budget `d' ≥ d`.  The only subtle case is the entry-separator loop:
it can stop early because an entry failed, but in a globally successful
parse the text at the stop point is the close sequence `_ [,;]? _ "}"`, at
whose bytes an entry fails regardless of the budget. -/

theorem matchAt_false_head {inp : List Nat} {pos x : Nat} {l : List Nat}
    (h : inp.get? pos ≠ some x) : matchAt inp pos (x :: l) = false := by
  cases hm : matchAt inp pos (x :: l) with
  | false => rfl
  | true => exact absurd (matchAt_head hm) h

theorem plit_head {inp : List Nat} {x : Nat} {l : List Nat} {pos q : Nat}
    {a : Unit} (h : (plit inp (x :: l) pos).1 = some (a, q)) :
    inp.get? pos = some x := by
  rw [plit_fst] at h
  cases hm : matchAt inp pos (x :: l) with
  | true => exact matchAt_head hm
  | false => rw [hm] at h; simp at h

theorem plit_fail_head {inp : List Nat} {x : Nat} {l : List Nat} {pos : Nat}
    (h : inp.get? pos ≠ some x) : (plit inp (x :: l) pos).1 = none := by
  rw [plit_fst, matchAt_false_head h]
  simp

theorem pclass_none {inp : List Nat} {f : Nat → Bool} {pos : Nat}
    (h : (pclass inp f pos).1 = none) :
    inp.get? pos = none ∨ ∃ b, inp.get? pos = some b ∧ f b = false := by
  rw [pclass_fst] at h
  cases hg : inp.get? pos with
  | none => exact Or.inl rfl
  | some b =>
    refine Or.inr ⟨b, rfl, ?_⟩
    cases hf : f b with
    | false => rfl
    | true =>
      rw [hg] at h
      simp [hf] at h

theorem identifierP_head {inp : List Nat} {pos : Nat} {nm : List Nat}
    {q : Nat} (h : (identifierP inp pos).1 = some (nm, q)) :
    ∃ c, inp.get? pos = some c ∧ isIdentStart c = true := by
  unfold identifierP at h
  cases hg : inp.get? pos with
  | none => rw [hg] at h; simp at h
  | some b =>
    rw [hg] at h
    cases hs : isIdentStart b with
    | true => exact ⟨b, rfl, hs⟩
    | false => simp [hs] at h

theorem isIdentStart_not_ws {c : Nat} (h : isIdentStart c = true) :
    isWs c = false := by
  unfold isIdentStart isAlpha at h
  simp only [Bool.or_eq_true, Bool.and_eq_true, decide_eq_true_eq] at h
  unfold isWs
  simp only [Bool.or_eq_false_iff, decide_eq_false_iff_not]
  omega

theorem isIdentStart_ne {c k : Nat} (h : isIdentStart c = true)
    (hk : isIdentStart k = false) : c ≠ k := fun he => by
  rw [he] at h
  rw [h] at hk
  exact Bool.noConfusion hk

/-- A byte at which no `lua_value` alternative can start. -/
def deadByte (c : Nat) : Bool :=
  !(c == 110 || c == 116 || c == 102 || c == 43 || c == 45 || c == 40 ||
    c == 46 || isDigit c || c == 39 || c == 34 || c == 91 || c == 123)

theorem deadByte_ne {c k : Nat} (hc : deadByte c = true)
    (hk : deadByte k = false) : c ≠ k := fun h => by
  rw [h] at hc
  rw [hc] at hk
  exact Bool.noConfusion hk

theorem deadByte_not_digit {c : Nat} (hc : deadByte c = true) :
    isDigit c = false := by
  unfold deadByte at hc
  cases hdig : isDigit c with
  | false => rfl
  | true => rw [hdig] at hc; simp at hc

theorem tableP_fail_byte {inp : List Nat} {n d pos : Nat}
    (h : inp.get? pos ≠ some 123) : (tableP inp n d pos).1 = none := by
  unfold tableP
  simp only [pbind_fst, plit_fst, matchAt_false_head h, Bool.false_eq_true,
    if_false, oBind_none]

theorem valueAltP_fail_at {inp : List Nat} {pos c : Nat} (n d : Nat)
    (hg : inp.get? pos = some c) (hc : deadByte c = true) :
    (valueAltP inp n d pos).1 = none := by
  have hne : ∀ k : Nat, deadByte k = false → inp.get? pos ≠ some k := by
    intro k hk h
    rw [hg] at h
    injection h with h2
    rw [h2] at hc
    rw [hc] at hk
    exact Bool.noConfusion hk
  have hm1 : matchAt inp pos [110, 105, 108] = false :=
    matchAt_false_head (hne 110 (by decide))
  have hm2 : matchAt inp pos [116, 114, 117, 101] = false :=
    matchAt_false_head (hne 116 (by decide))
  have hm3 : matchAt inp pos [102, 97, 108, 115, 101] = false :=
    matchAt_false_head (hne 102 (by decide))
  have hnum : (numbersP inp pos).1 = none :=
    numbersP_fail hg (deadByte_ne hc (by decide)) (deadByte_ne hc (by decide))
      (deadByte_ne hc (by decide)) (deadByte_ne hc (by decide))
      (deadByte_not_digit hc)
  have hstr : (stringP inp pos).1 = none :=
    stringP_fail hg (deadByte_ne hc (by decide)) (deadByte_ne hc (by decide))
      (deadByte_ne hc (by decide))
  have htab : (tableP inp n d pos).1 = none :=
    tableP_fail_byte (hne 123 (by decide))
  unfold valueAltP
  simp only [porelse_fst, pmap_fst, pfail_fst, plit_fst, hm1, hm2, hm3,
    hnum, hstr, htab, Bool.false_eq_true, if_false, oBind_none, oOr_none]

theorem luaValueP_fail_at {inp : List Nat} {pos c : Nat} (n d : Nat)
    (hg : inp.get? (pos + runLen inp isWs pos) = some c)
    (hc : deadByte c = true) : (luaValueP inp n d pos).1 = none := by
  cases n with
  | zero => simp [luaValueP_zero]
  | succ m =>
    simp only [luaValueP_succ, pbind_fst, p_ws_fst, ppure_fst, oBind_some,
      valueAltP_fail_at m d hg hc, oBind_none]

theorem tableEntryP_fail_at {inp : List Nat} {pos c : Nat} (n d : Nat)
    (hg : inp.get? (pos + runLen inp isWs pos) = some c)
    (hc : deadByte c = true) (hi : isIdentStart c = false) :
    (tableEntryP inp n d pos).1 = none := by
  have h91 : inp.get? (pos + runLen inp isWs pos) ≠ some 91 := by
    rw [hg]
    simp [deadByte_ne hc (by decide : deadByte 91 = false)]
  have hval : (luaValueP inp n d (pos + runLen inp isWs pos)).1 = none := by
    apply luaValueP_fail_at n d _ hc
    rw [show pos + runLen inp isWs pos +
        runLen inp isWs (pos + runLen inp isWs pos) =
        pos + runLen inp isWs pos from by rw [runLen_idem, Nat.add_zero]]
    exact hg
  have hb91 : (plit inp [91] (pos + runLen inp isWs pos)).1 = none :=
    plit_fail_head h91
  have hident : (identifierP inp (pos + runLen inp isWs pos)).1 = none :=
    identifierP_fail hg hi
  unfold tableEntryP
  simp only [pbind_fst, p_ws_fst, ppure_fst, porelse_fst, pmap_fst,
    pfail_fst, oBind_some, hval, hb91, hident, oBind_none, oOr_none]

theorem valueAltP_budget {inp : List Nat} {pos : Nat} (n d d' : Nat)
    (h : inp.get? pos ≠ some 123) :
    (valueAltP inp n d pos).1 = (valueAltP inp n d' pos).1 := by
  unfold valueAltP
  simp only [porelse_fst, pmap_fst, pfail_fst, tableP_fail_byte h]

theorem luaValueP_budget {inp : List Nat} {pos : Nat} (n d d' : Nat)
    (h : inp.get? (pos + runLen inp isWs pos) ≠ some 123) :
    (luaValueP inp n d pos).1 = (luaValueP inp n d' pos).1 := by
  cases n with
  | zero => simp [luaValueP_zero]
  | succ m =>
    simp only [luaValueP_succ, pbind_fst, p_ws_fst, ppure_fst, oBind_some]
    rw [valueAltP_budget m d d' h]

/-- The byte position probed by `table`'s closing sequence `_ [,;]? _ "}"`
when started at `p`. -/
def closePos (inp : List Nat) (p : Nat) : Nat :=
  let q2 := p + runLen inp isWs p
  let q3 :=
    match inp.get? q2 with
    | some b => if b = 44 ∨ b = 59 then q2 + 1 else q2
    | none => q2
  q3 + runLen inp isWs q3

/-- The close sequence read from `p` stops at a `}` — true whenever the
surrounding `table` parse succeeds. -/
def ContClose (inp : List Nat) (p : Nat) : Prop :=
  inp.get? (closePos inp p) = some 125

/-- Success of `lua_value(d)` transports to any budget `d' ≥ d` (fuel `n`). -/
def SVal (inp : List Nat) (n : Nat) : Prop :=
  ∀ d d' pos v p, d ≤ d' → (luaValueP inp n d pos).1 = some (v, p) →
    (luaValueP inp n d' pos).1 = some (v, p)

/-- Success transport for `table_entry`. -/
def SEntry (inp : List Nat) (n : Nat) : Prop :=
  ∀ d d' pos en p, d ≤ d' → (tableEntryP inp n d pos).1 = some (en, p) →
    (tableEntryP inp n d' pos).1 = some (en, p)

/-- Success transport for the separator-entry loop, given that the close
sequence follows the stop position. -/
def SLoop (inp : List Nat) (n : Nat) : Prop :=
  ∀ d d' pos es p, d ≤ d' → (entriesLoopP inp n d pos).1 = some (es, p) →
    ContClose inp p → (entriesLoopP inp n d' pos).1 = some (es, p)

/-- Success transport for `table_entries`, given the close sequence. -/
def SEnts (inp : List Nat) (n : Nat) : Prop :=
  ∀ d d' pos es p, d ≤ d' → (tableEntriesP inp n d pos).1 = some (es, p) →
    ContClose inp p → (tableEntriesP inp n d' pos).1 = some (es, p)

/-- Success transport for `table`. -/
def STab (inp : List Nat) (n : Nat) : Prop :=
  ∀ d d' pos es p, d ≤ d' → (tableP inp n d pos).1 = some (es, p) →
    (tableP inp n d' pos).1 = some (es, p)

theorem valueAltP_budget_of {inp : List Nat} {n : Nat} (htab : STab inp n) :
    ∀ d d' pos v p, d ≤ d' → (valueAltP inp n d pos).1 = some (v, p) →
      (valueAltP inp n d' pos).1 = some (v, p) := by
  intro d d' pos v p hdd h
  unfold valueAltP at h ⊢
  simp only [porelse_fst, pmap_fst, pfail_fst] at h ⊢
  rcases orO h with h1 | ⟨hn1, h⟩
  · simp only [h1, oOr_some]
  simp only [hn1, oOr_none]
  rcases orO h with h1 | ⟨hn2, h⟩
  · simp only [h1, oOr_some]
  simp only [hn2, oOr_none]
  rcases orO h with h1 | ⟨hn3, h⟩
  · simp only [h1, oOr_some]
  simp only [hn3, oOr_none]
  rcases orO h with h1 | ⟨hn4, h⟩
  · simp only [h1, oOr_some]
  simp only [hn4, oOr_none]
  rcases orO h with h1 | ⟨hn5, h⟩
  · simp only [h1, oOr_some]
  simp only [hn5, oOr_none]
  rcases orO h with h1 | ⟨hn6, h⟩
  · obtain ⟨es, q, hX, hs⟩ := bindO h1
    have hX2 := htab d d' pos es q hdd hX
    simp only [hX2, oBind_some, oOr_some]
    exact hs
  · simp at h

theorem luaValueP_budget_zero {inp : List Nat} : SVal inp 0 := by
  intro d d' pos v p hdd h
  simp [luaValueP_zero] at h

theorem luaValueP_budget_succ {inp : List Nat} {n : Nat}
    (htab : STab inp n) : SVal inp (n + 1) := by
  intro d d' pos v p hdd h
  simp only [luaValueP_succ, pbind_fst, p_ws_fst, ppure_fst, oBind_some] at h ⊢
  obtain ⟨v0, q, hX, hs⟩ := bindO h
  have hX2 := valueAltP_budget_of htab d d' _ v0 q hdd hX
  simp only [hX2, oBind_some]
  exact hs

theorem tableEntryP_budget_of {inp : List Nat} {n : Nat}
    (hval : SVal inp n) : SEntry inp n := by
  intro d d' pos en p hdd h
  unfold tableEntryP at h ⊢
  simp only [pbind_fst, p_ws_fst, ppure_fst, porelse_fst, pmap_fst,
    pfail_fst, oBind_some] at h ⊢
  obtain ⟨en0, q0, hX, hs⟩ := bindO h
  rcases orO hX with h1 | ⟨hn1, hX⟩
  · -- positional entry
    obtain ⟨v0, qv, hv, hs1⟩ := bindO h1
    have hv2 := hval d d' _ v0 qv hdd hv
    simp only [hv2, oBind_some, hs1, oOr_some, oBind_some]
    exact hs
  rcases orO hX with h1 | ⟨hn2, hX⟩
  · -- bracket-keyed entry
    obtain ⟨u1, q1, hb1, h1⟩ := bindO h1
    have h91 : inp.get? (pos + runLen inp isWs pos) = some 91 := plit_head hb1
    have hws0 : runLen inp isWs (pos + runLen inp isWs pos) = 0 := runLen_idem
    have hne123 : inp.get? (pos + runLen inp isWs pos +
        runLen inp isWs (pos + runLen inp isWs pos)) ≠ some 123 := by
      rw [hws0, Nat.add_zero, h91]
      simp
    have hlv : (luaValueP inp n d' (pos + runLen inp isWs pos)).1 =
        (luaValueP inp n d (pos + runLen inp isWs pos)).1 :=
      luaValueP_budget n d' d hne123
    obtain ⟨k, q2, hk, h1⟩ := bindO h1
    obtain ⟨u3, q4, hb3, h1⟩ := bindO h1
    obtain ⟨u5, q6, hb5, h1⟩ := bindO h1
    obtain ⟨v2, q8, hv2, h1⟩ := bindO h1
    have hk2 := hval d d' _ k q2 hdd hk
    have hv3 := hval d d' _ v2 q8 hdd hv2
    simp only [hlv, hn1, oOr_none, hb1, oBind_some, hk2, hb3, hb5, hv3, h1,
      oOr_some]
    exact hs
  rcases orO hX with h1 | ⟨hn3, hX⟩
  · -- name-keyed entry
    obtain ⟨nm, q1, hid, h1⟩ := bindO h1
    obtain ⟨u3, q3, hb3, h1⟩ := bindO h1
    obtain ⟨v2, q5, hv2, h1⟩ := bindO h1
    obtain ⟨c0, hgq, hic⟩ := identifierP_head hid
    have hws0 : runLen inp isWs (pos + runLen inp isWs pos) = 0 := runLen_idem
    have hne123 : inp.get? (pos + runLen inp isWs pos +
        runLen inp isWs (pos + runLen inp isWs pos)) ≠ some 123 := by
      rw [hws0, Nat.add_zero, hgq]
      simp [isIdentStart_ne hic (by decide : isIdentStart 123 = false)]
    have hlv : (luaValueP inp n d' (pos + runLen inp isWs pos)).1 =
        (luaValueP inp n d (pos + runLen inp isWs pos)).1 :=
      luaValueP_budget n d' d hne123
    have h91ne : inp.get? (pos + runLen inp isWs pos) ≠ some 91 := by
      rw [hgq]
      simp [isIdentStart_ne hic (by decide : isIdentStart 91 = false)]
    have hb91 : (plit inp [91] (pos + runLen inp isWs pos)).1 = none :=
      plit_fail_head h91ne
    have hv3 := hval d d' _ v2 q5 hdd hv2
    simp only [hlv, hn1, oOr_none, hb91, oBind_none, hid, oBind_some, hb3,
      hv3, h1, oOr_some]
    exact hs
  · simp at hX

theorem entriesLoopP_budget_zero {inp : List Nat} : SLoop inp 0 := by
  intro d d' pos es p hdd h hcc
  rw [entriesLoopP_zero] at h ⊢
  exact h

theorem entriesLoopP_budget_succ {inp : List Nat} {n : Nat}
    (hent : SEntry inp n) (hloop : SLoop inp n) : SLoop inp (n + 1) := by
  intro d d' pos es p hdd h hcc
  simp only [entriesLoopP_succ] at h ⊢
  cases hsep : pclass inp (fun b => b = 44 || b = 59) pos with
  | mk r e =>
    rw [hsep] at h
    cases r with
    | none => exact h
    | some w =>
      obtain ⟨b, p1⟩ := w
      simp only at h ⊢
      obtain ⟨hp1, hgb, hfb⟩ := pclass_succ
        (show (pclass inp (fun b => b = 44 || b = 59) pos).1 = some (b, p1)
          from by rw [hsep])
      have hb4459 : b = 44 ∨ b = 59 := by simpa using hfb
      cases hen : tableEntryP inp n d p1 with
      | mk r2 e2 =>
        rw [hen] at h
        cases r2 with
        | none =>
          simp only [Option.some.injEq, Prod.mk.injEq] at h
          obtain ⟨he, hp⟩ := h
          have hwsb : isWs b = false := by
            rcases hb4459 with rfl | rfl <;> decide
          have hws0 : runLen inp isWs pos = 0 := runLen_zero_head hgb hwsb
          have hcp : closePos inp p = p1 + runLen inp isWs p1 := by
            rw [← hp, hp1]
            simp only [closePos, hws0, Nat.add_zero, hgb]
            rw [if_pos hb4459]
          have h125 : inp.get? (p1 + runLen inp isWs p1) = some 125 := by
            rw [← hcp]
            exact hcc
          have hef : (tableEntryP inp n d' p1).1 = none :=
            tableEntryP_fail_at n d' h125 (by decide) (by decide)
          cases hen2 : tableEntryP inp n d' p1 with
          | mk r2b e2b =>
            rw [hen2] at hef
            have hr : r2b = none := hef
            subst hr
            simp only [Option.some.injEq, Prod.mk.injEq]
            exact ⟨he, hp⟩
        | some w2 =>
          obtain ⟨en, p2⟩ := w2
          simp only at h
          cases hl : entriesLoopP inp n d p2 with
          | mk r3 e3 =>
            rw [hl] at h
            cases r3 with
            | none => simp at h
            | some z =>
              obtain ⟨l, p3⟩ := z
              simp only [Option.some.injEq, Prod.mk.injEq] at h
              obtain ⟨he, hp⟩ := h
              have hen2 : (tableEntryP inp n d' p1).1 = some (en, p2) :=
                hent d d' p1 en p2 hdd (by rw [hen])
              have hl2 : (entriesLoopP inp n d' p2).1 = some (l, p3) :=
                hloop d d' p2 l p3 hdd (by rw [hl]) (by rw [hp]; exact hcc)
              cases hen3 : tableEntryP inp n d' p1 with
              | mk r2b e2b =>
                rw [hen3] at hen2
                have hr : r2b = some (en, p2) := hen2
                subst hr
                simp only
                cases hl3 : entriesLoopP inp n d' p2 with
                | mk r3b e3b =>
                  rw [hl3] at hl2
                  have hr3 : r3b = some (l, p3) := hl2
                  subst hr3
                  simp only [Option.some.injEq, Prod.mk.injEq]
                  exact ⟨he, hp⟩

theorem tableEntriesP_budget_of {inp : List Nat} {n : Nat}
    (hent : SEntry inp n) (hloop : SLoop inp n) : SEnts inp n := by
  intro d d' pos es p hdd h hcc
  unfold tableEntriesP at h ⊢
  cases hen : tableEntryP inp n d pos with
  | mk r e =>
    rw [hen] at h
    cases r with
    | none =>
      simp only [Option.some.injEq, Prod.mk.injEq] at h
      obtain ⟨he, hp⟩ := h
      have hccp : inp.get? (closePos inp pos) = some 125 := by
        rw [hp]
        exact hcc
      have hef : (tableEntryP inp n d' pos).1 = none := by
        cases hq2 : inp.get? (pos + runLen inp isWs pos) with
        | none =>
          exfalso
          have hcp : closePos inp pos = pos + runLen inp isWs pos := by
            simp only [closePos, hq2]
            rw [runLen_idem, Nat.add_zero]
          rw [hcp, hq2] at hccp
          simp at hccp
        | some c =>
          by_cases hsep2 : c = 44 ∨ c = 59
          · refine tableEntryP_fail_at n d' hq2 ?_ ?_ <;>
              (rcases hsep2 with rfl | rfl <;> decide)
          · have hcp : closePos inp pos = pos + runLen inp isWs pos := by
              simp only [closePos, hq2]
              rw [if_neg hsep2, runLen_idem, Nat.add_zero]
            rw [hcp, hq2] at hccp
            injection hccp with hc125
            refine tableEntryP_fail_at n d' hq2 ?_ ?_ <;> rw [hc125] <;> decide
      cases hen2 : tableEntryP inp n d' pos with
      | mk r2 e2 =>
        rw [hen2] at hef
        have hr : r2 = none := hef
        subst hr
        simp only [Option.some.injEq, Prod.mk.injEq]
        exact ⟨he, hp⟩
    | some w =>
      obtain ⟨en, p1⟩ := w
      simp only at h
      cases hl : entriesLoopP inp n d p1 with
      | mk r3 e3 =>
        rw [hl] at h
        cases r3 with
        | none => simp at h
        | some z =>
          obtain ⟨l, p2⟩ := z
          simp only [Option.some.injEq, Prod.mk.injEq] at h
          obtain ⟨he, hp⟩ := h
          have hen2 : (tableEntryP inp n d' pos).1 = some (en, p1) :=
            hent d d' pos en p1 hdd (by rw [hen])
          have hl2 : (entriesLoopP inp n d' p1).1 = some (l, p2) :=
            hloop d d' p1 l p2 hdd (by rw [hl]) (by rw [hp]; exact hcc)
          cases hen3 : tableEntryP inp n d' pos with
          | mk r2b e2b =>
            rw [hen3] at hen2
            have hr : r2b = some (en, p1) := hen2
            subst hr
            simp only
            cases hl3 : entriesLoopP inp n d' p1 with
            | mk r3b e3b =>
              rw [hl3] at hl2
              have hr3 : r3b = some (l, p2) := hl2
              subst hr3
              simp only [Option.some.injEq, Prod.mk.injEq]
              exact ⟨he, hp⟩

theorem tableP_budget_of {inp : List Nat} {n : Nat} (hents : SEnts inp n) :
    STab inp n := by
  intro d d' pos es p hdd h
  unfold tableP at h ⊢
  simp only [pbind_fst, p_ws_fst, ppure_fst, popt_fst, oBind_some] at h ⊢
  obtain ⟨u1, q1, hb1, h⟩ := bindO h
  obtain ⟨u2, q2, hchk, h⟩ := bindO h
  obtain ⟨esv, q4, hes, h⟩ := bindO h
  obtain ⟨u6, q6, hopt, h⟩ := bindO h
  obtain ⟨u8, q8, hb8, h⟩ := bindO h
  simp only [Option.some.injEq, Prod.mk.injEq] at h
  obtain ⟨hev, hp⟩ := h
  have hd0 : d ≠ 0 ∧ q2 = q1 := by
    by_cases hdz : d = 0
    · rw [hdz] at hchk
      simp [pfail] at hchk
    · rw [if_neg hdz] at hchk
      unfold ppure at hchk
      simp only [Option.some.injEq, Prod.mk.injEq] at hchk
      exact ⟨hdz, hchk.2.symm⟩
  obtain ⟨hdz, hq2⟩ := hd0
  subst hq2
  have hdz2 : ¬(d' = 0) := by omega
  have hcc : ContClose inp q4 := by
    unfold ContClose
    have hcp : closePos inp q4 = q6 + runLen inp isWs q6 := by
      rcases optO hopt with ⟨hno, hu6, hq6⟩ | ⟨b, hgb, hu6⟩
      · subst hq6
        rcases pclass_none hno with hg5 | ⟨b, hg5, hfb⟩
        · simp only [closePos, hg5]
        · have hnb : ¬(b = 44 ∨ b = 59) := by simpa using hfb
          simp only [closePos, hg5]
          rw [if_neg hnb]
      · obtain ⟨hq61, hg5, hfb⟩ := pclass_succ hgb
        have hb2 : b = 44 ∨ b = 59 := by simpa using hfb
        simp only [closePos, hg5]
        rw [if_pos hb2, ← hq61]
    rw [hcp]
    exact plit_head hb8
  have hes2 := hents (d - 1) (d' - 1) _ esv q4 (by omega) hes hcc
  simp only [hb1, oBind_some, if_neg hdz2, ppure_fst, hes2, hopt, hb8,
    Option.some.injEq, Prod.mk.injEq]
  exact ⟨hev, hp⟩

/-- The bundled budget-transport statement. -/
def BudgetAll (inp : List Nat) (n : Nat) : Prop :=
  SVal inp n ∧ SEntry inp n ∧ SLoop inp n ∧ SEnts inp n ∧ STab inp n

theorem budgetAll (inp : List Nat) : ∀ n, BudgetAll inp n := by
  intro n
  induction n with
  | zero =>
    have hval : SVal inp 0 := luaValueP_budget_zero
    have hent : SEntry inp 0 := tableEntryP_budget_of hval
    have hloop : SLoop inp 0 := entriesLoopP_budget_zero
    have hents : SEnts inp 0 := tableEntriesP_budget_of hent hloop
    exact ⟨hval, hent, hloop, hents, tableP_budget_of hents⟩
  | succ m ih =>
    obtain ⟨ihval, ihent, ihloop, ihents, ihtab⟩ := ih
    have hval : SVal inp (m + 1) := luaValueP_budget_succ ihtab
    have hent : SEntry inp (m + 1) := tableEntryP_budget_of hval
    have hloop : SLoop inp (m + 1) := entriesLoopP_budget_succ ihent ihloop
    have hents : SEnts inp (m + 1) := tableEntriesP_budget_of hent hloop
    exact ⟨hval, hent, hloop, hents, tableP_budget_of hents⟩

/-- Top-level budget monotonicity: an accepted input stays accepted, with
the same tree, at every larger `max_depth`. -/
theorem lua_value_budget {inp : List Nat} {d d' : Nat} {t : LuaValue}
    (hdd : d ≤ d') (h : (lua_value inp d).1 = some t) :
    (lua_value inp d').1 = some t := by
  unfold lua_value at h ⊢
  cases hM : luaValueP inp (inp.length + 1) d 0 with
  | mk r e =>
    rw [hM] at h
    cases r with
    | none => simp at h
    | some w =>
      obtain ⟨v, q⟩ := w
      by_cases hq : q = inp.length
      · simp only [if_pos hq] at h
        have h2 : (luaValueP inp (inp.length + 1) d' 0).1 = some (v, q) :=
          (budgetAll inp (inp.length + 1)).1 d d' 0 v q hdd (by rw [hM])
        cases hM2 : luaValueP inp (inp.length + 1) d' 0 with
        | mk r2 e2 =>
          rw [hM2] at h2
          have hr : r2 = some (v, q) := h2
          subst hr
          simp only [if_pos hq]
          exact h
      · simp only [if_neg hq] at h
        simp at h


/-! ### Downward budget transport: a parse needs only its tree's nesting -/

/-- Success of `lua_value(d)` transports to every budget that still covers
the parsed tree's nesting (fuel `n`): the budget is consumed only by the
`{`-openers that end up in the tree. -/
def TVal (inp : List Nat) (n : Nat) : Prop :=
  ∀ d d2 pos v p, depthV v ≤ d2 → (luaValueP inp n d pos).1 = some (v, p) →
    (luaValueP inp n d2 pos).1 = some (v, p)

/-- Depth-directed transport for `table_entry`. -/
def TEntry (inp : List Nat) (n : Nat) : Prop :=
  ∀ d d2 pos en p, depthE en ≤ d2 →
    (tableEntryP inp n d pos).1 = some (en, p) →
    (tableEntryP inp n d2 pos).1 = some (en, p)

/-- Depth-directed transport for the separator-entry loop, given that the
close sequence follows the stop position. -/
def TLoop (inp : List Nat) (n : Nat) : Prop :=
  ∀ d d2 pos es p, depthEntries es ≤ d2 →
    (entriesLoopP inp n d pos).1 = some (es, p) → ContClose inp p →
    (entriesLoopP inp n d2 pos).1 = some (es, p)

/-- Depth-directed transport for `table_entries`, given the close
sequence. -/
def TEnts (inp : List Nat) (n : Nat) : Prop :=
  ∀ d d2 pos es p, depthEntries es ≤ d2 →
    (tableEntriesP inp n d pos).1 = some (es, p) → ContClose inp p →
    (tableEntriesP inp n d2 pos).1 = some (es, p)

/-- Depth-directed transport for `table`. -/
def TTab (inp : List Nat) (n : Nat) : Prop :=
  ∀ d d2 pos es p, 1 + depthEntries es ≤ d2 →
    (tableP inp n d pos).1 = some (es, p) →
    (tableP inp n d2 pos).1 = some (es, p)

theorem valueAltP_deep_of {inp : List Nat} {n : Nat} (htab : TTab inp n) :
    ∀ d d2 pos v p, depthV v ≤ d2 → (valueAltP inp n d pos).1 = some (v, p) →
      (valueAltP inp n d2 pos).1 = some (v, p) := by
  intro d d2 pos v p hdep h
  unfold valueAltP at h ⊢
  simp only [porelse_fst, pmap_fst, pfail_fst] at h ⊢
  rcases orO h with h1 | ⟨hn1, h⟩
  · simp only [h1, oOr_some]
  simp only [hn1, oOr_none]
  rcases orO h with h1 | ⟨hn2, h⟩
  · simp only [h1, oOr_some]
  simp only [hn2, oOr_none]
  rcases orO h with h1 | ⟨hn3, h⟩
  · simp only [h1, oOr_some]
  simp only [hn3, oOr_none]
  rcases orO h with h1 | ⟨hn4, h⟩
  · simp only [h1, oOr_some]
  simp only [hn4, oOr_none]
  rcases orO h with h1 | ⟨hn5, h⟩
  · simp only [h1, oOr_some]
  simp only [hn5, oOr_none]
  rcases orO h with h1 | ⟨hn6, h⟩
  · obtain ⟨es, q, hX, hs⟩ := bindO h1
    have hs2 := hs
    simp only [Option.some.injEq, Prod.mk.injEq] at hs2
    obtain ⟨hv, -⟩ := hs2
    have hdes : 1 + depthEntries es ≤ d2 := by
      rw [← hv] at hdep
      simpa [depthV] using hdep
    have hX2 := htab d d2 pos es q hdes hX
    simp only [hX2, oBind_some, oOr_some]
    exact hs
  · simp at h

theorem luaValueP_deep_zero {inp : List Nat} : TVal inp 0 := by
  intro d d2 pos v p hdep h
  simp [luaValueP_zero] at h

theorem luaValueP_deep_succ {inp : List Nat} {n : Nat}
    (htab : TTab inp n) : TVal inp (n + 1) := by
  intro d d2 pos v p hdep h
  simp only [luaValueP_succ, pbind_fst, p_ws_fst, ppure_fst, oBind_some] at h ⊢
  obtain ⟨v0, q, hX, hs⟩ := bindO h
  have hs2 := hs
  simp only [Option.some.injEq, Prod.mk.injEq] at hs2
  obtain ⟨hv, -⟩ := hs2
  have hdep0 : depthV v0 ≤ d2 := by rw [← hv] at hdep; exact hdep
  have hX2 := valueAltP_deep_of htab d d2 _ v0 q hdep0 hX
  simp only [hX2, oBind_some]
  exact hs

theorem tableEntryP_deep_of {inp : List Nat} {n : Nat}
    (hval : TVal inp n) : TEntry inp n := by
  intro d d2 pos en p hdep h
  unfold tableEntryP at h ⊢
  simp only [pbind_fst, p_ws_fst, ppure_fst, porelse_fst, pmap_fst,
    pfail_fst, oBind_some] at h ⊢
  obtain ⟨en0, q0, hX, hs⟩ := bindO h
  have hs2 := hs
  simp only [Option.some.injEq, Prod.mk.injEq] at hs2
  obtain ⟨hen0, -⟩ := hs2
  have hdep0 : depthE en0 ≤ d2 := by rw [← hen0] at hdep; exact hdep
  rcases orO hX with h1 | ⟨hn1, hX⟩
  · -- positional entry
    obtain ⟨v0, qv, hv, hs1⟩ := bindO h1
    have hs1b := hs1
    simp only [Option.some.injEq, Prod.mk.injEq] at hs1b
    obtain ⟨hev, -⟩ := hs1b
    have hdv : depthV v0 ≤ d2 := by
      rw [← hev] at hdep0
      simpa [depthE] using hdep0
    have hv2 := hval d d2 _ v0 qv hdv hv
    simp only [hv2, oBind_some, hs1, oOr_some, oBind_some]
    exact hs
  rcases orO hX with h1 | ⟨hn2, hX⟩
  · -- bracket-keyed entry
    obtain ⟨u1, q1, hb1, h1⟩ := bindO h1
    have h91 : inp.get? (pos + runLen inp isWs pos) = some 91 := plit_head hb1
    have hws0 : runLen inp isWs (pos + runLen inp isWs pos) = 0 := runLen_idem
    have hne123 : inp.get? (pos + runLen inp isWs pos +
        runLen inp isWs (pos + runLen inp isWs pos)) ≠ some 123 := by
      rw [hws0, Nat.add_zero, h91]
      simp
    have hlv : (luaValueP inp n d2 (pos + runLen inp isWs pos)).1 =
        (luaValueP inp n d (pos + runLen inp isWs pos)).1 :=
      luaValueP_budget n d2 d hne123
    obtain ⟨k, q2, hk, h1⟩ := bindO h1
    obtain ⟨u3, q4, hb3, h1⟩ := bindO h1
    obtain ⟨u5, q6, hb5, h1⟩ := bindO h1
    obtain ⟨v2, q8, hv2, h1⟩ := bindO h1
    have h1b := h1
    simp only [Option.some.injEq, Prod.mk.injEq] at h1b
    obtain ⟨hekv, -⟩ := h1b
    have hdk : depthV k ≤ d2 ∧ depthV v2 ≤ d2 := by
      rw [← hekv] at hdep0
      simp only [depthE] at hdep0
      omega
    have hk2 := hval d d2 _ k q2 hdk.1 hk
    have hv3 := hval d d2 _ v2 q8 hdk.2 hv2
    simp only [hlv, hn1, oOr_none, hb1, oBind_some, hk2, hb3, hb5, hv3, h1,
      oOr_some]
    exact hs
  rcases orO hX with h1 | ⟨hn3, hX⟩
  · -- name-keyed entry
    obtain ⟨nm, q1, hid, h1⟩ := bindO h1
    obtain ⟨u3, q3, hb3, h1⟩ := bindO h1
    obtain ⟨v2, q5, hv2, h1⟩ := bindO h1
    have h1b := h1
    simp only [Option.some.injEq, Prod.mk.injEq] at h1b
    obtain ⟨henv, -⟩ := h1b
    have hdv : depthV v2 ≤ d2 := by
      rw [← henv] at hdep0
      simpa [depthE] using hdep0
    obtain ⟨c0, hgq, hic⟩ := identifierP_head hid
    have hws0 : runLen inp isWs (pos + runLen inp isWs pos) = 0 := runLen_idem
    have hne123 : inp.get? (pos + runLen inp isWs pos +
        runLen inp isWs (pos + runLen inp isWs pos)) ≠ some 123 := by
      rw [hws0, Nat.add_zero, hgq]
      simp [isIdentStart_ne hic (by decide : isIdentStart 123 = false)]
    have hlv : (luaValueP inp n d2 (pos + runLen inp isWs pos)).1 =
        (luaValueP inp n d (pos + runLen inp isWs pos)).1 :=
      luaValueP_budget n d2 d hne123
    have h91ne : inp.get? (pos + runLen inp isWs pos) ≠ some 91 := by
      rw [hgq]
      simp [isIdentStart_ne hic (by decide : isIdentStart 91 = false)]
    have hb91 : (plit inp [91] (pos + runLen inp isWs pos)).1 = none :=
      plit_fail_head h91ne
    have hv3 := hval d d2 _ v2 q5 hdv hv2
    simp only [hlv, hn1, oOr_none, hb91, oBind_none, hid, oBind_some, hb3,
      hv3, h1, oOr_some]
    exact hs
  · simp at hX

theorem entriesLoopP_deep_zero {inp : List Nat} : TLoop inp 0 := by
  intro d d2 pos es p hdep h hcc
  rw [entriesLoopP_zero] at h ⊢
  exact h

theorem entriesLoopP_deep_succ {inp : List Nat} {n : Nat}
    (hent : TEntry inp n) (hloop : TLoop inp n) : TLoop inp (n + 1) := by
  intro d d2 pos es p hdep h hcc
  simp only [entriesLoopP_succ] at h ⊢
  cases hsep : pclass inp (fun b => b = 44 || b = 59) pos with
  | mk r e =>
    rw [hsep] at h
    cases r with
    | none => exact h
    | some w =>
      obtain ⟨b, p1⟩ := w
      simp only at h ⊢
      obtain ⟨hp1, hgb, hfb⟩ := pclass_succ
        (show (pclass inp (fun b => b = 44 || b = 59) pos).1 = some (b, p1)
          from by rw [hsep])
      have hb4459 : b = 44 ∨ b = 59 := by simpa using hfb
      cases hen : tableEntryP inp n d p1 with
      | mk r2 e2 =>
        rw [hen] at h
        cases r2 with
        | none =>
          simp only [Option.some.injEq, Prod.mk.injEq] at h
          obtain ⟨he, hp⟩ := h
          have hwsb : isWs b = false := by
            rcases hb4459 with rfl | rfl <;> decide
          have hws0 : runLen inp isWs pos = 0 := runLen_zero_head hgb hwsb
          have hcp : closePos inp p = p1 + runLen inp isWs p1 := by
            rw [← hp, hp1]
            simp only [closePos, hws0, Nat.add_zero, hgb]
            rw [if_pos hb4459]
          have h125 : inp.get? (p1 + runLen inp isWs p1) = some 125 := by
            rw [← hcp]
            exact hcc
          have hef : (tableEntryP inp n d2 p1).1 = none :=
            tableEntryP_fail_at n d2 h125 (by decide) (by decide)
          cases hen2 : tableEntryP inp n d2 p1 with
          | mk r2b e2b =>
            rw [hen2] at hef
            have hr : r2b = none := hef
            subst hr
            simp only [Option.some.injEq, Prod.mk.injEq]
            exact ⟨he, hp⟩
        | some w2 =>
          obtain ⟨en, p2⟩ := w2
          simp only at h
          cases hl : entriesLoopP inp n d p2 with
          | mk r3 e3 =>
            rw [hl] at h
            cases r3 with
            | none => simp at h
            | some z =>
              obtain ⟨l, p3⟩ := z
              simp only [Option.some.injEq, Prod.mk.injEq] at h
              obtain ⟨he, hp⟩ := h
              have hdel : depthE en ≤ d2 ∧ depthEntries l ≤ d2 := by
                rw [← he] at hdep
                simp only [depthEntries] at hdep
                omega
              have hen2 : (tableEntryP inp n d2 p1).1 = some (en, p2) :=
                hent d d2 p1 en p2 hdel.1 (by rw [hen])
              have hl2 : (entriesLoopP inp n d2 p2).1 = some (l, p3) :=
                hloop d d2 p2 l p3 hdel.2 (by rw [hl]) (by rw [hp]; exact hcc)
              cases hen3 : tableEntryP inp n d2 p1 with
              | mk r2b e2b =>
                rw [hen3] at hen2
                have hr : r2b = some (en, p2) := hen2
                subst hr
                simp only
                cases hl3 : entriesLoopP inp n d2 p2 with
                | mk r3b e3b =>
                  rw [hl3] at hl2
                  have hr3 : r3b = some (l, p3) := hl2
                  subst hr3
                  simp only [Option.some.injEq, Prod.mk.injEq]
                  exact ⟨he, hp⟩

theorem tableEntriesP_deep_of {inp : List Nat} {n : Nat}
    (hent : TEntry inp n) (hloop : TLoop inp n) : TEnts inp n := by
  intro d d2 pos es p hdep h hcc
  unfold tableEntriesP at h ⊢
  cases hen : tableEntryP inp n d pos with
  | mk r e =>
    rw [hen] at h
    cases r with
    | none =>
      simp only [Option.some.injEq, Prod.mk.injEq] at h
      obtain ⟨he, hp⟩ := h
      have hccp : inp.get? (closePos inp pos) = some 125 := by
        rw [hp]
        exact hcc
      have hef : (tableEntryP inp n d2 pos).1 = none := by
        cases hq2 : inp.get? (pos + runLen inp isWs pos) with
        | none =>
          exfalso
          have hcp : closePos inp pos = pos + runLen inp isWs pos := by
            simp only [closePos, hq2]
            rw [runLen_idem, Nat.add_zero]
          rw [hcp, hq2] at hccp
          simp at hccp
        | some c =>
          by_cases hsep2 : c = 44 ∨ c = 59
          · refine tableEntryP_fail_at n d2 hq2 ?_ ?_ <;>
              (rcases hsep2 with rfl | rfl <;> decide)
          · have hcp : closePos inp pos = pos + runLen inp isWs pos := by
              simp only [closePos, hq2]
              rw [if_neg hsep2, runLen_idem, Nat.add_zero]
            rw [hcp, hq2] at hccp
            injection hccp with hc125
            refine tableEntryP_fail_at n d2 hq2 ?_ ?_ <;> rw [hc125] <;> decide
      cases hen2 : tableEntryP inp n d2 pos with
      | mk r2 e2 =>
        rw [hen2] at hef
        have hr : r2 = none := hef
        subst hr
        simp only [Option.some.injEq, Prod.mk.injEq]
        exact ⟨he, hp⟩
    | some w =>
      obtain ⟨en, p1⟩ := w
      simp only at h
      cases hl : entriesLoopP inp n d p1 with
      | mk r3 e3 =>
        rw [hl] at h
        cases r3 with
        | none => simp at h
        | some z =>
          obtain ⟨l, p2⟩ := z
          simp only [Option.some.injEq, Prod.mk.injEq] at h
          obtain ⟨he, hp⟩ := h
          have hdel : depthE en ≤ d2 ∧ depthEntries l ≤ d2 := by
            rw [← he] at hdep
            simp only [depthEntries] at hdep
            omega
          have hen2 : (tableEntryP inp n d2 pos).1 = some (en, p1) :=
            hent d d2 pos en p1 hdel.1 (by rw [hen])
          have hl2 : (entriesLoopP inp n d2 p1).1 = some (l, p2) :=
            hloop d d2 p1 l p2 hdel.2 (by rw [hl]) (by rw [hp]; exact hcc)
          cases hen3 : tableEntryP inp n d2 pos with
          | mk r2b e2b =>
            rw [hen3] at hen2
            have hr : r2b = some (en, p1) := hen2
            subst hr
            simp only
            cases hl3 : entriesLoopP inp n d2 p1 with
            | mk r3b e3b =>
              rw [hl3] at hl2
              have hr3 : r3b = some (l, p2) := hl2
              subst hr3
              simp only [Option.some.injEq, Prod.mk.injEq]
              exact ⟨he, hp⟩

theorem tableP_deep_of {inp : List Nat} {n : Nat} (hents : TEnts inp n) :
    TTab inp n := by
  intro d d2 pos es p hdep h
  unfold tableP at h ⊢
  simp only [pbind_fst, p_ws_fst, ppure_fst, popt_fst, oBind_some] at h ⊢
  obtain ⟨u1, q1, hb1, h⟩ := bindO h
  obtain ⟨u2, q2, hchk, h⟩ := bindO h
  obtain ⟨esv, q4, hes, h⟩ := bindO h
  obtain ⟨u6, q6, hopt, h⟩ := bindO h
  obtain ⟨u8, q8, hb8, h⟩ := bindO h
  simp only [Option.some.injEq, Prod.mk.injEq] at h
  obtain ⟨hev, hp⟩ := h
  have hdes : depthEntries esv ≤ d2 - 1 ∧ d2 ≠ 0 := by
    rw [← hev] at hdep
    omega
  have hd0 : d ≠ 0 ∧ q2 = q1 := by
    by_cases hdz : d = 0
    · rw [hdz] at hchk
      simp [pfail] at hchk
    · rw [if_neg hdz] at hchk
      unfold ppure at hchk
      simp only [Option.some.injEq, Prod.mk.injEq] at hchk
      exact ⟨hdz, hchk.2.symm⟩
  obtain ⟨hdz, hq2⟩ := hd0
  subst hq2
  have hcc : ContClose inp q4 := by
    unfold ContClose
    have hcp : closePos inp q4 = q6 + runLen inp isWs q6 := by
      rcases optO hopt with ⟨hno, hu6, hq6⟩ | ⟨b, hgb, hu6⟩
      · subst hq6
        rcases pclass_none hno with hg5 | ⟨b, hg5, hfb⟩
        · simp only [closePos, hg5]
        · have hnb : ¬(b = 44 ∨ b = 59) := by simpa using hfb
          simp only [closePos, hg5]
          rw [if_neg hnb]
      · obtain ⟨hq61, hg5, hfb⟩ := pclass_succ hgb
        have hb2 : b = 44 ∨ b = 59 := by simpa using hfb
        simp only [closePos, hg5]
        rw [if_pos hb2, ← hq61]
    rw [hcp]
    exact plit_head hb8
  have hes2 := hents (d - 1) (d2 - 1) _ esv q4 hdes.1 hes hcc
  simp only [hb1, oBind_some, if_neg hdes.2, ppure_fst, hes2, hopt, hb8,
    Option.some.injEq, Prod.mk.injEq]
  exact ⟨hev, hp⟩

/-- The bundled depth-directed transport statement. -/
def DeepAll (inp : List Nat) (n : Nat) : Prop :=
  TVal inp n ∧ TEntry inp n ∧ TLoop inp n ∧ TEnts inp n ∧ TTab inp n

theorem deepAll (inp : List Nat) : ∀ n, DeepAll inp n := by
  intro n
  induction n with
  | zero =>
    have hval : TVal inp 0 := luaValueP_deep_zero
    have hent : TEntry inp 0 := tableEntryP_deep_of hval
    have hloop : TLoop inp 0 := entriesLoopP_deep_zero
    have hents : TEnts inp 0 := tableEntriesP_deep_of hent hloop
    exact ⟨hval, hent, hloop, hents, tableP_deep_of hents⟩
  | succ m ih =>
    obtain ⟨ihval, ihent, ihloop, ihents, ihtab⟩ := ih
    have hval : TVal inp (m + 1) := luaValueP_deep_succ ihtab
    have hent : TEntry inp (m + 1) := tableEntryP_deep_of hval
    have hloop : TLoop inp (m + 1) := entriesLoopP_deep_succ ihent ihloop
    have hents : TEnts inp (m + 1) := tableEntriesP_deep_of hent hloop
    exact ⟨hval, hent, hloop, hents, tableP_deep_of hents⟩

/-- Parsing never fails for depth reasons once the budget covers the
nesting: an input accepted at any `max_depth` is accepted, with the same
tree, at every `max_depth` at least the tree's nesting. -/
theorem lua_value_of_depth {inp : List Nat} {d d2 : Nat} {t : LuaValue}
    (h : (lua_value inp d).1 = some t) (hd : depthV t ≤ d2) :
    (lua_value inp d2).1 = some t := by
  unfold lua_value at h ⊢
  cases hM : luaValueP inp (inp.length + 1) d 0 with
  | mk r e =>
    rw [hM] at h
    cases r with
    | none => simp at h
    | some w =>
      obtain ⟨v, q⟩ := w
      by_cases hq : q = inp.length
      · simp only [if_pos hq] at h
        have hvt : v = t := by simpa using h
        have hdv : depthV v ≤ d2 := by rw [hvt]; exact hd
        have h2 : (luaValueP inp (inp.length + 1) d2 0).1 = some (v, q) :=
          (deepAll inp (inp.length + 1)).1 d d2 0 v q hdv (by rw [hM])
        cases hM2 : luaValueP inp (inp.length + 1) d2 0 with
        | mk r2 e2 =>
          rw [hM2] at h2
          have hr : r2 = some (v, q) := h2
          subst hr
          simp only [if_pos hq]
          exact h
      · simp only [if_neg hq] at h
        simp at h

/-! ### The `\u{...}` escape encodes per RFC 2279 -/

theorem luaUtf8EscLoop_step {fuel cp mfb : Nat} {buff : List Nat}
    (hf : 1 ≤ fuel) (h : mfb < cp) :
    luaUtf8EscLoop fuel cp mfb buff =
      luaUtf8EscLoop (fuel - 1) (cp >>> 6) (mfb >>> 1)
        (buff ++ [(0x80 ||| (cp &&& 0x3f)) % 256]) := by
  obtain ⟨f, rfl⟩ : ∃ f, fuel = f + 1 := ⟨fuel - 1, by omega⟩
  simp only [luaUtf8EscLoop, if_pos h, Nat.add_sub_cancel]

theorem luaUtf8EscLoop_stop {fuel cp mfb : Nat} {buff : List Nat}
    (hf : 1 ≤ fuel) (h : ¬ mfb < cp) :
    luaUtf8EscLoop fuel cp mfb buff =
      buff ++ [((((2 ^ 32 - 1 - mfb) <<< 1) % 2 ^ 32) ||| cp) % 256] := by
  obtain ⟨f, rfl⟩ : ∃ f, fuel = f + 1 := ⟨fuel - 1, by omega⟩
  simp only [luaUtf8EscLoop, if_neg h]

theorem shr_div {w k : Nat} : w >>> k = w / 2 ^ k := Nat.shiftRight_eq_div_pow w k

theorem shr_shr {w a b : Nat} : (w >>> a) >>> b = w >>> (a + b) :=
  (Nat.shiftRight_add w a b).symm

theorem and63_lt {w : Nat} : w &&& 63 < 64 :=
  Nat.lt_succ_of_le Nat.and_le_right

/-- The parser's `\u` encoding loop agrees with the RFC 2279 encoding on the
whole legal multi-byte range. -/
theorem luaUtf8Esc_eq_rfc2279 {v : Nat} (h1 : 0x80 ≤ v) (h2 : v ≤ 0x7FFFFFFF) :
    luaUtf8Esc v = rfc2279utf8 v := by
  have hcont : ∀ y, y < 64 → (0x80 ||| y) % 256 = 0x80 ||| y := by decide
  have hlead2 : ∀ x, x < 32 →
      ((((2 ^ 32 - 1 - 31) <<< 1) % 2 ^ 32) ||| x) % 256 = 0xC0 ||| x := by decide
  have hlead3 : ∀ x, x < 16 →
      ((((2 ^ 32 - 1 - 15) <<< 1) % 2 ^ 32) ||| x) % 256 = 0xE0 ||| x := by decide
  have hlead4 : ∀ x, x < 8 →
      ((((2 ^ 32 - 1 - 7) <<< 1) % 2 ^ 32) ||| x) % 256 = 0xF0 ||| x := by decide
  have hlead5 : ∀ x, x < 4 →
      ((((2 ^ 32 - 1 - 3) <<< 1) % 2 ^ 32) ||| x) % 256 = 0xF8 ||| x := by decide
  have hlead6 : ∀ x, x < 2 →
      ((((2 ^ 32 - 1 - 1) <<< 1) % 2 ^ 32) ||| x) % 256 = 0xFC ||| x := by decide
  have hd6 : ∀ w : Nat, w >>> 6 = w / 64 := fun w => by
    rw [shr_div]; norm_num
  have hd12 : ∀ w : Nat, w >>> 12 = w / 4096 := fun w => by
    rw [shr_div]; norm_num
  have hd18 : ∀ w : Nat, w >>> 18 = w / 262144 := fun w => by
    rw [shr_div]; norm_num
  have hd24 : ∀ w : Nat, w >>> 24 = w / 16777216 := fun w => by
    rw [shr_div]; norm_num
  have hd30 : ∀ w : Nat, w >>> 30 = w / 1073741824 := fun w => by
    rw [shr_div]; norm_num
  unfold luaUtf8Esc
  by_cases c2 : v < 0x800
  · -- two bytes
    rw [luaUtf8EscLoop_step (by omega) (by omega)]
    rw [show ((63 : Nat) >>> 1) = 31 from rfl]
    rw [luaUtf8EscLoop_stop (by omega) (by rw [hd6]; omega)]
    rw [hcont _ and63_lt, hlead2 _ (by rw [hd6]; omega)]
    unfold rfc2279utf8
    rw [if_neg (by omega), if_pos (by omega)]
    simp
  · by_cases c3 : v < 0x10000
    · -- three bytes
      rw [luaUtf8EscLoop_step (by omega) (by omega)]
      rw [show ((63 : Nat) >>> 1) = 31 from rfl]
      rw [luaUtf8EscLoop_step (by omega) (by rw [hd6]; omega)]
      rw [show ((31 : Nat) >>> 1) = 15 from rfl, shr_shr,
        show (6 + 6 : Nat) = 12 from rfl]
      rw [luaUtf8EscLoop_stop (by omega) (by rw [hd12]; omega)]
      rw [hcont _ and63_lt, hcont _ and63_lt, hlead3 _ (by rw [hd12]; omega)]
      unfold rfc2279utf8
      rw [if_neg (by omega), if_neg (by omega), if_pos (by omega)]
      simp
    · by_cases c4 : v < 0x200000
      · -- four bytes
        rw [luaUtf8EscLoop_step (by omega) (by omega)]
        rw [show ((63 : Nat) >>> 1) = 31 from rfl]
        rw [luaUtf8EscLoop_step (by omega) (by rw [hd6]; omega)]
        rw [show ((31 : Nat) >>> 1) = 15 from rfl, shr_shr,
          show (6 + 6 : Nat) = 12 from rfl]
        rw [luaUtf8EscLoop_step (by omega) (by rw [hd12]; omega)]
        rw [show ((15 : Nat) >>> 1) = 7 from rfl, shr_shr,
          show (12 + 6 : Nat) = 18 from rfl]
        rw [luaUtf8EscLoop_stop (by omega) (by rw [hd18]; omega)]
        rw [hcont _ and63_lt, hcont _ and63_lt, hcont _ and63_lt,
          hlead4 _ (by rw [hd18]; omega)]
        unfold rfc2279utf8
        rw [if_neg (by omega), if_neg (by omega), if_neg (by omega),
          if_pos (by omega)]
        simp
      · by_cases c5 : v < 0x4000000
        · -- five bytes
          rw [luaUtf8EscLoop_step (by omega) (by omega)]
          rw [show ((63 : Nat) >>> 1) = 31 from rfl]
          rw [luaUtf8EscLoop_step (by omega) (by rw [hd6]; omega)]
          rw [show ((31 : Nat) >>> 1) = 15 from rfl, shr_shr,
            show (6 + 6 : Nat) = 12 from rfl]
          rw [luaUtf8EscLoop_step (by omega) (by rw [hd12]; omega)]
          rw [show ((15 : Nat) >>> 1) = 7 from rfl, shr_shr,
            show (12 + 6 : Nat) = 18 from rfl]
          rw [luaUtf8EscLoop_step (by omega) (by rw [hd18]; omega)]
          rw [show ((7 : Nat) >>> 1) = 3 from rfl, shr_shr,
            show (18 + 6 : Nat) = 24 from rfl]
          rw [luaUtf8EscLoop_stop (by omega) (by rw [hd24]; omega)]
          rw [hcont _ and63_lt, hcont _ and63_lt, hcont _ and63_lt,
            hcont _ and63_lt, hlead5 _ (by rw [hd24]; omega)]
          unfold rfc2279utf8
          rw [if_neg (by omega), if_neg (by omega), if_neg (by omega),
            if_neg (by omega), if_pos (by omega)]
          simp
        · -- six bytes
          rw [luaUtf8EscLoop_step (by omega) (by omega)]
          rw [show ((63 : Nat) >>> 1) = 31 from rfl]
          rw [luaUtf8EscLoop_step (by omega) (by rw [hd6]; omega)]
          rw [show ((31 : Nat) >>> 1) = 15 from rfl, shr_shr,
            show (6 + 6 : Nat) = 12 from rfl]
          rw [luaUtf8EscLoop_step (by omega) (by rw [hd12]; omega)]
          rw [show ((15 : Nat) >>> 1) = 7 from rfl, shr_shr,
            show (12 + 6 : Nat) = 18 from rfl]
          rw [luaUtf8EscLoop_step (by omega) (by rw [hd18]; omega)]
          rw [show ((7 : Nat) >>> 1) = 3 from rfl, shr_shr,
            show (18 + 6 : Nat) = 24 from rfl]
          rw [luaUtf8EscLoop_step (by omega) (by rw [hd24]; omega)]
          rw [show ((3 : Nat) >>> 1) = 1 from rfl, shr_shr,
            show (24 + 6 : Nat) = 30 from rfl]
          rw [luaUtf8EscLoop_stop (by omega) (by rw [hd30]; omega)]
          rw [hcont _ and63_lt, hcont _ and63_lt, hcont _ and63_lt,
            hcont _ and63_lt, hcont _ and63_lt, hlead6 _ (by rw [hd30]; omega)]
          unfold rfc2279utf8
          rw [if_neg (by omega), if_neg (by omega), if_neg (by omega),
            if_neg (by omega), if_neg (by omega)]
          simp


theorem matchAt_nil {inp : List Nat} {pos : Nat} : matchAt inp pos [] = true := by
  simp [matchAt]

theorem matchAt_single {inp : List Nat} {pos x : Nat}
    (h : inp.get? pos = some x) : matchAt inp pos [x] = true :=
  matchAt_cons.2 ⟨h, matchAt_nil⟩

theorem matchAt_false_tail {inp : List Nat} {pos x : Nat} {l : List Nat}
    (h : matchAt inp (pos + 1) l = false) :
    matchAt inp pos (x :: l) = false := by
  cases hm : matchAt inp pos (x :: l) with
  | false => rfl
  | true =>
    have := (matchAt_cons.1 hm).2
    rw [h] at this
    exact Bool.noConfusion this

/-- The `\u{H...}` escape: with the hex digit run `xs` and a closing `}`,
`escaped_char` yields the RFC 2279 encoding of the value (a borrowed single
byte below `0x80`, an owned buffer otherwise) and fails above
`0x7FFFFFFF`. -/
theorem escapedCharP_u {inp : List Nat} {pos : Nat}
    (hm : matchAt inp pos [92, 117, 123] = true)
    (hn : runLen inp isHexDigit (pos + 3) ≠ 0)
    (hclose : inp.get? (pos + 3 + runLen inp isHexDigit (pos + 3)) = some 125) :
    (escapedCharP inp pos).1 =
      (if natFromHexDigits (slice inp (pos + 3)
            (runLen inp isHexDigit (pos + 3))) < 0x80 then
        some (CowBytes.borrowed (rfc2279utf8 (natFromHexDigits (slice inp
          (pos + 3) (runLen inp isHexDigit (pos + 3))))),
          pos + 3 + runLen inp isHexDigit (pos + 3) + 1)
      else if natFromHexDigits (slice inp (pos + 3)
            (runLen inp isHexDigit (pos + 3))) ≤ 0x7FFFFFFF then
        some (CowBytes.owned (rfc2279utf8 (natFromHexDigits (slice inp
          (pos + 3) (runLen inp isHexDigit (pos + 3))))) 8,
          pos + 3 + runLen inp isHexDigit (pos + 3) + 1)
      else none) := by
  have hm2 : matchAt inp (pos + 1) [117, 123] = true := (matchAt_cons.1 hm).2
  have h117 : inp.get? (pos + 1) = some 117 := matchAt_head hm2
  have hAlt : ∀ (c : Nat) (l : List Nat), c ≠ 117 →
      matchAt inp pos (92 :: c :: l) = false := by
    intro c l hc
    refine matchAt_false_tail (matchAt_false_head ?_)
    rw [h117]
    intro h
    injection h with h2
    exact hc h2.symm
  have hddd : runLen inp isDigit (pos + 1) = 0 :=
    runLen_zero_head h117 (by decide)
  have hm125 : matchAt inp (pos + 3 + runLen inp isHexDigit (pos + 3))
      [125] = true := matchAt_single hclose
  set n := runLen inp isHexDigit (pos + 3) with hdefn
  set v := natFromHexDigits (slice inp (pos + 3) n) with hdefv
  unfold escapedCharP
  simp only [porelse_fst, pmap_fst, pbind_fst, pfail_fst, plit_fst,
    hAlt 97 [] (by decide), hAlt 98 [] (by decide), hAlt 102 [] (by decide),
    hAlt 110 [] (by decide), hAlt 114 [] (by decide), hAlt 116 [] (by decide),
    hAlt 118 [] (by decide), hAlt 92 [] (by decide), hAlt 34 [] (by decide),
    hAlt 39 [] (by decide), hAlt 13 [10] (by decide), hAlt 10 [13] (by decide),
    hAlt 10 [] (by decide), hAlt 13 [] (by decide), hAlt 122 [] (by decide),
    hAlt 120 [] (by decide), hm, hm125, Bool.false_eq_true, if_false, if_true,
    oBind_none, oBind_some, oOr_none, pslice_fst, hexDigits1_fst]
  rw [matchAt_single (matchAt_head hm)]
  simp only [if_true, List.length_cons, List.length_nil, oBind_some,
    Nat.zero_add, Nat.reduceAdd]
  rw [hddd, show (0 : Nat) ⊓ 3 = 0 from by decide, if_pos rfl]
  rw [← hdefn, if_neg hn]
  simp only [oBind_some, oOr_none, Nat.add_sub_cancel_left, ← hdefv]
  rw [hm125]
  simp only [if_true, oBind_some, Nat.zero_add]
  by_cases hv1 : v < 128
  · rw [if_pos (show v < 2 ^ 32 by omega), if_pos hv1, if_pos hv1]
    rw [show rfc2279utf8 v = [v] from by unfold rfc2279utf8; rw [if_pos hv1]]
    rfl
  · by_cases hv2 : v ≤ 0x7FFFFFFF
    · rw [if_pos (show v < 2 ^ 32 by omega), if_neg hv1, if_pos hv2,
        if_neg hv1, if_pos hv2]
      rw [luaUtf8Esc_eq_rfc2279 (by omega) hv2]
      rfl
    · have hrhs : (if v < 128 then
          some (CowBytes.borrowed (rfc2279utf8 v), pos + 3 + n + 1)
        else if v ≤ 0x7FFFFFFF then
          some (CowBytes.owned (rfc2279utf8 v) 8, pos + 3 + n + 1)
        else none) = (none : Option (CowBytes × Nat)) := by
        rw [if_neg hv1, if_neg hv2]
      rw [hrhs]
      by_cases hv3 : v < 2 ^ 32
      · rw [if_pos hv3, if_neg hv1, if_neg hv2]
        rfl
      · rw [if_neg hv3]
        rfl



/-! ### Zero-copy string assembly (C5 support) -/

theorem merge_spans_nil : merge_spans [] = CowBytes.borrowed [] := rfl

theorem merge_spans_single (x : CowBytes) : merge_spans [x] = x := rfl

theorem merge_spans_multi (a b : CowBytes) (l : List CowBytes) :
    merge_spans (a :: b :: l) =
      CowBytes.owned ((a :: b :: l).flatMap CowBytes.bytes)
        (((a :: b :: l).map (fun s => s.bytes.length)).sum) := rfl

/-- The owned buffer's capacity is exactly its contents' length. -/
theorem merge_spans_cap_exact (l : List CowBytes) :
    ((l.map (fun s => s.bytes.length)).sum) = (l.flatMap CowBytes.bytes).length := by
  induction l with
  | nil => rfl
  | cons a rest ih => simp [List.flatMap_cons, ih]

theorem escapedCharP_fail {inp : List Nat} {pos : Nat}
    (h : inp.get? pos ≠ some 92) : (escapedCharP inp pos).1 = none := by
  unfold escapedCharP
  simp only [porelse_fst, pmap_fst, pbind_fst, pfail_fst, plit_fail_head h,
    oBind_none, oOr_none]

/-- Every `long_string()` result is a borrowed slice (or the static empty
borrow). -/
theorem longStringP_borrowed {inp : List Nat} {pos : Nat} {s : CowBytes}
    {p : Nat} (h : (longStringP inp pos).1 = some (s, p)) :
    ∃ bs, s = CowBytes.borrowed bs := by
  unfold longStringP at h
  simp only [pbind_fst, popt_fst] at h
  obtain ⟨u1, q1, hb1, h⟩ := bindO h
  obtain ⟨u2, q2, hb2, h⟩ := bindO h
  cases hs2 : scanTo inp [93, 93] (inp.length + 1 - q2) q2 with
  | mk n e =>
    rw [hs2] at h
    simp only at h
    cases hp : plit inp [93, 93] (q2 + n) with
    | mk r2 e2 =>
      rw [hp] at h
      cases r2 with
      | none => simp at h
      | some w =>
        simp only [Option.some.injEq, Prod.mk.injEq] at h
        obtain ⟨hse, -⟩ := h
        by_cases hn : n = 0
        · exact ⟨[], by rw [← hse]; simp [hn]⟩
        · exact ⟨slice inp q2 n, by rw [← hse]; simp [hn]⟩

/-- Every `longer_string(level)` result is a borrowed slice. -/
theorem longerStringP_borrowed {inp : List Nat} {level pos : Nat}
    {s : CowBytes} {p : Nat}
    (h : (longerStringP inp level pos).1 = some (s, p)) :
    ∃ bs, s = CowBytes.borrowed bs := by
  unfold longerStringP at h
  simp only [pbind_fst, popt_fst] at h
  obtain ⟨u1, q1, hb1, h⟩ := bindO h
  obtain ⟨u2, q2, hb2, h⟩ := bindO h
  obtain ⟨u3, q3, hb3, h⟩ := bindO h
  obtain ⟨u4, q4, hb4, h⟩ := bindO h
  cases hs2 : scanTo inp ([93] ++ List.replicate level 61 ++ [93])
      (inp.length + 1 - q4) q4 with
  | mk n e =>
    rw [hs2] at h
    simp only at h
    cases hp : plit inp ([93] ++ List.replicate level 61 ++ [93]) (q4 + n) with
    | mk r2 e2 =>
      rw [hp] at h
      cases r2 with
      | none => simp at h
      | some w =>
        simp only [Option.some.injEq, Prod.mk.injEq] at h
        obtain ⟨hse, -⟩ := h
        by_cases hn : n = 0
        · exact ⟨[], by rw [← hse]; simp [hn]⟩
        · exact ⟨slice inp q4 n, by rw [← hse]; simp [hn]⟩

/-- A span loop that parses one span and then stops. -/
theorem spanLoop_single {item : P CowBytes} {fuel pos : Nat} {c : CowBytes}
    {p1 : Nat} (hf : 2 ≤ fuel) (h1 : (item pos).1 = some (c, p1))
    (h2 : (item p1).1 = none) :
    (spanLoopP item fuel pos).1 = some ([c], p1) := by
  obtain ⟨f, rfl⟩ : ∃ f, fuel = f + 1 := ⟨fuel - 1, by omega⟩
  simp only [spanLoopP]
  cases hi : item pos with
  | mk r e =>
    have hr : r = some (c, p1) := by rw [hi] at h1; exact h1
    subst hr
    simp only
    obtain ⟨g, rfl⟩ : ∃ g, f = g + 1 := ⟨f - 1, by omega⟩
    simp only [spanLoopP]
    cases hi2 : item p1 with
    | mk r2 e2 =>
      have hr2 : r2 = none := by rw [hi2] at h2; exact h2
      subst hr2
      rfl

/-- A double-quoted string whose body is one nonempty literal run with no
escape is returned as a single borrowed slice of the input. -/
theorem dqStringP_no_escape {inp : List Nat} {pos : Nat}
    (hq : inp.get? pos = some 34)
    (hn : runLen inp (fun b => !(b = 34 || b = 92 || b = 13 || b = 10))
      (pos + 1) ≠ 0)
    (hclose : inp.get? (pos + 1 + runLen inp
      (fun b => !(b = 34 || b = 92 || b = 13 || b = 10)) (pos + 1)) = some 34) :
    (dqStringP inp pos).1 =
      some (CowBytes.borrowed (slice inp (pos + 1) (runLen inp
          (fun b => !(b = 34 || b = 92 || b = 13 || b = 10)) (pos + 1))),
        pos + 1 + runLen inp
          (fun b => !(b = 34 || b = 92 || b = 13 || b = 10)) (pos + 1) + 1) := by
  set n := runLen inp (fun b => !(b = 34 || b = 92 || b = 13 || b = 10))
    (pos + 1) with hdefn
  have hone : (dqCharsP inp (pos + 1)).1 =
      some (CowBytes.borrowed (slice inp (pos + 1) n), pos + 1 + n) := by
    unfold dqCharsP
    simp only [porelse_fst, pmap_fst]
    unfold pclassMany1
    rw [← hdefn, if_neg hn]
    rfl
  have hstop : (dqCharsP inp (pos + 1 + n)).1 = none := by
    unfold dqCharsP
    simp only [porelse_fst, pmap_fst]
    unfold pclassMany1
    rw [runLen_zero_head hclose (by decide), if_pos rfl]
    rw [escapedCharP_fail (by rw [hclose]; simp)]
    rfl
  have hlen : pos + 1 + n < inp.length := (List.get?_eq_some.1 hclose).1
  unfold dqStringP
  simp only [pbind_fst, plit_fst, matchAt_single hq, if_true, oBind_some,
    List.length_cons, List.length_nil]
  rw [spanLoop_single (by omega) (by rw [show pos + (0 + 1) = pos + 1 from by omega]; exact hone) hstop]
  simp only [oBind_some, plit_fst, matchAt_single hclose, if_true,
    merge_spans_single, List.length_cons, List.length_nil, Nat.zero_add]
  rfl

/-- The single-quoted analogue. -/
theorem sqStringP_no_escape {inp : List Nat} {pos : Nat}
    (hq : inp.get? pos = some 39)
    (hn : runLen inp (fun b => !(b = 39 || b = 92 || b = 13 || b = 10))
      (pos + 1) ≠ 0)
    (hclose : inp.get? (pos + 1 + runLen inp
      (fun b => !(b = 39 || b = 92 || b = 13 || b = 10)) (pos + 1)) = some 39) :
    (sqStringP inp pos).1 =
      some (CowBytes.borrowed (slice inp (pos + 1) (runLen inp
          (fun b => !(b = 39 || b = 92 || b = 13 || b = 10)) (pos + 1))),
        pos + 1 + runLen inp
          (fun b => !(b = 39 || b = 92 || b = 13 || b = 10)) (pos + 1) + 1) := by
  set n := runLen inp (fun b => !(b = 39 || b = 92 || b = 13 || b = 10))
    (pos + 1) with hdefn
  have hone : (sqCharsP inp (pos + 1)).1 =
      some (CowBytes.borrowed (slice inp (pos + 1) n), pos + 1 + n) := by
    unfold sqCharsP
    simp only [porelse_fst, pmap_fst]
    unfold pclassMany1
    rw [← hdefn, if_neg hn]
    rfl
  have hstop : (sqCharsP inp (pos + 1 + n)).1 = none := by
    unfold sqCharsP
    simp only [porelse_fst, pmap_fst]
    unfold pclassMany1
    rw [runLen_zero_head hclose (by decide), if_pos rfl]
    rw [escapedCharP_fail (by rw [hclose]; simp)]
    rfl
  have hlen : pos + 1 + n < inp.length := (List.get?_eq_some.1 hclose).1
  unfold sqStringP
  simp only [pbind_fst, plit_fst, matchAt_single hq, if_true, oBind_some,
    List.length_cons, List.length_nil]
  rw [spanLoop_single (by omega) (by rw [show pos + (0 + 1) = pos + 1 from by omega]; exact hone) hstop]
  simp only [oBind_some, plit_fst, matchAt_single hclose, if_true,
    merge_spans_single, List.length_cons, List.length_nil, Nat.zero_add]
  rfl


/-! ### Script whitespace edge (C9 support) -/

theorem assignmentP_fail_noident {inp : List Nat} {fuel d pos : Nat}
    (h : (identifierP inp pos).1 = none) :
    (assignmentP inp fuel d pos).1 = none := by
  unfold assignmentP
  simp only [pbind_fst, h, oBind_none]

theorem scriptLoopP_iter_none {inp : List Nat} {d fuel pos : Nat}
    (h : ((pbind (p_ws inp) fun _ =>
      pbind (assignmentP inp (fuel + 1) d) fun a =>
      pbind (p_ws inp) fun _ =>
      pbind (semiLoopP inp (fuel + 1)) fun _ => ppure a) pos).1 = none) :
    ∃ e, scriptLoopP inp d (fuel + 1) pos = (some ([], pos), e) := by
  simp only [scriptLoopP]
  cases hIT : (pbind (p_ws inp) fun _ =>
      pbind (assignmentP inp (fuel + 1) d) fun a =>
      pbind (p_ws inp) fun _ =>
      pbind (semiLoopP inp (fuel + 1)) fun _ => ppure a) pos with
  | mk r e =>
    have hr : r = none := by rw [hIT] at h; exact h
    subst hr
    exact ⟨e, rfl⟩

theorem identifierP_eof {inp : List Nat} {pos : Nat}
    (h : inp.get? pos = none) : (identifierP inp pos).1 = none := by
  unfold identifierP
  rw [h]

theorem runLen_all {inp : List Nat} {f : Nat → Bool}
    (h : ∀ b ∈ inp, f b = true) : runLen inp f 0 = inp.length := by
  unfold runLen
  rw [List.drop_zero, List.takeWhile_eq_self_iff.2 h]

/-- `script` on a non-empty all-whitespace input: the repetition backtracks
over the whitespace its failed iteration consumed and end-of-input is not
reached. -/
theorem script_ws_fail {inp : List Nat} (d : Nat) (hne : inp ≠ [])
    (hws : ∀ b ∈ inp, isWs b = true) : (script inp d).1 = none := by
  have hlen : inp.length ≠ 0 := fun h => hne (List.length_eq_zero.1 h)
  have hrun : runLen inp isWs 0 = inp.length := runLen_all hws
  have hid : (identifierP inp inp.length).1 = none :=
    identifierP_eof (List.get?_eq_none.2 (le_refl _))
  have hiter : ((pbind (p_ws inp) fun _ =>
      pbind (assignmentP inp (inp.length + 1) d) fun a =>
      pbind (p_ws inp) fun _ =>
      pbind (semiLoopP inp (inp.length + 1)) fun _ => ppure a) 0).1 = none := by
    simp only [pbind_fst, p_ws_fst, oBind_some, hrun, Nat.zero_add,
      assignmentP_fail_noident hid, oBind_none]
  obtain ⟨e, hloop⟩ := scriptLoopP_iter_none hiter
  unfold script
  rw [hloop]
  simp only [if_neg (show ¬(0 = inp.length) from fun h => hlen h.symm)]

/-! ### Table-entry equality characterization (C7 support) -/

theorem beq_nameValue_keyValue (n : List Nat) (v k w : LuaValue) :
    (LuaTableEntry.NameValue n v).beq (.KeyValue k w) = true ↔
      (∃ s, k = .String s ∧ s.bytes = n) ∧ w.beq v = true := by
  cases k <;>
    simp [LuaTableEntry.beq, CowBytes.bytes]

theorem beq_keyValue_nameValue (n : List Nat) (v k w : LuaValue) :
    (LuaTableEntry.KeyValue k w).beq (.NameValue n v) = true ↔
      (∃ s, k = .String s ∧ s.bytes = n) ∧ w.beq v = true := by
  cases k <;>
    simp [LuaTableEntry.beq, CowBytes.bytes]

theorem beq_value_nilValue (a : LuaValue) :
    (LuaTableEntry.Value a).beq .NilValue = true ↔ a = .Nil := by
  cases a <;> simp [LuaTableEntry.beq]

theorem beq_value_boolValue (a : LuaValue) (b : Bool) :
    (LuaTableEntry.Value a).beq (.BooleanValue b) = true ↔ a = .Boolean b := by
  cases a <;> simp [LuaTableEntry.beq]

theorem beq_value_numValue (a : LuaValue) (m : LuaNumber) :
    (LuaTableEntry.Value a).beq (.NumberValue m) = true ↔
      ∃ nn, a = .Number nn ∧ nn.beq m = true := by
  cases a <;> simp [LuaTableEntry.beq]

/-! ### Integer overflow policy (C3 support) -/

/-- `wrapI64` is the two's-complement wrap: it lands in the `i64` range and
is congruent to its argument modulo `2^64`. -/
theorem wrapI64_range (x : Int) :
    -(2 ^ 63) ≤ wrapI64 x ∧ wrapI64 x < 2 ^ 63 := by
  unfold wrapI64
  omega

theorem wrapI64_mod (x : Int) : wrapI64 x % 2 ^ 64 = x % 2 ^ 64 := by
  unfold wrapI64
  omega

theorem charToDigit_of_isHexDigit {c : Nat} (h : isHexDigit c = true) :
    ∃ d, charToDigit c 16 = some d ∧ d < 16 := by
  unfold isHexDigit at h
  simp only [Bool.or_eq_true, Bool.and_eq_true, decide_eq_true_eq] at h
  unfold charToDigit
  by_cases h1 : 48 ≤ c ∧ c ≤ 57
  · rw [if_pos (by simp only [Bool.and_eq_true, decide_eq_true_eq]; exact h1)]
    refine ⟨c - 48, ?_, by omega⟩
    simp only
    rw [if_pos (by omega)]
  · by_cases h2 : 97 ≤ c ∧ c ≤ 122
    · rw [if_neg (by simp only [Bool.and_eq_true, decide_eq_true_eq]; exact h1),
        if_pos (by simp only [Bool.and_eq_true, decide_eq_true_eq]; exact h2)]
      have hc : c ≤ 102 := by omega
      refine ⟨c - 97 + 10, ?_, by omega⟩
      simp only
      rw [if_pos (by omega)]
    · have h3 : 65 ≤ c ∧ c ≤ 90 := by omega
      rw [if_neg (by simp only [Bool.and_eq_true, decide_eq_true_eq]; exact h1),
        if_neg (by simp only [Bool.and_eq_true, decide_eq_true_eq]; exact h2),
        if_pos (by simp only [Bool.and_eq_true, decide_eq_true_eq]; exact h3)]
      have hc : c ≤ 70 := by omega
      refine ⟨c - 65 + 10, ?_, by omega⟩
      simp only
      rw [if_pos (by omega)]

theorem natFromHexDigits_cons (c : Nat) (ds : List Nat) :
    natFromHexDigits (c :: ds) =
      List.foldl (fun acc c => acc * 16 + (charToDigit c 16).getD 0)
        ((charToDigit c 16).getD 0) ds := by
  simp [natFromHexDigits]

theorem hexFold_from (ds : List Nat) : ∀ a : Nat,
    List.foldl (fun acc c => acc * 16 + (charToDigit c 16).getD 0) a ds =
      a * 16 ^ ds.length + natFromHexDigits ds := by
  induction ds with
  | nil => intro a; simp [natFromHexDigits]
  | cons c rest ih =>
    intro a
    rw [List.foldl_cons, ih, natFromHexDigits_cons, ih, List.length_cons,
      pow_succ]
    ring

/-- The accumulation loop of `wrapping_parse_int`, radix 16: it always
succeeds on hex digits, stays in the `i64` range, and is congruent to the
signed accumulation modulo `2^64`. -/
theorem wrapping_parse_int_spec (pos : Bool) :
    ∀ (ds : List Nat), (∀ c ∈ ds, isHexDigit c = true) → ∀ (a : Int),
      -(2 ^ 63) ≤ a → a < 2 ^ 63 →
      ∃ i, ds.foldlM (fun result c => do
          let x ← charToDigit c 16
          let result := wrapI64 (result * 16)
          if pos then pure (wrapI64 (result + x))
          else pure (wrapI64 (result - x)))
        a = some i ∧
        -(2 ^ 63) ≤ i ∧ i < 2 ^ 63 ∧
        i % 2 ^ 64 =
          (if pos then
            a * 16 ^ ds.length + (natFromHexDigits ds : Int)
          else
            a * 16 ^ ds.length - (natFromHexDigits ds : Int)) % 2 ^ 64 := by
  intro ds
  induction ds with
  | nil =>
    intro h a h1 h2
    refine ⟨a, rfl, h1, h2, ?_⟩
    cases pos <;> simp [natFromHexDigits]
  | cons c rest ih =>
    intro h a h1 h2
    obtain ⟨d, hd, hd16⟩ := charToDigit_of_isHexDigit (h c (by simp))
    have hstep := ih (fun x hx => h x (by simp [hx]))
    cases pos with
    | true =>
      obtain ⟨i, hi, hr1, hr2, hmod⟩ :=
        hstep (wrapI64 (wrapI64 (a * 16) + d))
          (wrapI64_range _).1 (wrapI64_range _).2
      simp only [reduceIte] at hmod ⊢
      refine ⟨i, ?_, hr1, hr2, ?_⟩
      · rw [List.foldlM_cons]
        simp only [hd, Option.bind_eq_bind, Option.some_bind, reduceIte,
          Option.pure_def]
        exact hi
      · rw [hmod, natFromHexDigits_cons, hexFold_from, List.length_cons]
        have hg : ((charToDigit c 16).getD 0 : Int) = (d : Int) := by
          rw [hd]; rfl
        have hone : wrapI64 (wrapI64 (a * 16) + (d : Int)) % 2 ^ 64 =
            (a * 16 + (d : Int)) % 2 ^ 64 := by
          rw [wrapI64_mod, Int.add_emod, wrapI64_mod, ← Int.add_emod]
        have key : (wrapI64 (wrapI64 (a * 16) + (d : Int)) * 16 ^ rest.length +
            (natFromHexDigits rest : Int)) % 2 ^ 64 =
            ((a * 16 + (d : Int)) * 16 ^ rest.length +
              (natFromHexDigits rest : Int)) % 2 ^ 64 := by
          rw [Int.add_emod, Int.mul_emod, hone, ← Int.mul_emod, ← Int.add_emod]
        rw [key]
        push_cast [hg]
        congr 1
        ring
    | false =>
      obtain ⟨i, hi, hr1, hr2, hmod⟩ :=
        hstep (wrapI64 (wrapI64 (a * 16) - d))
          (wrapI64_range _).1 (wrapI64_range _).2
      have hf : ¬(false = true) := by decide
      rw [if_neg hf] at hmod
      refine ⟨i, ?_, hr1, hr2, ?_⟩
      · rw [List.foldlM_cons]
        simp only [hd, Option.bind_eq_bind, Option.some_bind]
        exact hi
      · rw [if_neg hf, hmod, natFromHexDigits_cons, hexFold_from,
          List.length_cons]
        have hg : ((charToDigit c 16).getD 0 : Int) = (d : Int) := by
          rw [hd]; rfl
        have hone : wrapI64 (wrapI64 (a * 16) - (d : Int)) % 2 ^ 64 =
            (a * 16 - (d : Int)) % 2 ^ 64 := by
          rw [wrapI64_mod, Int.sub_emod, wrapI64_mod, ← Int.sub_emod]
        have key : (wrapI64 (wrapI64 (a * 16) - (d : Int)) * 16 ^ rest.length -
            (natFromHexDigits rest : Int)) % 2 ^ 64 =
            ((a * 16 - (d : Int)) * 16 ^ rest.length -
              (natFromHexDigits rest : Int)) % 2 ^ 64 := by
          rw [Int.sub_emod, Int.mul_emod, hone, ← Int.mul_emod, ← Int.sub_emod]
        rw [key]
        push_cast [hg]
        congr 1
        ring

/-- `wrapping_parse_int` on hex digits: lands in the `i64` range and is
congruent to `±value` modulo `2^64`. -/
theorem wrapping_parse_int_hex (ds : List Nat) (pos : Bool)
    (h : ∀ c ∈ ds, isHexDigit c = true) :
    ∃ i, wrapping_parse_int ds 16 pos = some i ∧
      -(2 ^ 63) ≤ i ∧ i < 2 ^ 63 ∧
      i % 2 ^ 64 =
        (if pos then (natFromHexDigits ds : Int)
         else -(natFromHexDigits ds : Int)) % 2 ^ 64 := by
  obtain ⟨i, hi, h1, h2, hmod⟩ :=
    wrapping_parse_int_spec pos ds h 0 (by norm_num) (by norm_num)
  refine ⟨i, hi, h1, h2, ?_⟩
  · rw [hmod]
    cases pos <;> simp

/-- `rustParseI64` on a list with a non-sign head byte. -/
theorem rustParseI64_nosign {c : Nat} {rest : List Nat} (h45 : c ≠ 45)
    (h43 : c ≠ 43) :
    rustParseI64 (c :: rest) =
      (if (c :: rest).isEmpty || !((c :: rest).all isDigit) then none
       else if -(2 ^ 63) ≤ (natFromDigits (c :: rest) : Int) ∧
           (natFromDigits (c :: rest) : Int) < 2 ^ 63 then
         some ((natFromDigits (c :: rest) : Int))
       else none) := by
  unfold rustParseI64
  split
  next neg ds heq =>
    split at heq
    · next heq2 => injection heq2 with hc2 _; exact absurd hc2 h45
    · next heq2 => injection heq2 with hc2 _; exact absurd hc2 h43
    · injection heq with hneg hds
      rw [← hneg, ← hds]
      rfl

/-- `rustParseI64` on a `-`-signed list. -/
theorem rustParseI64_neg (rest : List Nat) :
    rustParseI64 (45 :: rest) =
      (if rest.isEmpty || !(rest.all isDigit) then none
       else if -(2 ^ 63) ≤ -(natFromDigits rest : Int) ∧
           -(natFromDigits rest : Int) < 2 ^ 63 then
         some (-(natFromDigits rest : Int))
       else none) := by
  unfold rustParseI64
  split
  next neg ds heq =>
    split at heq
    · next heq2 =>
      injection heq2 with _ hr
      injection heq with hneg hds
      rw [← hneg, ← hds, ← hr]
      rfl
    · next heq2 => injection heq2 with hc2 _; exact absurd hc2.symm (by decide)
    · next h1 h2 => exact absurd rfl (h1 rest)

/-- `rustParseF64` on an all-digit list. -/
theorem rustParseF64_digits {c : Nat} {rest : List Nat}
    (h45 : c ≠ 45) (h43 : c ≠ 43)
    (hds : ∀ b ∈ c :: rest, isDigit b = true) :
    rustParseF64 (c :: rest) = roundRatF64 false (natFromDigits (c :: rest)) 1 := by
  have htw : (c :: rest).takeWhile isDigit = c :: rest :=
    List.takeWhile_eq_self_iff.2 hds
  unfold rustParseF64
  split
  next neg ds heq =>
    split at heq
    · next heq2 => injection heq2 with hc2 _; exact absurd hc2 h45
    · next heq2 => injection heq2 with hc2 _; exact absurd hc2 h43
    · injection heq with hneg hds2
      rw [← hneg, ← hds2]
      simp only [htw, List.drop_length, List.append_nil]
      norm_num

/-- `rustParseF64` on `-` followed by digits. -/
theorem rustParseF64_neg {ds : List Nat}
    (hds : ∀ b ∈ ds, isDigit b = true) :
    rustParseF64 (45 :: ds) = roundRatF64 true (natFromDigits ds) 1 := by
  have htw : ds.takeWhile isDigit = ds := List.takeWhile_eq_self_iff.2 hds
  unfold rustParseF64
  split
  next neg ds2 heq =>
    split at heq
    · next heq2 =>
      injection heq2 with _ hr
      injection heq with hneg hds2
      rw [← hneg, ← hds2, ← hr]
      simp only [htw, List.drop_length, List.append_nil]
      norm_num
    · next heq2 => injection heq2 with hc2 _; exact absurd hc2.symm (by decide)
    · next h1 h2 => exact absurd rfl (h1 ds)

/-- A decimal digit string too large for `i64` falls back to the correctly
rounded float of the same (positive) sign. -/
theorem decimal_overflow_pos {c : Nat} {rest : List Nat}
    (hds : ∀ b ∈ c :: rest, isDigit b = true)
    (hbig : 2 ^ 63 ≤ natFromDigits (c :: rest)) :
    rustParseI64 (c :: rest) = none ∧
      rustParseF64 (c :: rest) =
        roundRatF64 false (natFromDigits (c :: rest)) 1 := by
  have hc : isDigit c = true := hds c (by simp)
  have h45 : c ≠ 45 := by intro h; rw [h] at hc; simp [isDigit] at hc
  have h43 : c ≠ 43 := by intro h; rw [h] at hc; simp [isDigit] at hc
  refine ⟨?_, rustParseF64_digits h45 h43 hds⟩
  rw [rustParseI64_nosign h45 h43]
  rw [if_neg (by simp [List.all_eq_true.2 hds])]
  rw [if_neg (by push_cast; omega)]

/-- The `-`-signed variant: magnitude strictly above `2^63` overflows. -/
theorem decimal_overflow_neg {ds : List Nat}
    (hds : ∀ b ∈ ds, isDigit b = true)
    (hne : ds ≠ []) (hbig : 2 ^ 63 < natFromDigits ds) :
    rustParseI64 (45 :: ds) = none ∧
      rustParseF64 (45 :: ds) = roundRatF64 true (natFromDigits ds) 1 := by
  refine ⟨?_, rustParseF64_neg hds⟩
  rw [rustParseI64_neg]
  rw [if_neg (by
    simp [List.all_eq_true.2 hds, List.isEmpty_iff, hne])]
  rw [if_neg (by push_cast; omega)]

/-! ### Depth corollary at the entry point (C2 support) -/

theorem lua_value_depth {inp : List Nat} {d : Nat} {t : LuaValue}
    (h : (lua_value inp d).1 = some t) : depthV t ≤ d := by
  have hval := (depthAll inp (inp.length + 1)).1
  unfold lua_value at h
  cases hM : luaValueP inp (inp.length + 1) d 0 with
  | mk r e =>
    rw [hM] at h
    cases r with
    | none => simp at h
    | some vp =>
      obtain ⟨v, p⟩ := vp
      simp only at h
      by_cases hp : p = inp.length
      · rw [if_pos hp] at h
        simp only at h
        have hfst : (luaValueP inp (inp.length + 1) d 0).1 = some (v, p) := by
          rw [hM]
        injection h with h2
        rw [← h2]
        exact (hval d 0 v p hfst).1
      · rw [if_neg hp] at h
        simp at h

/-! ### Lua-to-JSON table heuristic (C6 support) -/

theorem objInsert_ne_nil (k : List Nat) (v : JsonValue) :
    ∀ l, objInsert k v l ≠ [] := by
  intro l
  cases l with
  | nil => simp [objInsert]
  | cons h2 t =>
    obtain ⟨k2, v2⟩ := h2
    unfold objInsert
    cases bytesCmp k k2 <;> simp

/-- Once the fold's object is non-empty — or some entry is keyed — the
final object is non-empty. -/
theorem jsonTableFold_obj :
    ∀ (items : List LuaTableEntry) (opts : JsonConversionOptions)
      (object : List (List Nat × JsonValue)) (array : List JsonValue)
      (idx : Int) (o2 : List (List Nat × JsonValue)) (a2 : List JsonValue)
      (i2 : Int),
      (object ≠ [] ∨ ∃ en ∈ items, en.implicit_key = false) →
      jsonTableFold items opts object array idx = .ok (o2, a2, i2) →
      o2 ≠ [] := by
  intro items
  induction items with
  | nil =>
    intro opts object array idx o2 a2 i2 hyp h
    unfold jsonTableFold at h
    injection h with h2
    injection h2 with ho h3
    rw [← ho]
    rcases hyp with hne | ⟨en, hen, -⟩
    · exact hne
    · exact absurd hen (List.not_mem_nil en)
  | cons entry rest ih =>
    intro opts object array idx o2 a2 i2 hyp h
    unfold jsonTableFold at h
    cases entry with
    | KeyValue k v =>
      simp only at h
      cases hmv : move_array_to_object array idx object with
      | mk object2 idx2 =>
        rw [hmv] at h
        simp only at h
        cases hk : luaKeyString opts k with
        | error e2 => rw [hk] at h; simp only at h; exact Except.noConfusion h
        | ok ks =>
          rw [hk] at h
          simp only at h
          cases hv : to_json_value v opts with
          | error e2 =>
            rw [hv] at h; simp only at h; exact Except.noConfusion h
          | ok jv =>
            rw [hv] at h
            simp only at h
            exact ih opts _ _ _ o2 a2 i2 (Or.inl (objInsert_ne_nil _ _ _)) h
    | NameValue n v =>
      simp only at h
      cases hmv : move_array_to_object array idx object with
      | mk object2 idx2 =>
        rw [hmv] at h
        simp only at h
        cases hv : to_json_value v opts with
        | error e2 =>
          rw [hv] at h; simp only at h; exact Except.noConfusion h
        | ok jv =>
          rw [hv] at h
          simp only at h
          exact ih opts _ _ _ o2 a2 i2 (Or.inl (objInsert_ne_nil _ _ _)) h
    | Value v =>
      simp only at h
      cases hv : to_json_value v opts with
      | error e2 => rw [hv] at h; simp only at h; exact Except.noConfusion h
      | ok jv =>
        rw [hv] at h
        simp only at h
        cases object with
        | nil =>
          rw [if_pos (by rw [List.isEmpty_nil])] at h
          rcases hyp with hne | ⟨en, hen, himp⟩
          · exact absurd rfl hne
          · rcases List.mem_cons.1 hen with heq | hmem
            · rw [heq] at himp
              simp [LuaTableEntry.implicit_key] at himp
            · exact ih opts _ _ _ o2 a2 i2 (Or.inr ⟨en, hmem, himp⟩) h
        | cons p2 l2 =>
          rw [if_neg (by simp)] at h
          exact ih opts _ _ _ o2 a2 i2 (Or.inl (objInsert_ne_nil _ _ _)) h
    | NumberValue nn =>
      simp only at h
      cases hj : (jsonNumberOfLua nn).map JsonValue.num with
      | error e2 => rw [hj] at h; simp only at h; exact Except.noConfusion h
      | ok jv =>
        rw [hj] at h
        simp only at h
        cases object with
        | nil =>
          rw [if_pos (by rw [List.isEmpty_nil])] at h
          rcases hyp with hne | ⟨en, hen, himp⟩
          · exact absurd rfl hne
          · rcases List.mem_cons.1 hen with heq | hmem
            · rw [heq] at himp
              simp [LuaTableEntry.implicit_key] at himp
            · exact ih opts _ _ _ o2 a2 i2 (Or.inr ⟨en, hmem, himp⟩) h
        | cons p2 l2 =>
          rw [if_neg (by simp)] at h
          exact ih opts _ _ _ o2 a2 i2 (Or.inl (objInsert_ne_nil _ _ _)) h
    | BooleanValue b =>
      simp only at h
      cases object with
      | nil =>
        rw [if_pos (by rw [List.isEmpty_nil])] at h
        rcases hyp with hne | ⟨en, hen, himp⟩
        · exact absurd rfl hne
        · rcases List.mem_cons.1 hen with heq | hmem
          · rw [heq] at himp
            simp [LuaTableEntry.implicit_key] at himp
          · exact ih opts _ _ _ o2 a2 i2 (Or.inr ⟨en, hmem, himp⟩) h
      | cons p2 l2 =>
        rw [if_neg (by simp)] at h
        exact ih opts _ _ _ o2 a2 i2 (Or.inl (objInsert_ne_nil _ _ _)) h
    | NilValue =>
      simp only at h
      cases object with
      | nil =>
        rw [if_pos (by rw [List.isEmpty_nil])] at h
        rcases hyp with hne | ⟨en, hen, himp⟩
        · exact absurd rfl hne
        · rcases List.mem_cons.1 hen with heq | hmem
          · rw [heq] at himp
            simp [LuaTableEntry.implicit_key] at himp
          · exact ih opts _ _ _ o2 a2 i2 (Or.inr ⟨en, hmem, himp⟩) h
      | cons p2 l2 =>
        rw [if_neg (by simp)] at h
        exact ih opts _ _ _ o2 a2 i2 (Or.inl (objInsert_ne_nil _ _ _)) h

theorem exceptMapM_cons {α β γ : Type} (f : α → Except γ β) (x : α)
    (xs : List α) (js : List β) (h : (x :: xs).mapM f = .ok js) :
    ∃ y ys, f x = .ok y ∧ xs.mapM f = .ok ys ∧ js = y :: ys := by
  rw [List.mapM_cons] at h
  cases hx : f x with
  | error e =>
    rw [hx] at h
    have h2 : (Except.error e : Except γ (List β)) = .ok js := h
    exact Except.noConfusion h2
  | ok y =>
    rw [hx] at h
    cases hxs : xs.mapM f with
    | error e =>
      rw [hxs] at h
      have h2 : (Except.error e : Except γ (List β)) = .ok js := h
      exact Except.noConfusion h2
    | ok ys =>
      rw [hxs] at h
      have h2 : (Except.ok (y :: ys) : Except γ (List β)) = .ok js := h
      exact ⟨y, ys, rfl, rfl, (Except.ok.inj h2).symm⟩

/-- A run of positional-equivalent entries appends the converted elements
to the array and leaves the (empty) object alone. -/
theorem jsonTableFold_positional :
    ∀ (items : List LuaTableEntry) (opts : JsonConversionOptions)
      (array : List JsonValue) (idx : Int) (js : List JsonValue),
      (∀ en ∈ items, en.implicit_key = true) →
      items.mapM (positionalJson opts) = .ok js →
      jsonTableFold items opts [] array idx = .ok ([], array ++ js, idx) := by
  intro items
  induction items with
  | nil =>
    intro opts array idx js hall hmap
    have h2 : (Except.ok ([] : List JsonValue) :
        Except JsonErr (List JsonValue)) = .ok js := hmap
    injection h2 with h3
    rw [← h3, List.append_nil]
    unfold jsonTableFold
    rfl
  | cons entry rest ih =>
    intro opts array idx js hall hmap
    obtain ⟨jv, ys, hjv, hrest, hjs⟩ := exceptMapM_cons _ _ _ _ hmap
    subst hjs
    have hallr : ∀ en ∈ rest, en.implicit_key = true :=
      fun en hen => hall en (List.mem_cons_of_mem _ hen)
    unfold jsonTableFold
    cases entry with
    | KeyValue k v =>
      exact absurd (hall _ (List.mem_cons_self _ _))
        (by simp [LuaTableEntry.implicit_key])
    | NameValue n v =>
      exact absurd (hall _ (List.mem_cons_self _ _))
        (by simp [LuaTableEntry.implicit_key])
    | Value v =>
      have hv : to_json_value v opts = .ok jv := hjv
      simp only
      rw [hv]
      simp only [List.isEmpty_nil]
      rw [if_pos trivial]
      rw [ih opts (array ++ [jv]) idx ys hallr hrest, List.append_assoc,
        List.singleton_append]
    | NumberValue nn =>
      have hv : (jsonNumberOfLua nn).map JsonValue.num = .ok jv := hjv
      simp only
      rw [hv]
      simp only [List.isEmpty_nil]
      rw [if_pos trivial]
      rw [ih opts (array ++ [jv]) idx ys hallr hrest, List.append_assoc,
        List.singleton_append]
    | BooleanValue b =>
      have hv : jv = JsonValue.bool b := by
        have h2 : (Except.ok (JsonValue.bool b) :
            Except JsonErr JsonValue) = .ok jv := hjv
        exact (Except.ok.inj h2).symm
      subst hv
      simp only [List.isEmpty_nil]
      rw [if_pos trivial]
      rw [ih opts (array ++ [JsonValue.bool b]) idx ys hallr hrest,
        List.append_assoc, List.singleton_append]
    | NilValue =>
      have hv : jv = JsonValue.null := by
        have h2 : (Except.ok JsonValue.null :
            Except JsonErr JsonValue) = .ok jv := hjv
        exact (Except.ok.inj h2).symm
      subst hv
      simp only [List.isEmpty_nil]
      rw [if_pos trivial]
      rw [ih opts (array ++ [JsonValue.null]) idx ys hallr hrest,
        List.append_assoc, List.singleton_append]

/-! ### Identifier guard (C8 support) -/

theorem bytesCmp_eq_iff : ∀ a b : List Nat, bytesCmp a b = .eq ↔ a = b := by
  intro a
  induction a with
  | nil =>
    intro b
    cases b with
    | nil => simp [bytesCmp]
    | cons y ys => simp [bytesCmp]
  | cons x xs ih =>
    intro b
    cases b with
    | nil => simp [bytesCmp]
    | cons y ys =>
      unfold bytesCmp
      by_cases h1 : x < y
      · rw [if_pos h1]
        constructor
        · intro h; exact absurd h (by decide)
        · intro h; injection h with hx _; omega
      · rw [if_neg h1]
        by_cases h2 : y < x
        · rw [if_pos h2]
          constructor
          · intro h; exact absurd h (by decide)
          · intro h; injection h with hx _; omega
        · rw [if_neg h2]
          have hxy : x = y := by omega
          subst hxy
          rw [ih ys]
          constructor
          · intro h; rw [h]
          · intro h; exact (List.cons.inj h).2

theorem binarySearchAux_sound {arr : List (List Nat)} {t : List Nat} :
    ∀ fuel lo hi, hi ≤ arr.length →
      binarySearchAux arr t fuel lo hi = true →
      ∃ i, i < arr.length ∧ bytesCmp (arr.getD i []) t = .eq := by
  intro fuel
  induction fuel with
  | zero =>
    intro lo hi hle h
    exact absurd h (by simp [binarySearchAux])
  | succ f ih =>
    intro lo hi hle h
    unfold binarySearchAux at h
    by_cases hlh : lo < hi
    · rw [if_pos hlh] at h
      simp only at h
      cases hc : bytesCmp (arr.getD ((lo + hi) / 2) []) t with
      | lt =>
        rw [hc] at h
        exact ih _ _ hle h
      | gt =>
        rw [hc] at h
        exact ih _ _ (by omega) h
      | eq => exact ⟨(lo + hi) / 2, by omega, hc⟩
    · rw [if_neg hlh] at h
      exact Bool.noConfusion h

theorem binary_search_keywords (t : List Nat) :
    binary_search LUA_KEYWORDS t = true ↔ t ∈ LUA_KEYWORDS := by
  constructor
  · intro h
    obtain ⟨i, hi, hcmp⟩ :=
      binarySearchAux_sound (LUA_KEYWORDS.length + 1) 0 LUA_KEYWORDS.length
        (le_refl _) h
    have ht : LUA_KEYWORDS.getD i [] = t := (bytesCmp_eq_iff _ _).1 hcmp
    rw [← ht]
    rw [List.getD_eq_getElem _ _ hi]
    exact List.getElem_mem hi
  · intro h
    simp only [LUA_KEYWORDS, List.mem_cons, List.not_mem_nil, or_false] at h
    rcases h with rfl | rfl | rfl | rfl | rfl | rfl | rfl | rfl | rfl | rfl |
      rfl | rfl | rfl | rfl | rfl | rfl | rfl | rfl | rfl | rfl | rfl | rfl <;>
      decide

theorem valid_lua_identifier_iff (i : List Nat) :
    valid_lua_identifier i = true ↔
      i ≠ [] ∧ i ∉ LUA_KEYWORDS ∧
      ∃ first rest, i = first :: rest ∧
        (isAlpha first || first = 95) = true ∧
        (rest.all fun c => isAlpha c || isDigit c || c = 95) = true := by
  cases i with
  | nil => simp [valid_lua_identifier]
  | cons first rest =>
    unfold valid_lua_identifier
    simp only [List.isEmpty_cons, Bool.false_or]
    cases hbs : binary_search LUA_KEYWORDS (first :: rest) with
    | true =>
      rw [if_pos rfl]
      constructor
      · intro h; exact Bool.noConfusion h
      · rintro ⟨-, hmem, -⟩
        exact absurd ((binary_search_keywords _).1 hbs) hmem
    | false =>
      rw [if_neg (by simp)]
      have hmem : (first :: rest) ∉ LUA_KEYWORDS := fun hm => by
        rw [(binary_search_keywords _).2 hm] at hbs
        exact Bool.noConfusion hbs
      by_cases hfst : (isAlpha first || first = 95) = true
      · rw [if_neg (by rw [hfst]; decide)]
        constructor
        · intro h
          exact ⟨List.cons_ne_nil _ _, hmem, first, rest, rfl, hfst, h⟩
        · rintro ⟨-, -, f2, r2, heq, hf2, hall⟩
          injection heq with he1 he2
          rw [he2]
          exact hall
      · have hfst2 : (isAlpha first || first = 95) = false := by
          cases hx : (isAlpha first || first = 95)
          · rfl
          · exact absurd hx hfst
        rw [if_pos (by rw [hfst2]; decide)]
        constructor
        · intro h; exact Bool.noConfusion h
        · rintro ⟨-, -, f2, r2, heq, hf2, -⟩
          injection heq with he1 he2
          rw [← he1] at hf2
          exact absurd hf2 hfst

/-! ## The claims -/

/-- C1: the spec's round-trip and string-quoting statement fails against the
code: `LuaValue::to_writer` emits a `String` as its escaped contents with no
surrounding double quotes, so an accepted input such as `"a"` re-parses to
nothing, and `"nil"` re-parses to `Nil` — a different tree. -/
theorem c1_string_emitted_unquoted :
    (lua_value [34, 97, 34] 0).1 = some (.String (.borrowed [97])) ∧
    LuaValue.to_writer (.String (.borrowed [97])) = .ok [97] ∧
    (∀ d, (lua_value [97] d).1 = none) ∧
    (lua_value [34, 110, 105, 108, 34] 0).1 =
      some (.String (.borrowed [110, 105, 108])) ∧
    LuaValue.to_writer (.String (.borrowed [110, 105, 108])) =
      .ok [110, 105, 108] ∧
    (lua_value [110, 105, 108] 0).1 = some .Nil := by
  refine ⟨rfl, ?_, fun d => rfl, rfl, ?_, rfl⟩
  · simp only [LuaValue.to_writer]
    rfl
  · simp only [LuaValue.to_writer]
    rfl

/-- C2 (corrected): any successfully parsed tree has nesting at most
`max_depth` (so nesting above the budget is always rejected), and parsing
never fails for depth reasons once the budget covers the nesting: an input
accepted at any `max_depth` is accepted, with the same tree, at every
`max_depth` at least its tree's nesting; `max_depth` 0 accepts the scalar
values but rejects the empty table (with the depth flag raised); `{{{}}}`
is rejected at 2 (depth flag raised) and accepted at 3.  Only the "fails
with `DepthExceeded`" attribution of the original statement is refuted, by
`c2_depth_flag_cex`. -/
theorem c2_depth_budget :
    (∀ (inp : List Nat) (d : Nat) (t : LuaValue),
      (lua_value inp d).1 = some t → depthV t ≤ d) ∧
    (∀ (inp : List Nat) (d d2 : Nat) (t : LuaValue),
      (lua_value inp d).1 = some t → depthV t ≤ d2 →
      (lua_value inp d2).1 = some t) ∧
    lua_value [123, 125] 0 = (none, ⟨1, true⟩) ∧
    (lua_value [110, 105, 108] 0).1 = some .Nil ∧
    (lua_value [116, 114, 117, 101] 0).1 = some (.Boolean true) ∧
    (lua_value [49] 0).1 = some (.Number (.Integer 1)) ∧
    (lua_value [39, 97, 39] 0).1 = some (.String (.borrowed [97])) ∧
    lua_value [123, 123, 123, 125, 125, 125] 2 = (none, ⟨3, true⟩) ∧
    (lua_value [123, 123, 123, 125, 125, 125] 3).1 =
      some (.Table [.Value (.Table [.Value (.Table [])])]) :=
  ⟨fun _ _ _ h => lua_value_depth h,
    fun _ _ _ _ h hd => lua_value_of_depth h hd,
    rfl, rfl, rfl, rfl, rfl, rfl, rfl⟩

theorem c2_depth_budget_witness :
    ((lua_value [123, 125] 1).1 = some (.Table []) ∧
      depthV (.Table []) ≤ 1) ∧
    (lua_value [123, 125] 5).1 = some (.Table []) :=
  ⟨⟨rfl, c2_depth_budget.1 [123, 125] 1 (.Table []) rfl⟩,
    c2_depth_budget.2.1 [123, 125] 1 5 (.Table []) rfl (by decide)⟩

/-- C2 counterexample: `{[[=[k]=] ]=1, {{1}}}` has table nesting 3, so it is
rejected at `max_depth` 2 — but the recorded farthest failure is position 21
with the depth flag *not* set (the long-bracket scan to end of input fails
farther than the depth check), so the error is not `DepthExceeded`. -/
theorem c2_depth_flag_cex :
    lua_value [123, 91, 91, 61, 91, 107, 93, 61, 93, 32, 93, 61, 49, 44, 32,
        123, 123, 49, 125, 125, 125] 2 = (none, ⟨21, false⟩) ∧
    (lua_value [123, 91, 91, 61, 91, 107, 93, 61, 93, 32, 93, 61, 49, 44, 32,
        123, 123, 49, 125, 125, 125] 3).1 =
      some (.Table [.KeyValue (.String (.borrowed [107])) (.Number (.Integer 1)),
        .Value (.Table [.Value (.Table [.Value (.Number (.Integer 1))])])]) ∧
    depthV (.Table [.KeyValue (.String (.borrowed [107])) (.Number (.Integer 1)),
        .Value (.Table [.Value (.Table [.Value (.Number (.Integer 1))])])]) = 3 :=
  ⟨rfl, rfl, rfl⟩

/-- C7: `Named`/`Keyed(String)` cross-equality, `Positional` versus the
specialized variants, and structural comparison within a variant. -/
theorem c7_entry_equality :
    (∀ (n : List Nat) (v k w : LuaValue),
      (LuaTableEntry.NameValue n v).beq (.KeyValue k w) = true ↔
        (∃ s, k = .String s ∧ s.bytes = n) ∧ w.beq v = true) ∧
    (∀ (n : List Nat) (v k w : LuaValue),
      (LuaTableEntry.KeyValue k w).beq (.NameValue n v) = true ↔
        (∃ s, k = .String s ∧ s.bytes = n) ∧ w.beq v = true) ∧
    (∀ a : LuaValue, (LuaTableEntry.Value a).beq .NilValue = true ↔ a = .Nil) ∧
    (∀ (a : LuaValue) (b : Bool),
      (LuaTableEntry.Value a).beq (.BooleanValue b) = true ↔ a = .Boolean b) ∧
    (∀ (a : LuaValue) (m : LuaNumber),
      (LuaTableEntry.Value a).beq (.NumberValue m) = true ↔
        ∃ nn, a = .Number nn ∧ nn.beq m = true) ∧
    (∀ a b : LuaValue,
      (LuaTableEntry.Value a).beq (.Value b) = a.beq b) ∧
    (∀ (n n2 : List Nat) (v v2 : LuaValue),
      (LuaTableEntry.NameValue n v).beq (.NameValue n2 v2) =
        (decide (n = n2) && v.beq v2)) ∧
    (∀ (k k2 v v2 : LuaValue),
      (LuaTableEntry.KeyValue k v).beq (.KeyValue k2 v2) =
        (k.beq k2 && v.beq v2)) ∧
    (∀ (n : List Nat) (v : LuaValue),
      (LuaTableEntry.NameValue n v).beq .NilValue = false) ∧
    (∀ (k v : LuaValue) (b : Bool),
      (LuaTableEntry.KeyValue k v).beq (.BooleanValue b) = false) := by
  refine ⟨beq_nameValue_keyValue, beq_keyValue_nameValue, beq_value_nilValue,
    beq_value_boolValue, beq_value_numValue, ?_, ?_, ?_, ?_, ?_⟩
  · intro a b
    simp [LuaTableEntry.beq]
  · intro n n2 v v2
    simp [LuaTableEntry.beq]
  · intro k k2 v v2
    simp [LuaTableEntry.beq]
  · intro n v
    simp [LuaTableEntry.beq]
  · intro k v b
    simp [LuaTableEntry.beq]

/-- C9: the `script` entry point accepts the empty input (empty assignment
list), but rejects every non-empty all-whitespace input: the repetition
backtracks over the consumed whitespace and end-of-input is not reached. -/
theorem c9_script_whitespace :
    (∀ d, (script [] d).1 = some []) ∧
    (∀ (inp : List Nat) (d : Nat), inp ≠ [] →
      (∀ b ∈ inp, isWs b = true) → (script inp d).1 = none) :=
  ⟨fun _ => rfl, fun _ d hne hws => script_ws_fail d hne hws⟩

theorem c9_script_whitespace_witness :
    (script [32, 32, 9] 7).1 = none :=
  c9_script_whitespace.2 [32, 32, 9] 7 (by decide) (by decide)

/-- C10: at every `max_depth ≥ 1`, `{,}` and `{;}` parse to the empty table
(zero entries, the optional trailing separator consumed); `{,,}` and `{,1}`
are rejected at every `max_depth`. -/
theorem c10_lone_separator :
    (∀ d, 1 ≤ d →
      (lua_value [123, 44, 125] d).1 = some (.Table []) ∧
      (lua_value [123, 59, 125] d).1 = some (.Table [])) ∧
    (∀ d, (lua_value [123, 44, 44, 125] d).1 = none) ∧
    (∀ d, (lua_value [123, 44, 49, 125] d).1 = none) := by
  refine ⟨?_, ?_, ?_⟩
  · intro d hd
    exact ⟨lua_value_budget hd rfl, lua_value_budget hd rfl⟩
  · intro d
    cases d with
    | zero => rfl
    | succ d2 => rfl
  · intro d
    cases d with
    | zero => rfl
    | succ d2 => rfl

theorem c10_lone_separator_witness :
    (lua_value [123, 44, 125] 1).1 = some (.Table []) :=
  (c10_lone_separator.1 1 (le_refl 1)).1

/-- C3: hex integer literals accumulate modulo `2^64`, negate modulo `2^64`,
and reinterpret the pattern as a signed `i64` (characterized by the `i64`
range plus congruence modulo `2^64`); overflowing decimal literals fall back
to the correctly rounded float of the same sign; scenario A parses as
`a = Integer (-1)`, `b = Float (2^63)` at every `max_depth ≥ 1`. -/
theorem c3_integer_overflow_policy :
    (∀ (ds : List Nat) (pos : Bool), (∀ c ∈ ds, isHexDigit c = true) →
      ∃ i, wrapping_parse_int ds 16 pos = some i ∧
        -(2 ^ 63) ≤ i ∧ i < 2 ^ 63 ∧
        i % 2 ^ 64 = (if pos then (natFromHexDigits ds : Int)
          else -(natFromHexDigits ds : Int)) % 2 ^ 64) ∧
    (∀ (c : Nat) (rest : List Nat), (∀ b ∈ c :: rest, isDigit b = true) →
      2 ^ 63 ≤ natFromDigits (c :: rest) →
      rustParseI64 (c :: rest) = none ∧
        rustParseF64 (c :: rest) =
          roundRatF64 false (natFromDigits (c :: rest)) 1) ∧
    (∀ (ds : List Nat), (∀ b ∈ ds, isDigit b = true) → ds ≠ [] →
      2 ^ 63 < natFromDigits ds →
      rustParseI64 (45 :: ds) = none ∧
        rustParseF64 (45 :: ds) = roundRatF64 true (natFromDigits ds) 1) ∧
    (∀ d, 1 ≤ d →
      (lua_value [123, 97, 32, 61, 32, 48, 120, 102, 102, 102, 102, 102, 102,
          102, 102, 102, 102, 102, 102, 102, 102, 102, 102, 44, 32, 98, 32,
          61, 32, 57, 50, 50, 51, 51, 55, 50, 48, 51, 54, 56, 53, 52, 55, 55,
          53, 56, 48, 56, 125] d).1 =
        some (.Table [.NameValue [97] (.Number (.Integer (-1))),
          .NameValue [98] (.Number (.Float
            (.finite false 4503599627370496 11)))])) := by
  refine ⟨fun ds pos h => wrapping_parse_int_hex ds pos h,
    fun c rest h1 h2 => decimal_overflow_pos h1 h2,
    fun ds h1 h2 h3 => decimal_overflow_neg h1 h2 h3,
    fun d hd => lua_value_budget hd rfl⟩

theorem c3_integer_overflow_policy_witness :
    (lua_value [123, 97, 32, 61, 32, 48, 120, 102, 102, 102, 102, 102, 102,
        102, 102, 102, 102, 102, 102, 102, 102, 102, 102, 44, 32, 98, 32,
        61, 32, 57, 50, 50, 51, 51, 55, 50, 48, 51, 54, 56, 53, 52, 55, 55,
        53, 56, 48, 56, 125] 1).1 =
      some (.Table [.NameValue [97] (.Number (.Integer (-1))),
        .NameValue [98] (.Number (.Float
          (.finite false 4503599627370496 11)))]) ∧
    rustParseI64 [57, 50, 50, 51, 51, 55, 50, 48, 51, 54, 56, 53, 52, 55, 55,
      53, 56, 48, 56] = none :=
  ⟨c3_integer_overflow_policy.2.2.2 1 (le_refl 1),
    (c3_integer_overflow_policy.2.1 57
      [50, 50, 51, 51, 55, 50, 48, 51, 54, 56, 53, 52, 55, 55, 53, 56, 48, 56]
      (by decide) (by decide)).1⟩

/-- C4: a `\u{H...}` escape with value `v ≤ 0x7FFFFFFF` yields exactly the
RFC 2279 UTF-8 encoding of `v` (one borrowed byte below `0x80`, an owned
buffer otherwise), and fails for `v > 0x7FFFFFFF`; e.g. the surrogate
`"\u{D800}"` parses to the 3-byte encoding and `"\u{80000000}"` is rejected
at every depth. -/
theorem c4_unicode_escape_rfc2279 :
    (∀ (inp : List Nat) (pos : Nat),
      matchAt inp pos [92, 117, 123] = true →
      runLen inp isHexDigit (pos + 3) ≠ 0 →
      inp.get? (pos + 3 + runLen inp isHexDigit (pos + 3)) = some 125 →
      (escapedCharP inp pos).1 =
        (if natFromHexDigits (slice inp (pos + 3)
              (runLen inp isHexDigit (pos + 3))) < 0x80 then
          some (CowBytes.borrowed (rfc2279utf8 (natFromHexDigits (slice inp
            (pos + 3) (runLen inp isHexDigit (pos + 3))))),
            pos + 3 + runLen inp isHexDigit (pos + 3) + 1)
        else if natFromHexDigits (slice inp (pos + 3)
              (runLen inp isHexDigit (pos + 3))) ≤ 0x7FFFFFFF then
          some (CowBytes.owned (rfc2279utf8 (natFromHexDigits (slice inp
            (pos + 3) (runLen inp isHexDigit (pos + 3))))) 8,
            pos + 3 + runLen inp isHexDigit (pos + 3) + 1)
        else none)) ∧
    (lua_value [34, 92, 117, 123, 68, 56, 48, 48, 125, 34] 0).1 =
      some (.String (.owned [237, 160, 128] 8)) ∧
    (∀ d, (lua_value [34, 92, 117, 123, 56, 48, 48, 48, 48, 48, 48, 48, 125,
      34] d).1 = none) :=
  ⟨fun _ _ hm hn hc => escapedCharP_u hm hn hc, rfl, fun _ => rfl⟩

theorem c4_unicode_escape_rfc2279_witness :
    (escapedCharP [92, 117, 123, 102, 102, 125] 0).1 =
      some (.owned [195, 191] 8, 6) := by
  rw [c4_unicode_escape_rfc2279.1 [92, 117, 123, 102, 102, 125] 0 (by decide)
    (by decide) rfl]
  rfl

/-- C5: the zero-copy assembly invariants — `merge_spans` on zero, one and
many spans (owned capacity = exact total length), long-bracket strings are
always borrowed, and escape-free short strings are one borrowed slice of the
input. -/
theorem c5_zero_copy_strings :
    merge_spans [] = CowBytes.borrowed [] ∧
    (∀ x : CowBytes, merge_spans [x] = x) ∧
    (∀ (a b : CowBytes) (l : List CowBytes),
      merge_spans (a :: b :: l) =
        .owned ((a :: b :: l).flatMap CowBytes.bytes)
          (((a :: b :: l).map (fun s => s.bytes.length)).sum)) ∧
    (∀ l : List CowBytes,
      ((l.map (fun s => s.bytes.length)).sum) =
        (l.flatMap CowBytes.bytes).length) ∧
    (∀ (inp : List Nat) (pos : Nat) (s : CowBytes) (p : Nat),
      (longStringP inp pos).1 = some (s, p) →
      ∃ bs, s = CowBytes.borrowed bs) ∧
    (∀ (inp : List Nat) (level pos : Nat) (s : CowBytes) (p : Nat),
      (longerStringP inp level pos).1 = some (s, p) →
      ∃ bs, s = CowBytes.borrowed bs) ∧
    (∀ (inp : List Nat) (pos : Nat),
      inp.get? pos = some 34 →
      runLen inp (fun b => !(b = 34 || b = 92 || b = 13 || b = 10))
        (pos + 1) ≠ 0 →
      inp.get? (pos + 1 + runLen inp
        (fun b => !(b = 34 || b = 92 || b = 13 || b = 10)) (pos + 1)) =
        some 34 →
      (dqStringP inp pos).1 =
        some (CowBytes.borrowed (slice inp (pos + 1) (runLen inp
            (fun b => !(b = 34 || b = 92 || b = 13 || b = 10)) (pos + 1))),
          pos + 1 + runLen inp
            (fun b => !(b = 34 || b = 92 || b = 13 || b = 10)) (pos + 1) + 1)) ∧
    (∀ (inp : List Nat) (pos : Nat),
      inp.get? pos = some 39 →
      runLen inp (fun b => !(b = 39 || b = 92 || b = 13 || b = 10))
        (pos + 1) ≠ 0 →
      inp.get? (pos + 1 + runLen inp
        (fun b => !(b = 39 || b = 92 || b = 13 || b = 10)) (pos + 1)) =
        some 39 →
      (sqStringP inp pos).1 =
        some (CowBytes.borrowed (slice inp (pos + 1) (runLen inp
            (fun b => !(b = 39 || b = 92 || b = 13 || b = 10)) (pos + 1))),
          pos + 1 + runLen inp
            (fun b => !(b = 39 || b = 92 || b = 13 || b = 10)) (pos + 1) + 1)) :=
  ⟨merge_spans_nil, merge_spans_single, merge_spans_multi, merge_spans_cap_exact,
    fun _ _ _ _ h => longStringP_borrowed h,
    fun _ _ _ _ _ h => longerStringP_borrowed h,
    fun _ _ hq hn hc => dqStringP_no_escape hq hn hc,
    fun _ _ hq hn hc => sqStringP_no_escape hq hn hc⟩

theorem c5_zero_copy_strings_witness :
    (∃ bs, CowBytes.borrowed [107] = CowBytes.borrowed bs) ∧
    (dqStringP [34, 104, 105, 34] 0).1 =
      some (CowBytes.borrowed [104, 105], 4) :=
  ⟨c5_zero_copy_strings.2.2.2.2.1 [91, 91, 107, 93, 93] 0
      (CowBytes.borrowed [107]) 5 rfl,
    c5_zero_copy_strings.2.2.2.2.2.2.1 [34, 104, 105, 34] 0 rfl (by decide) rfl⟩

/-- C6 (corrected): a *non-empty* table of positional-equivalent entries
becomes the JSON array of the converted elements; a table with a keyed or
named entry becomes an object, with positional entries keyed `"1"`, `"2"`,
… consecutively regardless of the explicit keys, later same-key entries
overwriting.  (The empty table becomes the empty *object*, refuting the
"including the empty table" part: `c6_empty_table_cex`.) -/
theorem c6_json_table_heuristic :
    (∀ (entry : LuaTableEntry) (items : List LuaTableEntry)
        (opts : JsonConversionOptions) (js : List JsonValue),
      (∀ en ∈ entry :: items, en.implicit_key = true) →
      (entry :: items).mapM (positionalJson opts) = .ok js →
      to_json_value (.Table (entry :: items)) opts = .ok (.arr js)) ∧
    (∀ (items : List LuaTableEntry) (opts : JsonConversionOptions)
        (en : LuaTableEntry) (j : JsonValue),
      en ∈ items → en.implicit_key = false →
      to_json_value (.Table items) opts = .ok j →
      ∃ m, j = .obj m) ∧
    to_json_value (.Table [.Value (.Number (.Integer 5)),
        .NameValue [97] (.Number (.Integer 7)),
        .Value (.Number (.Integer 6))]) ⟨false⟩ =
      .ok (.obj [([49], .num (.int 5)), ([50], .num (.int 6)),
        ([97], .num (.int 7))]) ∧
    to_json_value (.Table [.KeyValue (.String (.borrowed [49]))
        (.Number (.Integer 9)), .Value (.Number (.Integer 5))]) ⟨false⟩ =
      .ok (.obj [([49], .num (.int 5))]) := by
  refine ⟨?_, ?_, ?_, ?_⟩
  · intro entry items opts js hall hmap
    obtain ⟨y, ys, hy, hys, hjs⟩ := exceptMapM_cons _ _ _ _ hmap
    unfold to_json_value
    rw [if_neg (by simp)]
    rw [jsonTableFold_positional (entry :: items) opts [] 1 js hall hmap]
    subst hjs
    simp only [List.nil_append, List.isEmpty_nil, List.isEmpty_cons]
  · intro items opts en j hen himp h
    unfold to_json_value at h
    rw [if_neg (fun hc => (List.ne_nil_of_mem hen)
      (List.isEmpty_iff_eq_nil.1 hc))] at h
    cases hf : jsonTableFold items opts [] [] 1 with
    | error e2 =>
      rw [hf] at h
      simp only at h
      exact Except.noConfusion h
    | ok triple =>
      obtain ⟨object, array, i2⟩ := triple
      rw [hf] at h
      simp only at h
      have hne := jsonTableFold_obj items opts [] [] 1 object array i2
        (Or.inr ⟨en, hen, himp⟩) hf
      cases object with
      | nil => exact absurd rfl hne
      | cons p2 l2 =>
        cases array with
        | nil =>
          simp only [List.isEmpty_cons, List.isEmpty_nil] at h
          exact ⟨p2 :: l2, (Except.ok.inj h).symm⟩
        | cons q2 r2 =>
          simp only [List.isEmpty_cons] at h
          exact Except.noConfusion h
  · simp [to_json_value, jsonTableFold, move_array_to_object, objInsert,
      intDec, natDec, natDecAux, bytesCmp, jsonNumberOfLua, Except.map]
  · simp [to_json_value, jsonTableFold, move_array_to_object, objInsert,
      intDec, natDec, natDecAux, bytesCmp, jsonNumberOfLua, Except.map,
      show luaKeyString ⟨false⟩ (LuaValue.String (.borrowed [49])) =
        .ok [49] from rfl]

theorem c6_json_table_heuristic_witness :
    to_json_value (.Table [.NilValue]) ⟨false⟩ = .ok (.arr [.null]) :=
  c6_json_table_heuristic.1 .NilValue [] ⟨false⟩ [.null] (by decide) rfl

/-- C6 counterexample: the empty table converts to the empty JSON *object*,
not an array. -/
theorem c6_empty_table_cex :
    to_json_value (.Table []) ⟨false⟩ = .ok (.obj []) ∧
    to_json_value (.Table []) ⟨false⟩ ≠ .ok (.arr []) := by
  constructor
  · simp [to_json_value]
  · intro h
    rw [show to_json_value (.Table []) ⟨false⟩ = .ok (.obj []) from by
      simp [to_json_value]] at h
    exact JsonValue.noConfusion (Except.ok.inj h)

/-- C8: the formatter refuses a `Named` entry whose name fails
`valid_lua_identifier` with the fatal `InvalidLuaIdentifier` error, writes a
valid name bare as `name = value`, and the predicate holds exactly of the
non-empty non-keyword strings of identifier characters. -/
theorem c8_identifier_guard :
    (∀ (name : List Nat) (v : LuaValue) (first : Bool),
      valid_lua_identifier name = false →
      LuaTableEntry.to_writer (.NameValue name v) first =
        .error (.InvalidLuaIdentifier name)) ∧
    (∀ (name : List Nat) (v : LuaValue) (first : Bool),
      valid_lua_identifier name = true →
      LuaTableEntry.to_writer (.NameValue name v) first =
        (LuaValue.to_writer v).map
          (fun bs => (if first then [] else [44]) ++ name ++ [61] ++ bs)) ∧
    (∀ i : List Nat, valid_lua_identifier i = true ↔
      i ≠ [] ∧ i ∉ LUA_KEYWORDS ∧
      ∃ first rest, i = first :: rest ∧
        (isAlpha first || first = 95) = true ∧
        (rest.all fun c => isAlpha c || isDigit c || c = 95) = true) := by
  refine ⟨?_, ?_, valid_lua_identifier_iff⟩
  · intro name v first h
    unfold LuaTableEntry.to_writer
    simp only [h, Bool.false_eq_true, if_false]
  · intro name v first h
    unfold LuaTableEntry.to_writer
    simp only [h, if_true]
    cases hw : LuaValue.to_writer v with
    | error e => simp [Except.map]
    | ok bs => simp [Except.map, List.append_assoc]

theorem c8_identifier_guard_witness :
    LuaTableEntry.to_writer (.NameValue [49] .Nil) true =
      .error (.InvalidLuaIdentifier [49]) ∧
    LuaTableEntry.to_writer (.NameValue [97] .Nil) true =
      .ok [97, 61, 110, 105, 108] := by
  constructor
  · exact c8_identifier_guard.1 [49] .Nil true (by decide)
  · rw [c8_identifier_guard.2.1 [97] .Nil true (by decide)]
    simp [LuaValue.to_writer, Except.map]

end SerdeLuaq
